import Mathlib

/-!
# Region (geometry/region2d.hpp): an ordered polygon boundary with a cached bounding rectangle

Shallow embedding of `m2::Region<PointT>` and theorems about its mutators, its bounding
rectangle and its point-containment predicate `Contains`.

Conventions of the embedding:
* a coordinate is a rational number (`ℚ`); the values of the coordinate types `float`,
  `double`, `int32_t` and `uint32_t` are among them;
* `vector<PointT>` is a `List Point`; `m_points[i]` is `List.getD` (every index
  used by the code is in range);
* the counters `rCross` / `lCross` start at 0 and are only incremented, so they
  are natural numbers;
* the loop of `Contains` is given twice. `Region.scanLoopD` computes `curr`, `prev` and `x`
  in `double` (`Dbl`, `roundD`: IEEE 754 binary64, round to nearest, ties to even, every
  operation rounded on its own, no fused multiply-add), as the code does.
  `Region.scanLoop` is the same loop in exact arithmetic; it carries the statements that do
  not depend on the arithmetic and the geometry behind the others, which reaches
  `Region.scanLoopD` through `scanD_eq_scan`.
-/

namespace m2

/-! ## Definitions -/

/-- Modelled from the spec: `point2d.hpp` is not among the sources. A Point is a
2-D coordinate pair over a numeric type supporting equality and subtraction. -/
structure Point where
  x : ℚ
  y : ℚ
deriving DecidableEq

instance : Inhabited Point := ⟨⟨0, 0⟩⟩

/-- Modelled from the spec: `operator==` of `point2d.hpp` (not among the sources),
the component-wise equality in the coordinate type. -/
def Point.equal (a b : Point) : Bool :=
  decide (a.x = b.x) && decide (a.y = b.y)

/-- Modelled from the spec: `rect2d.hpp` is not among the sources. A BoundingRect is
an axis-aligned rectangle that is either empty or given by its four limits. -/
inductive Rect where
  | empty : Rect
  | box (minX minY maxX maxY : ℚ) : Rect
deriving DecidableEq

/-- Modelled from the spec: `Rect::MakeEmpty` (not among the sources) resets the
rectangle to the empty one. -/
def Rect.MakeEmpty (_r : Rect) : Rect := Rect.empty

/-- Modelled from the spec: `Rect::Add` (the spec's `Extend(point)`, not among the
sources) grows the rectangle just enough to enclose the point. -/
def Rect.Add : Rect → Point → Rect
  | Rect.empty, p => Rect.box p.x p.y p.x p.y
  | Rect.box minX minY maxX maxY, p =>
      Rect.box (min p.x minX) (min p.y minY) (max p.x maxX) (max p.y maxY)

/-- Modelled from the spec: `Rect::IsPointInside` (the spec's `ContainsPoint(point)`,
not among the sources); the limits themselves count as inside and the empty
rectangle holds no point. -/
def Rect.IsPointInside : Rect → Point → Bool
  | Rect.empty, _ => false
  | Rect.box minX minY maxX maxY, pt =>
      decide (minX ≤ pt.x) && decide (pt.x ≤ maxX) && decide (minY ≤ pt.y) && decide (pt.y ≤ maxY)

/-- The class `Region`: the vertex sequence `m_points` and the limit rectangle `m_rect`. -/
structure Region where
  m_points : List Point
  m_rect : Rect
deriving DecidableEq

/-- The default constructor `Region() {}`: no points, default (empty) rectangle. -/
def Region.mk0 : Region := ⟨[], Rect.empty⟩

/-- The range constructor `Region(first, last)`: copy the points, then add each of
them to the default (empty) rectangle. -/
def Region.ofRange (xs : List Point) : Region :=
  ⟨xs, xs.foldl Rect.Add Rect.empty⟩

/-- The method `Assign(first, last)`: replace the points, empty the rectangle, add each point. -/
def Region.Assign (r : Region) (xs : List Point) : Region :=
  ⟨xs, xs.foldl Rect.Add r.m_rect.MakeEmpty⟩

/-- The method `AddPoint(pt)`: `push_back` the point and add it to the rectangle. -/
def Region.AddPoint (r : Region) (pt : Point) : Region :=
  ⟨r.m_points ++ [pt], r.m_rect.Add pt⟩

/-- The method `ForEachPoint(f)`: call the visitor on every stored point, first to last.
The visitor is a state transformer `f : σ → Point → σ`; the region itself is `const`
and is handed back unchanged next to the visitor's final state. -/
def Region.ForEachPoint {σ : Type} (r : Region) (f : σ → Point → σ) (s : σ) : Region × σ :=
  (r, r.m_points.foldl f s)

/-- The method `Rect()`: the cached rectangle. -/
def Region.Rect (r : Region) : Rect := r.m_rect

/-- The method `IsValid()`: `m_points.size() > 2`. -/
def Region.IsValid (r : Region) : Bool := decide (r.m_points.length > 2)

/-- The abscissa at which the line through `prev` and `curr` meets the x-axis:
`(curr.x * prev.y - prev.x * curr.y) / (prev.y - curr.y)`, as in both branches of `Contains`,
in exact arithmetic. The code computes it in `double`: see `crossXD`. -/
def crossX (curr prev : Point) : ℚ :=
  (curr.x * prev.y - prev.x * curr.y) / (prev.y - curr.y)

/-- How the `for` loop of `Contains` ends: by `return true` at a vertex, or by running
to the end with the two crossing counters. -/
inductive Scan where
  | vertex : Scan
  | finished (rCross lCross : Nat) : Scan
deriving DecidableEq

/-- The `for (size_t i = 0; i < numPoints; ++i)` loop of `Contains` in exact arithmetic
(the code computes `curr`, `prev` and `x` in `double`: see `Region.scanLoopD`). The first
argument is the number of iterations still to run (`numPoints - i`), on which the recursion
is structural; `i`, `rCross`, `lCross` are the loop variables. -/
def Region.scanLoop (r : Region) (pt : Point) (numPoints : Nat) : Nat → Nat → Nat → Nat → Scan
  | 0, _, rCross, lCross => Scan.finished rCross lCross
  | k + 1, i, rCross, lCross =>
    if (r.m_points.getD i default).equal pt then Scan.vertex
    else
      let i1 := (i + numPoints - 1) % numPoints
      let curr : Point :=
        ⟨(r.m_points.getD i default).x - pt.x, (r.m_points.getD i default).y - pt.y⟩
      let prev : Point :=
        ⟨(r.m_points.getD i1 default).x - pt.x, (r.m_points.getD i1 default).y - pt.y⟩
      let rCross1 :=
        if decide (curr.y > 0) != decide (prev.y > 0) then
          (if crossX curr prev > 0 then rCross + 1 else rCross)
        else rCross
      let lCross1 :=
        if decide (curr.y < 0) != decide (prev.y < 0) then
          (if crossX curr prev < 0 then lCross + 1 else lCross)
        else lCross
      Region.scanLoop r pt numPoints k (i + 1) rCross1 lCross1

/-- The whole scan of `Contains` in exact arithmetic: the loop started at `i = 0` with both
counters 0. -/
def Region.scan (r : Region) (pt : Point) : Scan :=
  r.scanLoop pt r.m_points.length r.m_points.length 0 0 0

/-- The method `Contains(pt)` with the scan in exact arithmetic. -/
def Region.Contains (r : Region) (pt : Point) : Bool :=
  if !r.IsValid || !r.m_rect.IsPointInside pt then false
  else
    match r.scan pt with
    | Scan.vertex => true
    | Scan.finished rCross lCross =>
      if rCross % 2 != lCross % 2 then true
      else if rCross % 2 == 1 then true
      else false

/-- One step of a region's life: a (re)construction from a range, an `Assign`, or an `AddPoint`. -/
inductive Mutator where
  | construct (xs : List Point) : Mutator
  | assign (xs : List Point) : Mutator
  | addPoint (p : Point) : Mutator

/-- Apply one mutator to a region (`construct` builds a new region and drops the old one). -/
def Mutator.apply (r : Region) : Mutator → Region
  | Mutator.construct xs => Region.ofRange xs
  | Mutator.assign xs => r.Assign xs
  | Mutator.addPoint p => r.AddPoint p

/-- The region reached from the empty region by a sequence of mutators. -/
def Region.run (ops : List Mutator) : Region :=
  ops.foldl Mutator.apply Region.mk0

/-- The minimal axis-aligned box of a point sequence, written with `min` and `max` over the
coordinate lists: the empty rectangle for no points. -/
def minimalBox : List Point → Rect
  | [] => Rect.empty
  | p :: ps =>
      Rect.box ((ps.map Point.x).foldl min p.x) ((ps.map Point.y).foldl min p.y)
        ((ps.map Point.x).foldl max p.x) ((ps.map Point.y).foldl max p.y)

/-- The vertex `m_points[i]` translated so that `pt` is the origin (the loop's `curr`, and
its `prev` when `i` is the index before). -/
def rel (pts : List Point) (pt : Point) (i : Nat) : Point :=
  ⟨(pts.getD i default).x - pt.x, (pts.getD i default).y - pt.y⟩

/-- The cyclic predecessor `(i + numPoints - 1) % numPoints` of an index. -/
def prevIdx (numPoints i : Nat) : Nat := (i + numPoints - 1) % numPoints

/-- The edge `(prev, curr)`, seen from the query point, is counted by `rCross`:
`(curr.y > 0) != (prev.y > 0)` and the abscissa `x` is strictly positive. -/
def rHit (curr prev : Point) : Bool :=
  (decide (curr.y > 0) != decide (prev.y > 0)) && decide (crossX curr prev > 0)

/-- The edge `(prev, curr)`, seen from the query point, is counted by `lCross`:
`(curr.y < 0) != (prev.y < 0)` and the abscissa `x` is strictly negative. -/
def lHit (curr prev : Point) : Bool :=
  (decide (curr.y < 0) != decide (prev.y < 0)) && decide (crossX curr prev < 0)

/-- The number of cyclic edges `(vertex[i-1 mod n], vertex[i])` counted by `rCross`. -/
def rCount (pts : List Point) (pt : Point) : Nat :=
  ∑ i in Finset.range pts.length,
    if rHit (rel pts pt i) (rel pts pt (prevIdx pts.length i)) then 1 else 0

/-- The number of cyclic edges `(vertex[i-1 mod n], vertex[i])` counted by `lCross`. -/
def lCount (pts : List Point) (pt : Point) : Nat :=
  ∑ i in Finset.range pts.length,
    if lHit (rel pts pt i) (rel pts pt (prevIdx pts.length i)) then 1 else 0

/-- The cross product `a × b` of two vectors. -/
def cross (a b : Point) : ℚ := a.x * b.y - a.y * b.x

/-- The dot product of two vectors. -/
def dot (a b : Point) : ℚ := a.x * b.x + a.y * b.y

/-- The difference `a - b` of two points. -/
def Point.sub (a b : Point) : Point := ⟨a.x - b.x, a.y - b.y⟩

/-- The point `p` lies on the closed segment from `a` to `b`: it is collinear with the two
end points and not strictly beyond either of them. -/
def onSegment (a b p : Point) : Bool :=
  decide (cross (b.sub a) (p.sub a) = 0) && decide (dot (a.sub p) (b.sub p) ≤ 0)

/-- The number of cyclic edges of the vertex sequence that pass through `pt`. -/
def edgesThrough (pts : List Point) (pt : Point) : Nat :=
  ∑ i in Finset.range pts.length,
    if onSegment (pts.getD (prevIdx pts.length i) default) (pts.getD i default) pt then 1 else 0

/-- The vector `v` points into the open upper half-plane or along the negative x-axis. Both
crossing counters change parity together exactly when an edge moves between this set and
its complement without passing through the origin. -/
def upperSide (v : Point) : Bool := decide (v.y > 0 ∨ (v.y = 0 ∧ v.x < 0))

/-- Twice the signed area of the triangle `a`, `b`, `p`: positive exactly when `p` lies
strictly to the left of the directed line from `a` to `b`. -/
def leftOf (a b p : Point) : ℚ := cross (b.sub a) (p.sub a)

/-- The vertex sequence is in strictly convex position and listed in boundary order,
counter-clockwise for `s > 0` and clockwise for `s < 0`: for every cyclic edge, every vertex
other than its two ends lies strictly on the inner side of the edge. -/
def StrictlyConvex (s : ℚ) (pts : List Point) : Prop :=
  ∀ i, i < pts.length → ∀ k, k < pts.length → k ≠ i → k ≠ prevIdx pts.length i →
    0 < s * leftOf (pts.getD (prevIdx pts.length i) default) (pts.getD i default)
      (pts.getD k default)

instance (s : ℚ) (pts : List Point) : Decidable (StrictlyConvex s pts) := by
  unfold StrictlyConvex
  infer_instance

/-- The point `pt` lies strictly on the inner side of every cyclic edge of the vertex
sequence (to the left for `s > 0`, to the right for `s < 0`). -/
def StrictlyInside (s : ℚ) (pts : List Point) (pt : Point) : Prop :=
  ∀ i, i < pts.length →
    0 < s * leftOf (pts.getD (prevIdx pts.length i) default) (pts.getD i default) pt

instance (s : ℚ) (pts : List Point) (pt : Point) : Decidable (StrictlyInside s pts pt) := by
  unfold StrictlyInside
  infer_instance

/-- A division that fails on a zero divisor: the arithmetic of the two ray branches with
the failure made visible. -/
def checkedDiv (a b : ℚ) : Option ℚ :=
  if b = 0 then none else some (a / b)

/-- The loop of `Contains` with every division checked: the same control structure as
`Region.scanLoop`, returning `none` as soon as a divisor `prev.y - curr.y` is zero. -/
def Region.scanLoopChecked (r : Region) (pt : Point) (numPoints : Nat) :
    Nat → Nat → Nat → Nat → Option Scan
  | 0, _, rCross, lCross => some (Scan.finished rCross lCross)
  | k + 1, i, rCross, lCross =>
    if (r.m_points.getD i default).equal pt then some Scan.vertex
    else
      let i1 := (i + numPoints - 1) % numPoints
      let curr : Point :=
        ⟨(r.m_points.getD i default).x - pt.x, (r.m_points.getD i default).y - pt.y⟩
      let prev : Point :=
        ⟨(r.m_points.getD i1 default).x - pt.x, (r.m_points.getD i1 default).y - pt.y⟩
      let rCross1 : Option Nat :=
        if decide (curr.y > 0) != decide (prev.y > 0) then
          (checkedDiv (curr.x * prev.y - prev.x * curr.y) (prev.y - curr.y)).map
            (fun x => if x > 0 then rCross + 1 else rCross)
        else some rCross
      let lCross1 : Option Nat :=
        if decide (curr.y < 0) != decide (prev.y < 0) then
          (checkedDiv (curr.x * prev.y - prev.x * curr.y) (prev.y - curr.y)).map
            (fun x => if x < 0 then lCross + 1 else lCross)
        else some lCross
      match rCross1, lCross1 with
      | some rc, some lc => Region.scanLoopChecked r pt numPoints k (i + 1) rc lc
      | _, _ => none

/-- The method `Contains(pt)` with every division checked: `none` stands for a division by
zero somewhere in the scan. -/
def Region.ContainsChecked (r : Region) (pt : Point) : Option Bool :=
  if !r.IsValid || !r.m_rect.IsPointInside pt then some false
  else
    match r.scanLoopChecked pt r.m_points.length r.m_points.length 0 0 0 with
    | none => none
    | some Scan.vertex => some true
    | some (Scan.finished rCross lCross) =>
      if rCross % 2 != lCross % 2 then some true
      else if rCross % 2 == 1 then some true
      else some false

/-- The containment predicate as the specification words it: Step 0, the two fast paths;
Step 1, a scan of all vertices for an exact hit; Step 2, the two crossing counts over all
cyclic edges; Step 3, the classification by parity. -/
def Region.ContainsSpec (r : Region) (pt : Point) : Bool :=
  if !r.IsValid || !r.m_rect.IsPointInside pt then false
  else if r.m_points.any (fun v => v.equal pt) then true
  else if rCount r.m_points pt % 2 != lCount r.m_points pt % 2 then true
  else if rCount r.m_points pt % 2 == 1 then true
  else false

/-- The last point of the non-empty sequence `a :: l`. -/
def lastFrom (a : Point) : List Point → Point
  | [] => a
  | b :: l => lastFrom b l

/-- The sum of `g prev curr` over the cyclic edges of a vertex sequence, read off the list
itself: the closing edge from the last vertex to the first, then the consecutive pairs. -/
def cycSum (g : Point → Point → ℕ) : List Point → ℕ
  | [] => 0
  | a :: l => g (lastFrom a l) a + (List.zipWith g (a :: l) l).sum

/-- The vertex sequence with a copy of vertex `i` inserted immediately after vertex `i`. -/
def dupAt (pts : List Point) (i : Nat) : List Point :=
  pts.take (i + 1) ++ pts.drop i

/-- A value of the type `double` (IEEE 754 binary64): a finite number, one of the two
infinities, or a NaN. The two zeros are the one value `fin 0`: they compare equal, neither is
`> 0` nor `< 0`, and the sign of a zero reaches a result only through a division by it, which
the loop of `Contains` never performs. -/
inductive Dbl where
  | fin (q : ℚ) : Dbl
  | pinf : Dbl
  | ninf : Dbl
  | nan : Dbl
deriving DecidableEq

/-- The integer nearest to `t`, the even one of the two when `t` lies half-way. -/
def roundNE (t : ℚ) : ℤ :=
  if t - ⌊t⌋ < 1 / 2 then ⌊t⌋
  else if 1 / 2 < t - ⌊t⌋ then ⌊t⌋ + 1
  else if ⌊t⌋ % 2 = 0 then ⌊t⌋
  else ⌊t⌋ + 1

/-- The rounding of an exact result to `double` in the default mode (to nearest, ties to
even): 53 significant bits for the binary exponents from -1022 up, the fixed spacing
`2 ^ -1074` below them (subnormal numbers, underflow to zero), and an infinity once the
rounded magnitude reaches `2 ^ 1024`. -/
def roundD (q : ℚ) : Dbl :=
  if q = 0 then Dbl.fin 0
  else
    let e : ℤ := max (Int.log 2 |q|) (-1022)
    let ulp : ℚ := 2 ^ (e - 52)
    let r : ℚ := roundNE (|q| / ulp) * ulp
    if (2 : ℚ) ^ (1024 : ℤ) ≤ r then (if 0 < q then Dbl.pinf else Dbl.ninf)
    else Dbl.fin (if 0 < q then r else -r)

/-- The operator `-` of `double`. -/
def Dbl.sub : Dbl → Dbl → Dbl
  | Dbl.fin a, Dbl.fin b => roundD (a - b)
  | Dbl.fin _, Dbl.pinf => Dbl.ninf
  | Dbl.fin _, Dbl.ninf => Dbl.pinf
  | Dbl.pinf, Dbl.fin _ => Dbl.pinf
  | Dbl.pinf, Dbl.ninf => Dbl.pinf
  | Dbl.ninf, Dbl.fin _ => Dbl.ninf
  | Dbl.ninf, Dbl.pinf => Dbl.ninf
  | _, _ => Dbl.nan

/-- The operator `*` of `double`. -/
def Dbl.mul : Dbl → Dbl → Dbl
  | Dbl.fin a, Dbl.fin b => roundD (a * b)
  | Dbl.fin a, Dbl.pinf => if 0 < a then Dbl.pinf else if a < 0 then Dbl.ninf else Dbl.nan
  | Dbl.fin a, Dbl.ninf => if 0 < a then Dbl.ninf else if a < 0 then Dbl.pinf else Dbl.nan
  | Dbl.pinf, Dbl.fin b => if 0 < b then Dbl.pinf else if b < 0 then Dbl.ninf else Dbl.nan
  | Dbl.ninf, Dbl.fin b => if 0 < b then Dbl.ninf else if b < 0 then Dbl.pinf else Dbl.nan
  | Dbl.pinf, Dbl.pinf => Dbl.pinf
  | Dbl.pinf, Dbl.ninf => Dbl.ninf
  | Dbl.ninf, Dbl.pinf => Dbl.ninf
  | Dbl.ninf, Dbl.ninf => Dbl.pinf
  | _, _ => Dbl.nan

/-- The operator `/` of `double`. A quotient by a zero is a NaN or an infinity whose sign
is that of the zero; the model, which has one zero, gives NaN for it. The loop of `Contains`
never forms such a quotient (`divisorD_ne_zero`). -/
def Dbl.div : Dbl → Dbl → Dbl
  | Dbl.fin a, Dbl.fin b => if b = 0 then Dbl.nan else roundD (a / b)
  | Dbl.fin _, Dbl.pinf => Dbl.fin 0
  | Dbl.fin _, Dbl.ninf => Dbl.fin 0
  | Dbl.pinf, Dbl.fin b => if 0 < b then Dbl.pinf else if b < 0 then Dbl.ninf else Dbl.nan
  | Dbl.ninf, Dbl.fin b => if 0 < b then Dbl.ninf else if b < 0 then Dbl.pinf else Dbl.nan
  | _, _ => Dbl.nan

/-- The comparison `d > c` of a `double` with a finite constant; false for a NaN. -/
def Dbl.gt (d : Dbl) (c : ℚ) : Bool :=
  match d with
  | Dbl.fin q => decide (q > c)
  | Dbl.pinf => true
  | Dbl.ninf => false
  | Dbl.nan => false

/-- The comparison `d < c` of a `double` with a finite constant; false for a NaN. -/
def Dbl.lt (d : Dbl) (c : ℚ) : Bool :=
  match d with
  | Dbl.fin q => decide (q < c)
  | Dbl.pinf => false
  | Dbl.ninf => true
  | Dbl.nan => false

/-- The type `m2::PointD` of the loop's `curr` and `prev`: a pair of `double`s. -/
structure PointD where
  x : Dbl
  y : Dbl
deriving DecidableEq

/-- The abscissa `x` of both branches of `Contains` as the code computes it:
`(curr.x * prev.y - prev.x * curr.y) / (prev.y - curr.y)` with every operation a `double`
operation, rounded on its own. -/
def crossXD (curr prev : PointD) : Dbl :=
  Dbl.div (Dbl.sub (Dbl.mul curr.x prev.y) (Dbl.mul prev.x curr.y)) (Dbl.sub prev.y curr.y)

/-- The loop's `curr` (and `prev`) for the vertex `v`:
`((double)v.x - (double)pt.x, (double)v.y - (double)pt.y)`. The conversion `(double)c` is
`roundD c`; it is the identity on the values of the coordinate types `float`, `double`,
`int32_t` and `uint32_t`, all of which are `double`s. -/
def relD (v pt : Point) : PointD :=
  ⟨Dbl.sub (roundD v.x) (roundD pt.x), Dbl.sub (roundD v.y) (roundD pt.y)⟩

/-- The `for (size_t i = 0; i < numPoints; ++i)` loop of `Contains` in the arithmetic of the
code: the vertex comparison is made in the coordinate type, `curr`, `prev` and `x` are
`double`s. The first argument is the number of iterations still to run, on which the
recursion is structural. -/
def Region.scanLoopD (r : Region) (pt : Point) (numPoints : Nat) : Nat → Nat → Nat → Nat → Scan
  | 0, _, rCross, lCross => Scan.finished rCross lCross
  | k + 1, i, rCross, lCross =>
    if (r.m_points.getD i default).equal pt then Scan.vertex
    else
      let i1 := (i + numPoints - 1) % numPoints
      let curr : PointD := relD (r.m_points.getD i default) pt
      let prev : PointD := relD (r.m_points.getD i1 default) pt
      let rCross1 :=
        if curr.y.gt 0 != prev.y.gt 0 then
          (if (crossXD curr prev).gt 0 then rCross + 1 else rCross)
        else rCross
      let lCross1 :=
        if curr.y.lt 0 != prev.y.lt 0 then
          (if (crossXD curr prev).lt 0 then lCross + 1 else lCross)
        else lCross
      Region.scanLoopD r pt numPoints k (i + 1) rCross1 lCross1

/-- The whole scan of `Contains` in `double`: the loop started at `i = 0`, both counters 0. -/
def Region.scanD (r : Region) (pt : Point) : Scan :=
  r.scanLoopD pt r.m_points.length r.m_points.length 0 0 0

/-- The method `Contains(pt)` with the arithmetic of the code (`double`). -/
def Region.ContainsD (r : Region) (pt : Point) : Bool :=
  if !r.IsValid || !r.m_rect.IsPointInside pt then false
  else
    match r.scanD pt with
    | Scan.vertex => true
    | Scan.finished rCross lCross =>
      if rCross % 2 != lCross % 2 then true
      else if rCross % 2 == 1 then true
      else false

/-- The edge `(prev, curr)` is counted by `rCross` in the loop in `double`. -/
def rHitD (curr prev : PointD) : Bool :=
  (curr.y.gt 0 != prev.y.gt 0) && (crossXD curr prev).gt 0

/-- The edge `(prev, curr)` is counted by `lCross` in the loop in `double`. -/
def lHitD (curr prev : PointD) : Bool :=
  (curr.y.lt 0 != prev.y.lt 0) && (crossXD curr prev).lt 0

/-- The number `q` is an integer of absolute value at most `b`. -/
def IsIntUpTo (b : ℕ) (q : ℚ) : Prop := q.den = 1 ∧ q.num.natAbs ≤ b

instance (b : ℕ) (q : ℚ) : Decidable (IsIntUpTo b q) := by
  unfold IsIntUpTo
  infer_instance

/-- Both coordinates of the point are integers of absolute value at most `b`. -/
def Point.IntUpTo (b : ℕ) (v : Point) : Prop := IsIntUpTo b v.x ∧ IsIntUpTo b v.y

instance (b : ℕ) (v : Point) : Decidable (v.IntUpTo b) := by
  unfold Point.IntUpTo
  infer_instance

/-- A point with `double` coordinates that are finite, as a `PointD`. -/
def PointD.ofPoint (p : Point) : PointD := ⟨Dbl.fin p.x, Dbl.fin p.y⟩

/-- The number of cyclic edges counted by `rCross` in the loop in `double`. -/
def rCountD (pts : List Point) (pt : Point) : Nat :=
  ∑ i in Finset.range pts.length,
    if rHitD (relD (pts.getD i default) pt) (relD (pts.getD (prevIdx pts.length i) default) pt)
    then 1 else 0

/-- The number of cyclic edges counted by `lCross` in the loop in `double`. -/
def lCountD (pts : List Point) (pt : Point) : Nat :=
  ∑ i in Finset.range pts.length,
    if lHitD (relD (pts.getD i default) pt) (relD (pts.getD (prevIdx pts.length i) default) pt)
    then 1 else 0

/-- The `double` part of the static function `AreaSign`: from the four coordinate
differences `end.x - start.x`, `pt.y - start.y`, `pt.x - start.x`, `end.y - start.y`, once
converted to `double`, the area `a * b - c * d` with each operation rounded on its own, and
its comparison with `0.5` and `-0.5`. -/
def areaSignOfDiffs (a b c d : Dbl) : Int :=
  let area : Dbl := Dbl.sub (Dbl.mul a b) (Dbl.mul c d)
  if area.gt (1 / 2) then 1
  else if area.lt (-(1 / 2)) then -1
  else 0

/-- Modelled from the spec: `PointU` of `point2d.hpp` (not among the sources), a point with
unsigned 32-bit coordinates; the coordinates are natural numbers below `2 ^ 32`. -/
structure PointU where
  x : Nat
  y : Nat
deriving DecidableEq

/-- The subtraction `a - b` of two `uint32_t` values: the result wraps modulo `2 ^ 32`. -/
def subU32 (a b : Nat) : Nat := (a % 2 ^ 32 + 2 ^ 32 - b % 2 ^ 32) % 2 ^ 32

/-- The static function `AreaSign(start, end, pt)` as instantiated for `PointU`: each of the
four differences is taken in `uint32_t` and only then converted to `double`. -/
def AreaSignU (start endPt pt : PointU) : Int :=
  areaSignOfDiffs (roundD (subU32 endPt.x start.x : ℚ)) (roundD (subU32 pt.y start.y : ℚ))
    (roundD (subU32 pt.x start.x : ℚ)) (roundD (subU32 endPt.y start.y : ℚ))

/-- The signed area of the triangle `start`, `end`, `pt` as a number:
`(end.x - start.x) * (pt.y - start.y) - (pt.x - start.x) * (end.y - start.y)` in exact
arithmetic. -/
def exactArea (start endPt pt : Point) : ℚ :=
  (endPt.x - start.x) * (pt.y - start.y) - (pt.x - start.x) * (endPt.y - start.y)

/-- The number `q` is a `double` that is zero or of magnitude between `2 ^ -k` and `2 ^ k`.
For `k = 250` every `float` and every 32-bit integer is such a number. -/
def IsDoubleWithin (k : ℕ) (q : ℚ) : Prop :=
  roundD q = Dbl.fin q ∧ (q = 0 ∨ ((2 : ℚ) ^ (-(k : ℤ)) ≤ |q| ∧ |q| ≤ (2 : ℚ) ^ (k : ℤ)))

/-- Both coordinates of the point are `double`s, zero or of magnitude between `2 ^ -k` and
`2 ^ k`. -/
def Point.DoubleWithin (k : ℕ) (v : Point) : Prop :=
  IsDoubleWithin k v.x ∧ IsDoubleWithin k v.y

/-- Two numbers have the same sign: both positive, both negative, or both zero. -/
def SameSign (a b : ℚ) : Prop := (0 < a ↔ 0 < b) ∧ (a < 0 ↔ b < 0)

/-- The number `a` is zero or of magnitude between `lo` and `hi`. -/
def MagIn (lo hi a : ℚ) : Prop := a = 0 ∨ (lo ≤ |a| ∧ |a| ≤ hi)

/-! ## Theorems -/

/-! ### The bounding rectangle -/

theorem minimalBox_append_singleton (xs : List Point) (p : Point) :
    minimalBox (xs ++ [p]) = (minimalBox xs).Add p := by
  cases xs with
  | nil => rfl
  | cons q qs =>
    simp only [List.cons_append, minimalBox, List.map_append, List.map_cons, List.map_nil,
      List.foldl_append, List.foldl_cons, List.foldl_nil, Rect.Add]
    rw [min_comm p.x, min_comm p.y, max_comm p.x, max_comm p.y]

theorem foldl_Add_minimalBox (ys xs : List Point) :
    ys.foldl Rect.Add (minimalBox xs) = minimalBox (xs ++ ys) := by
  induction ys generalizing xs with
  | nil => simp
  | cons y ys ih =>
    rw [List.foldl_cons, ← minimalBox_append_singleton, ih]
    simp

theorem foldl_Add_empty (xs : List Point) : xs.foldl Rect.Add Rect.empty = minimalBox xs := by
  have h := foldl_Add_minimalBox xs []
  simpa [minimalBox] using h

theorem Mutator.apply_rect (r : Region) (m : Mutator) (h : r.m_rect = minimalBox r.m_points) :
    (m.apply r).m_rect = minimalBox (m.apply r).m_points := by
  cases m with
  | construct xs => exact foldl_Add_empty xs
  | assign xs => exact foldl_Add_empty xs
  | addPoint p =>
    show r.m_rect.Add p = minimalBox (r.m_points ++ [p])
    rw [minimalBox_append_singleton, h]

theorem foldl_apply_rect (ops : List Mutator) (r : Region)
    (h : r.m_rect = minimalBox r.m_points) :
    (ops.foldl Mutator.apply r).m_rect = minimalBox (ops.foldl Mutator.apply r).m_points := by
  induction ops generalizing r with
  | nil => exact h
  | cons m ms ih => exact ih _ (Mutator.apply_rect r m h)

theorem run_rect (ops : List Mutator) :
    (Region.run ops).m_rect = minimalBox (Region.run ops).m_points :=
  foldl_apply_rect ops Region.mk0 rfl

theorem foldl_min_le_iff (l : List ℚ) (a t : ℚ) :
    l.foldl min a ≤ t ↔ a ≤ t ∨ ∃ b ∈ l, b ≤ t := by
  induction l generalizing a with
  | nil => simp
  | cons c l ih =>
    rw [List.foldl_cons, ih, min_le_iff]
    simp only [List.mem_cons, exists_eq_or_imp]
    tauto

theorem le_foldl_max_iff (l : List ℚ) (a t : ℚ) :
    t ≤ l.foldl max a ↔ t ≤ a ∨ ∃ b ∈ l, t ≤ b := by
  induction l generalizing a with
  | nil => simp
  | cons c l ih =>
    rw [List.foldl_cons, ih, le_max_iff]
    simp only [List.mem_cons, exists_eq_or_imp]
    tauto

/-- A point is inside the minimal box of `xs` exactly when, in each coordinate, some
vertex lies on either side of it (weakly). -/
theorem minimalBox_IsPointInside (xs : List Point) (pt : Point) :
    (minimalBox xs).IsPointInside pt = true ↔
      (∃ v ∈ xs, v.x ≤ pt.x) ∧ (∃ v ∈ xs, pt.x ≤ v.x) ∧
      (∃ v ∈ xs, v.y ≤ pt.y) ∧ (∃ v ∈ xs, pt.y ≤ v.y) := by
  cases xs with
  | nil => simp [minimalBox, Rect.IsPointInside]
  | cons q qs =>
    simp only [minimalBox, Rect.IsPointInside, Bool.and_eq_true, decide_eq_true_eq,
      foldl_min_le_iff, le_foldl_max_iff, List.mem_map, List.mem_cons, exists_eq_or_imp,
      exists_exists_and_eq_and]
    tauto

/-! ### Fewer than three vertices -/

/-- C1: a region holding fewer than 3 vertices contains no point at all (a stored vertex
included), and `IsValid` is true exactly when the vertex count is greater than 2. -/
theorem Contains_fewer_than_three (r : Region) (pt : Point) :
    (r.IsValid = true ↔ r.m_points.length > 2) ∧
    (r.m_points.length < 3 → r.Contains pt = false) := by
  refine ⟨by simp [Region.IsValid], fun h => ?_⟩
  have hv : r.IsValid = false := by simp [Region.IsValid]; omega
  simp [Region.Contains, hv]

/-- Witness for C1: the two-point region (0,0),(4,0) does not contain its own vertex (0,0). -/
theorem Contains_fewer_than_three_witness :
    (Region.ofRange [⟨0, 0⟩, ⟨4, 0⟩]).m_points.length < 3 ∧
    (Region.ofRange [⟨0, 0⟩, ⟨4, 0⟩]).Contains ⟨0, 0⟩ = false :=
  ⟨by decide, (Contains_fewer_than_three (Region.ofRange [⟨0, 0⟩, ⟨4, 0⟩]) ⟨0, 0⟩).2 (by decide)⟩

/-! ### Outside the bounding rectangle -/

/-- C4: for every region reached by the mutators and every point `p` for which `p.x` or
`p.y` lies strictly beyond the minimum or the maximum of the vertex coordinates,
`Contains p` is false. -/
theorem Contains_outside_box (ops : List Mutator) (p : Point)
    (h : (∀ v ∈ (Region.run ops).m_points, p.x < v.x) ∨
         (∀ v ∈ (Region.run ops).m_points, v.x < p.x) ∨
         (∀ v ∈ (Region.run ops).m_points, p.y < v.y) ∨
         (∀ v ∈ (Region.run ops).m_points, v.y < p.y)) :
    (Region.run ops).Contains p = false := by
  have hin : (Region.run ops).m_rect.IsPointInside p = false := by
    rw [run_rect, Bool.eq_false_iff, Ne, minimalBox_IsPointInside]
    rintro ⟨⟨a, ha, ha'⟩, ⟨b, hb, hb'⟩, ⟨c, hc, hc'⟩, ⟨d, hd, hd'⟩⟩
    rcases h with h | h | h | h
    · exact absurd (h a ha) (not_lt.mpr ha')
    · exact absurd (h b hb) (not_lt.mpr hb')
    · exact absurd (h c hc) (not_lt.mpr hc')
    · exact absurd (h d hd) (not_lt.mpr hd')
  simp [Region.Contains, hin]

/-- Witness for C4: the point (-1,5) is left of the square (0,0),(10,0),(10,10),(0,10). -/
theorem Contains_outside_box_witness :
    (Region.run [Mutator.construct [⟨0, 0⟩, ⟨10, 0⟩, ⟨10, 10⟩, ⟨0, 10⟩]]).Contains ⟨-1, 5⟩
      = false :=
  Contains_outside_box [Mutator.construct [⟨0, 0⟩, ⟨10, 0⟩, ⟨10, 10⟩, ⟨0, 10⟩]] ⟨-1, 5⟩
    (Or.inl (by
      intro v hv
      simp only [Region.run, List.foldl_cons, List.foldl_nil, Mutator.apply, Region.ofRange,
        List.mem_cons, List.mem_singleton, List.not_mem_nil, or_false] at hv
      rcases hv with rfl | rfl | rfl | rfl <;> norm_num))

/-! ### The bounding-box invariant -/

/-- C5: after every sequence of mutators (range construction, `Assign`, `AddPoint`) from
the empty region, `Rect()` is the minimal axis-aligned box of the stored vertices (the
empty rectangle when there are none); and `Assign` on any region whatsoever leaves the
minimal box of the new points, whatever rectangle was cached before. -/
theorem Rect_eq_minimalBox (ops : List Mutator) (r : Region) (xs : List Point) :
    (Region.run ops).Rect = minimalBox (Region.run ops).m_points ∧
    (r.Assign xs).Rect = minimalBox xs :=
  ⟨run_rect ops, foldl_Add_empty xs⟩

/-! ### Vertex order -/

theorem foldl_AddPoint_points (ps : List Point) (r : Region) :
    (ps.foldl Region.AddPoint r).m_points = r.m_points ++ ps := by
  induction ps generalizing r with
  | nil => simp
  | cons p ps ih => rw [List.foldl_cons, ih]; simp [Region.AddPoint]

/-- C9: a region built from `xs` (by range construction, or by `Assign` on any region `r0`)
and extended by `AddPoint` of `p1, ..., pk` is traversed by `ForEachPoint` as
`xs ++ [p1, ..., pk]`: the visitor that records its arguments ends with exactly that list,
every visitor is folded over that list, and the traversal hands the region back unchanged,
so that a second traversal visits the same sequence. -/
theorem ForEachPoint_order {σ : Type} (r0 : Region) (xs ps : List Point)
    (f : σ → Point → σ) (s s' : σ) :
    ((ps.foldl Region.AddPoint (Region.ofRange xs)).ForEachPoint
        (fun acc p => acc ++ [p]) []).2 = xs ++ ps ∧
    ((ps.foldl Region.AddPoint (r0.Assign xs)).ForEachPoint
        (fun acc p => acc ++ [p]) []).2 = xs ++ ps ∧
    ((ps.foldl Region.AddPoint (Region.ofRange xs)).ForEachPoint f s).2
        = (xs ++ ps).foldl f s ∧
    ((ps.foldl Region.AddPoint (r0.Assign xs)).ForEachPoint f s).2 = (xs ++ ps).foldl f s ∧
    ((ps.foldl Region.AddPoint (r0.Assign xs)).ForEachPoint f s).1
        = ps.foldl Region.AddPoint (r0.Assign xs) ∧
    ((((ps.foldl Region.AddPoint (r0.Assign xs)).ForEachPoint f s).1).ForEachPoint f s').2
        = (xs ++ ps).foldl f s' := by
  have hrec : ∀ l : List Point, ∀ acc : List Point,
      l.foldl (fun acc p => acc ++ [p]) acc = acc ++ l := by
    intro l
    induction l with
    | nil => simp
    | cons a l ih => intro acc; rw [List.foldl_cons, ih]; simp
  simp only [Region.ForEachPoint, foldl_AddPoint_points, Region.ofRange, Region.Assign, hrec,
    List.nil_append, and_self]

/-! ### Order-independence of the bounding box -/

theorem Rect.Add_right_comm (r : Rect) (p q : Point) : (r.Add p).Add q = (r.Add q).Add p := by
  cases r with
  | empty =>
    simp only [Rect.Add, Rect.box.injEq]
    exact ⟨min_comm _ _, min_comm _ _, max_comm _ _, max_comm _ _⟩
  | box a b c d =>
    simp only [Rect.Add, Rect.box.injEq]
    exact ⟨min_left_comm _ _ _, min_left_comm _ _ _, max_left_comm _ _ _, max_left_comm _ _ _⟩

theorem foldl_AddPoint_rect (ps : List Point) (r : Region) :
    (ps.foldl Region.AddPoint r).m_rect = ps.foldl Rect.Add r.m_rect := by
  induction ps generalizing r with
  | nil => simp
  | cons p ps ih => rw [List.foldl_cons, ih]; simp [Region.AddPoint]

theorem foldl_Add_perm (xs ys : List Point) (h : ys.Perm xs) (r : Rect) :
    ys.foldl Rect.Add r = xs.foldl Rect.Add r := by
  induction h generalizing r with
  | nil => rfl
  | cons a _ ih => simp only [List.foldl_cons]; exact ih _
  | swap a b l => simp only [List.foldl_cons]; rw [Rect.Add_right_comm]
  | trans _ _ ih1 ih2 => exact (ih1 r).trans (ih2 r)

/-- C10: for every point sequence `xs` and every permutation `ys` of it, `Assign xs` (on any
region `r0`) leaves the same rectangle as starting from the empty region and calling
`AddPoint` once per element of `ys`. -/
theorem Rect_order_independent (r0 : Region) (xs ys : List Point) (h : ys.Perm xs) :
    (r0.Assign xs).Rect = (ys.foldl Region.AddPoint Region.mk0).Rect := by
  show xs.foldl Rect.Add Rect.empty = (ys.foldl Region.AddPoint Region.mk0).m_rect
  rw [foldl_AddPoint_rect, foldl_Add_perm xs ys h]
  rfl

/-- Witness for C10: `Assign` of (0,0),(4,0),(0,4) against `AddPoint` in the order
(0,4),(0,0),(4,0). -/
theorem Rect_order_independent_witness :
    (Region.mk0.Assign [⟨0, 0⟩, ⟨4, 0⟩, ⟨0, 4⟩]).Rect
      = (([⟨0, 4⟩, ⟨0, 0⟩, ⟨4, 0⟩] : List Point).foldl Region.AddPoint Region.mk0).Rect :=
  Rect_order_independent Region.mk0 [⟨0, 0⟩, ⟨4, 0⟩, ⟨0, 4⟩] [⟨0, 4⟩, ⟨0, 0⟩, ⟨4, 0⟩]
    (by decide)

/-! ### The loop of `Contains` against the edge counts -/

theorem Point.equal_iff (a b : Point) : a.equal b = true ↔ a = b := by
  cases a; cases b
  simp [Point.equal]

theorem scanLoop_succ (r : Region) (pt : Point) (n k i rc lc : Nat) :
    r.scanLoop pt n (k + 1) i rc lc =
      if (r.m_points.getD i default).equal pt then Scan.vertex
      else r.scanLoop pt n k (i + 1)
        (rc + if rHit (rel r.m_points pt i) (rel r.m_points pt (prevIdx n i)) then 1 else 0)
        (lc + if lHit (rel r.m_points pt i) (rel r.m_points pt (prevIdx n i)) then 1 else 0) := by
  rw [Region.scanLoop]
  by_cases h0 : (r.m_points.getD i default).equal pt = true
  · rw [if_pos h0, if_pos h0]
  · rw [if_neg h0, if_neg h0]
    simp only [rHit, lHit, rel, prevIdx, Bool.and_eq_true, decide_eq_true_eq]
    congr 1
    · by_cases h1 : (decide ((r.m_points.getD i default).y - pt.y > 0) !=
          decide ((r.m_points.getD ((i + n - 1) % n) default).y - pt.y > 0)) = true
      · simp only [h1, if_true, true_and]
        split_ifs <;> rfl
      · simp only [h1, if_false, false_and, Bool.false_eq_true, Nat.add_zero]
    · by_cases h1 : (decide ((r.m_points.getD i default).y - pt.y < 0) !=
          decide ((r.m_points.getD ((i + n - 1) % n) default).y - pt.y < 0)) = true
      · simp only [h1, if_true, true_and]
        split_ifs <;> rfl
      · simp only [h1, if_false, false_and, Bool.false_eq_true, Nat.add_zero]

theorem scanLoop_vertex (r : Region) (pt : Point) (n k : Nat) :
    ∀ i rc lc, (∃ j, j < k ∧ r.m_points.getD (i + j) default = pt) →
      r.scanLoop pt n k i rc lc = Scan.vertex := by
  induction k with
  | zero => rintro i rc lc ⟨j, hj, _⟩; omega
  | succ k ih =>
    rintro i rc lc ⟨j, hj, hjeq⟩
    rw [scanLoop_succ]
    by_cases h0 : (r.m_points.getD i default).equal pt = true
    · rw [if_pos h0]
    · rw [if_neg h0]
      apply ih
      cases j with
      | zero => exact absurd ((Point.equal_iff _ _).mpr hjeq) h0
      | succ j => exact ⟨j, by omega, by rw [← hjeq]; congr 1; omega⟩

theorem scanLoop_finished (r : Region) (pt : Point) (n k : Nat) :
    ∀ i rc lc, (∀ j, j < k → r.m_points.getD (i + j) default ≠ pt) →
      r.scanLoop pt n k i rc lc = Scan.finished
        (rc + ∑ j in Finset.range k,
          if rHit (rel r.m_points pt (i + j)) (rel r.m_points pt (prevIdx n (i + j)))
          then 1 else 0)
        (lc + ∑ j in Finset.range k,
          if lHit (rel r.m_points pt (i + j)) (rel r.m_points pt (prevIdx n (i + j)))
          then 1 else 0) := by
  induction k with
  | zero => intro i rc lc _; rw [Region.scanLoop]; rfl
  | succ k ih =>
    intro i rc lc hne
    rw [scanLoop_succ]
    have h0 : ¬ (r.m_points.getD i default).equal pt = true := by
      rw [Point.equal_iff]; exact hne 0 (by omega)
    rw [if_neg h0]
    rw [ih (i + 1) _ _ (fun j hj => by
      have := hne (j + 1) (by omega)
      rwa [show i + 1 + j = i + (j + 1) by omega])]
    rw [Finset.sum_range_succ' _ k, Finset.sum_range_succ' _ k]
    simp only [show ∀ j, i + 1 + j = i + (j + 1) from fun j => by omega, Nat.add_zero]
    congr 1 <;> omega

theorem getD_ne_of_not_mem (pts : List Point) (pt : Point) (h : pt ∉ pts) (j : Nat)
    (hj : j < pts.length) : pts.getD j default ≠ pt := by
  intro he
  apply h
  rw [← he, List.getD_eq_getElem _ _ hj]
  exact List.getElem_mem _

theorem scan_of_mem (r : Region) (pt : Point) (h : pt ∈ r.m_points) :
    r.scan pt = Scan.vertex := by
  obtain ⟨j, hj, hje⟩ := List.getElem_of_mem h
  apply scanLoop_vertex
  exact ⟨j, hj, by rw [Nat.zero_add, List.getD_eq_getElem _ _ hj]; exact hje⟩

theorem scan_of_not_mem (r : Region) (pt : Point) (h : pt ∉ r.m_points) :
    r.scan pt = Scan.finished (rCount r.m_points pt) (lCount r.m_points pt) := by
  unfold Region.scan
  rw [scanLoop_finished r pt _ _ 0 0 0 (fun j hj => by
    rw [Nat.zero_add]; exact getD_ne_of_not_mem _ _ h j hj)]
  simp [rCount, lCount]

theorem IsPointInside_of_mem (xs : List Point) (pt : Point) (h : pt ∈ xs) :
    (minimalBox xs).IsPointInside pt = true := by
  rw [minimalBox_IsPointInside]
  exact ⟨⟨pt, h, le_refl _⟩, ⟨pt, h, le_refl _⟩, ⟨pt, h, le_refl _⟩, ⟨pt, h, le_refl _⟩⟩

/-! ### A query point that is a vertex -/

/-- C2: for every region reached by the mutators that holds at least 3 vertices, and every
query point equal to one of the stored vertices: the point passes the bounding-rectangle
test; the loop, once it reaches an index holding that point, returns at the vertex test
whatever the two counters hold; the scan ends at the vertex test; `Contains` returns true. -/
theorem Contains_vertex (ops : List Mutator) (pt : Point)
    (hn : 3 ≤ (Region.run ops).m_points.length) (hv : pt ∈ (Region.run ops).m_points) :
    (Region.run ops).m_rect.IsPointInside pt = true ∧
    (∀ i rCross lCross, i < (Region.run ops).m_points.length →
      (Region.run ops).m_points.getD i default = pt →
      (Region.run ops).scanLoop pt (Region.run ops).m_points.length
        ((Region.run ops).m_points.length - i) i rCross lCross = Scan.vertex) ∧
    (Region.run ops).scan pt = Scan.vertex ∧ (Region.run ops).Contains pt = true := by
  have hs := scan_of_mem _ pt hv
  have hin : (Region.run ops).m_rect.IsPointInside pt = true := by
    rw [run_rect]; exact IsPointInside_of_mem _ _ hv
  have hval : (Region.run ops).IsValid = true := by simp [Region.IsValid]; omega
  refine ⟨hin, ?_, hs, by simp [Region.Contains, hs, hin, hval]⟩
  intro i rc lc hi he
  exact scanLoop_vertex _ pt _ _ i rc lc ⟨0, by omega, by rw [Nat.add_zero]; exact he⟩

/-- Witness for C2: the last vertex (0,4) of the triangle (0,0),(4,0),(0,4). -/
theorem Contains_vertex_witness :
    (Region.run [Mutator.construct [⟨0, 0⟩, ⟨4, 0⟩, ⟨0, 4⟩]]).scan ⟨0, 4⟩ = Scan.vertex ∧
    (Region.run [Mutator.construct [⟨0, 0⟩, ⟨4, 0⟩, ⟨0, 4⟩]]).Contains ⟨0, 4⟩ = true :=
  (Contains_vertex [Mutator.construct [⟨0, 0⟩, ⟨4, 0⟩, ⟨0, 4⟩]] ⟨0, 4⟩ (by decide)
    (by decide)).2.2

/-! ### The crossing tests without the division -/

theorem crossX_eq (c p : Point) : crossX c p = cross p c / (c.y - p.y) := by
  rw [crossX, cross, ← neg_div_neg_eq]
  congr 1 <;> ring

theorem rHit_iff (c p : Point) :
    rHit c p = true ↔
      (p.y ≤ 0 ∧ 0 < c.y ∧ 0 < cross p c) ∨ (c.y ≤ 0 ∧ 0 < p.y ∧ cross p c < 0) := by
  simp only [rHit, Bool.and_eq_true, bne_iff_ne, ne_eq, decide_eq_decide, decide_eq_true_eq,
    crossX_eq, gt_iff_lt]
  constructor
  · rintro ⟨hs, hx⟩
    rcases lt_or_le 0 c.y with hc | hc
    · have hp : p.y ≤ 0 := by
        by_contra hp; exact hs ⟨fun _ => not_le.mp hp, fun _ => hc⟩
      left
      refine ⟨hp, hc, ?_⟩
      rcases div_pos_iff.mp hx with ⟨h1, _⟩ | ⟨_, h2⟩
      · exact h1
      · linarith
    · have hp : 0 < p.y := by
        by_contra hp
        exact hs ⟨fun h => absurd h (not_lt.mpr hc), fun h => absurd h hp⟩
      right
      refine ⟨hc, hp, ?_⟩
      rcases div_pos_iff.mp hx with ⟨_, h2⟩ | ⟨h1, _⟩
      · linarith
      · exact h1
  · rintro (⟨hp, hc, hx⟩ | ⟨hc, hp, hx⟩)
    · exact ⟨fun h => absurd (h.mp hc) (not_lt.mpr hp), div_pos hx (by linarith)⟩
    · exact ⟨fun h => absurd (h.mpr hp) (not_lt.mpr hc), div_pos_of_neg_of_neg hx (by linarith)⟩

theorem lHit_iff (c p : Point) :
    lHit c p = true ↔
      (p.y < 0 ∧ 0 ≤ c.y ∧ cross p c < 0) ∨ (c.y < 0 ∧ 0 ≤ p.y ∧ 0 < cross p c) := by
  simp only [lHit, Bool.and_eq_true, bne_iff_ne, ne_eq, decide_eq_decide, decide_eq_true_eq,
    crossX_eq]
  constructor
  · rintro ⟨hs, hx⟩
    rcases lt_or_le c.y 0 with hc | hc
    · have hp : 0 ≤ p.y := by
        by_contra hp; exact hs ⟨fun _ => not_le.mp hp, fun _ => hc⟩
      right
      refine ⟨hc, hp, ?_⟩
      rcases div_neg_iff.mp hx with ⟨h1, _⟩ | ⟨_, h2⟩
      · exact h1
      · linarith
    · have hp : p.y < 0 := by
        by_contra hp
        exact hs ⟨fun h => absurd h (not_lt.mpr hc), fun h => absurd h hp⟩
      left
      refine ⟨hp, hc, ?_⟩
      rcases div_neg_iff.mp hx with ⟨_, h2⟩ | ⟨h1, _⟩
      · linarith
      · exact h1
  · rintro (⟨hp, hc, hx⟩ | ⟨hc, hp, hx⟩)
    · exact ⟨fun h => absurd (h.mpr hp) (not_lt.mpr hc), div_neg_of_neg_of_pos hx (by linarith)⟩
    · exact ⟨fun h => absurd (h.mp hc) (not_lt.mpr hp), div_neg_of_pos_of_neg hx (by linarith)⟩

theorem Contains_eq (r : Region) (pt : Point) :
    r.Contains pt =
      (decide (2 < r.m_points.length) && r.m_rect.IsPointInside pt &&
        (decide (pt ∈ r.m_points) || (rCount r.m_points pt % 2 != lCount r.m_points pt % 2) ||
          rCount r.m_points pt % 2 == 1)) := by
  unfold Region.Contains
  by_cases hv : r.IsValid = true
  · have hv' : 2 < r.m_points.length := by simpa [Region.IsValid] using hv
    by_cases hin : r.m_rect.IsPointInside pt = true
    · by_cases hm : pt ∈ r.m_points
      · simp [hv, hv', hin, hm, scan_of_mem r pt hm]
      · simp only [hv, hv', hin, hm, scan_of_not_mem r pt hm, Bool.not_true, Bool.or_self,
          Bool.false_eq_true, if_false, decide_True, Bool.and_self, decide_False, Bool.false_or,
          Bool.true_and]
        by_cases h1 : (rCount r.m_points pt % 2 != lCount r.m_points pt % 2) = true
        · simp [h1]
        · by_cases h2 : (rCount r.m_points pt % 2 == 1) = true
          · simp [h1, h2]
          · simp [h1, h2]
    · simp [hin]
  · have hv' : ¬ 2 < r.m_points.length := by simpa [Region.IsValid] using hv
    simp [hv, hv']

/-! ### Axis-aligned rectangles -/

theorem rCount_rectangle (x0 y0 x1 y1 : ℚ) (hy : y0 < y1) (p : Point)
    (h1 : x0 ≤ p.x) (h2 : p.x ≤ x1) (h3 : y0 ≤ p.y) :
    rCount [⟨x0, y0⟩, ⟨x1, y0⟩, ⟨x1, y1⟩, ⟨x0, y1⟩] p
      = if p.y < y1 ∧ p.x < x1 then 1 else 0 := by
  simp only [rCount, List.length_cons, List.length_nil, Finset.sum_range_succ,
    Finset.sum_range_zero, prevIdx, rel]
  norm_num [List.getD]
  have e0 : rHit ⟨x0 - p.x, y0 - p.y⟩ ⟨x0 - p.x, y1 - p.y⟩ = false := by
    rw [Bool.eq_false_iff, Ne, rHit_iff]; simp only [cross]
    rintro (⟨a, b, c⟩ | ⟨a, b, c⟩)
    · linarith
    · nlinarith
  have e1 : rHit ⟨x1 - p.x, y0 - p.y⟩ ⟨x0 - p.x, y0 - p.y⟩ = false := by
    rw [Bool.eq_false_iff, Ne, rHit_iff]; simp only [cross]
    rintro (⟨a, b, c⟩ | ⟨a, b, c⟩) <;> linarith
  have e3 : rHit ⟨x0 - p.x, y1 - p.y⟩ ⟨x1 - p.x, y1 - p.y⟩ = false := by
    rw [Bool.eq_false_iff, Ne, rHit_iff]; simp only [cross]
    rintro (⟨a, b, c⟩ | ⟨a, b, c⟩) <;> linarith
  have e2 : rHit ⟨x1 - p.x, y1 - p.y⟩ ⟨x1 - p.x, y0 - p.y⟩ = true ↔ (p.y < y1 ∧ p.x < x1) := by
    rw [rHit_iff]; simp only [cross]
    constructor
    · rintro (⟨a, b, c⟩ | ⟨a, b, c⟩)
      · refine ⟨by linarith, ?_⟩
        by_contra hc
        have : p.x = x1 := le_antisymm h2 (not_lt.mp hc)
        rw [this] at c; simp at c
      · linarith
    · rintro ⟨a, b⟩
      left
      refine ⟨by linarith, by linarith, ?_⟩
      nlinarith
  simp only [e0, e1, e3, e2]
  simp

theorem lCount_rectangle (x0 y0 x1 y1 : ℚ) (hy : y0 < y1) (p : Point)
    (h1 : x0 ≤ p.x) (h2 : p.x ≤ x1) (h4 : p.y ≤ y1) :
    lCount [⟨x0, y0⟩, ⟨x1, y0⟩, ⟨x1, y1⟩, ⟨x0, y1⟩] p
      = if y0 < p.y ∧ x0 < p.x then 1 else 0 := by
  simp only [lCount, List.length_cons, List.length_nil, Finset.sum_range_succ,
    Finset.sum_range_zero, prevIdx, rel]
  norm_num [List.getD]
  have e0 : lHit ⟨x0 - p.x, y0 - p.y⟩ ⟨x0 - p.x, y1 - p.y⟩ = true ↔ (y0 < p.y ∧ x0 < p.x) := by
    rw [lHit_iff]; simp only [cross]
    constructor
    · rintro (⟨a, b, c⟩ | ⟨a, b, c⟩)
      · linarith
      · refine ⟨by linarith, ?_⟩
        by_contra hc
        have : p.x = x0 := le_antisymm (not_lt.mp hc) h1
        rw [this] at c; simp at c
    · rintro ⟨a, b⟩
      right
      refine ⟨by linarith, by linarith, ?_⟩
      nlinarith
  have e1 : lHit ⟨x1 - p.x, y0 - p.y⟩ ⟨x0 - p.x, y0 - p.y⟩ = false := by
    rw [Bool.eq_false_iff, Ne, lHit_iff]; simp only [cross]
    rintro (⟨a, b, c⟩ | ⟨a, b, c⟩) <;> linarith
  have e3 : lHit ⟨x0 - p.x, y1 - p.y⟩ ⟨x1 - p.x, y1 - p.y⟩ = false := by
    rw [Bool.eq_false_iff, Ne, lHit_iff]; simp only [cross]
    rintro (⟨a, b, c⟩ | ⟨a, b, c⟩) <;> linarith
  have e2 : lHit ⟨x1 - p.x, y1 - p.y⟩ ⟨x1 - p.x, y0 - p.y⟩ = false := by
    rw [Bool.eq_false_iff, Ne, lHit_iff]; simp only [cross]
    rintro (⟨a, b, c⟩ | ⟨a, b, c⟩)
    · nlinarith
    · linarith
  simp only [e0, e1, e3, e2]
  simp

/-- In exact arithmetic, the axis-aligned rectangle region with vertices
(x0,y0),(x1,y0),(x1,y1),(x0,y1), `x0 < x1` and `y0 < y1`, contains exactly the points with
`x0 ≤ p.x ≤ x1` and `y0 ≤ p.y ≤ y1`. -/
theorem Contains_rectangle_exact (ops : List Mutator) (x0 y0 x1 y1 : ℚ) (p : Point)
    (hpts : (Region.run ops).m_points = [⟨x0, y0⟩, ⟨x1, y0⟩, ⟨x1, y1⟩, ⟨x0, y1⟩])
    (hx : x0 < x1) (hy : y0 < y1) :
    (Region.run ops).Contains p = true ↔ (x0 ≤ p.x ∧ p.x ≤ x1 ∧ y0 ≤ p.y ∧ p.y ≤ y1) := by
  have hbox : (Region.run ops).m_rect.IsPointInside p = true ↔
      (x0 ≤ p.x ∧ p.x ≤ x1 ∧ y0 ≤ p.y ∧ p.y ≤ y1) := by
    rw [run_rect, hpts, minimalBox_IsPointInside]
    simp only [List.mem_cons, List.mem_singleton, List.not_mem_nil, or_false, exists_eq_or_imp,
      exists_eq_left]
    constructor
    · rintro ⟨a, b, c, d⟩
      refine ⟨?_, ?_, ?_, ?_⟩
      · rcases a with a | a | a | a <;> linarith
      · rcases b with b | b | b | b <;> linarith
      · rcases c with c | c | c | c <;> linarith
      · rcases d with d | d | d | d <;> linarith
    · rintro ⟨a, b, c, d⟩
      exact ⟨Or.inl a, Or.inr (Or.inl b), Or.inl c, Or.inr (Or.inr (Or.inl d))⟩
  rw [Contains_eq, hpts]
  simp only [Bool.and_eq_true, decide_eq_true_eq, List.length_cons, List.length_nil]
  rw [← hpts, hbox, hpts]
  constructor
  · rintro ⟨⟨_, hb⟩, _⟩; exact hb
  · rintro ⟨h1, h2, h3, h4⟩
    refine ⟨⟨by norm_num, h1, h2, h3, h4⟩, ?_⟩
    rw [rCount_rectangle x0 y0 x1 y1 hy p h1 h2 h3, lCount_rectangle x0 y0 x1 y1 hy p h1 h2 h4]
    by_cases hA : p.y < y1 ∧ p.x < x1
    · by_cases hB : y0 < p.y ∧ x0 < p.x <;> simp [hA, hB]
    · by_cases hB : y0 < p.y ∧ x0 < p.x
      · simp [hA, hB]
      · have hmem : p ∈ ([⟨x0, y0⟩, ⟨x1, y0⟩, ⟨x1, y1⟩, ⟨x0, y1⟩] : List Point) := by
          obtain ⟨px, py⟩ := p
          simp only [List.mem_cons, Point.mk.injEq, List.mem_singleton, List.not_mem_nil,
            or_false]
          simp only [not_and_or, not_lt] at hA hB
          have ha : py = y1 ∨ px = x1 := by
            rcases hA with h | h
            · exact Or.inl (le_antisymm h4 h)
            · exact Or.inr (le_antisymm h2 h)
          have hb : py = y0 ∨ px = x0 := by
            rcases hB with h | h
            · exact Or.inl (le_antisymm h h3)
            · exact Or.inr (le_antisymm h h1)
          rcases ha with ha | ha <;> rcases hb with hb | hb
          · exact absurd (ha.symm.trans hb) (ne_of_gt hy)
          · exact Or.inr (Or.inr (Or.inr ⟨hb, ha⟩))
          · exact Or.inr (Or.inl ⟨ha, hb⟩)
          · exact absurd (ha.symm.trans hb) (ne_of_gt hx)
        simp [hmem]

/-! ### Parity of the two counters against the edges through the query point -/

theorem dot_mul_of_cross_eq_zero (c p : Point) (hK : cross p c = 0) :
    dot p c * (c.y * p.y) = (p.y * c.x) ^ 2 + (c.y * p.y) ^ 2 := by
  have e : (p.x * c.y - p.y * c.x) * (c.x * p.y) = 0 := by
    have : p.x * c.y - p.y * c.x = 0 := hK
    rw [this, zero_mul]
  simp only [dot]
  linear_combination e

theorem not_through_of_same_side (c p : Point) (h : 0 < c.y * p.y) :
    ¬ (cross p c = 0 ∧ dot p c ≤ 0) := by
  rintro ⟨hK, hD⟩
  have e := dot_mul_of_cross_eq_zero c p hK
  have h1 : dot p c * (c.y * p.y) ≤ 0 := mul_nonpos_of_nonpos_of_nonneg hD h.le
  nlinarith [sq_nonneg (p.y * c.x), mul_pos h h]

theorem dot_neg_of_opposite (c p : Point) (h : c.y * p.y < 0) (hK : cross p c = 0) :
    dot p c ≤ 0 := by
  have e := dot_mul_of_cross_eq_zero c p hK
  by_contra hD
  have h1 : dot p c * (c.y * p.y) < 0 := mul_neg_of_pos_of_neg (not_le.mp hD) h
  nlinarith [sq_nonneg (p.y * c.x), sq_nonneg (c.y * p.y)]

theorem edge_parity (c p : Point) (hc : c.x ≠ 0 ∨ c.y ≠ 0) (hp : p.x ≠ 0 ∨ p.y ≠ 0) :
    ((if rHit c p then 1 else 0) + (if lHit c p then 1 else 0)) % 2 =
      ((if upperSide c then 1 else 0) + (if upperSide p then 1 else 0) +
        (if cross p c = 0 ∧ dot p c ≤ 0 then 1 else 0)) % 2 := by
  have hr := rHit_iff c p
  have hl := lHit_iff c p
  have hK : cross p c = p.x * c.y - p.y * c.x := rfl
  have hD : dot p c = p.x * c.x + p.y * c.y := rfl
  have hsc : upperSide c = true ↔ (c.y > 0 ∨ (c.y = 0 ∧ c.x < 0)) := by simp [upperSide]
  have hsp : upperSide p = true ↔ (p.y > 0 ∨ (p.y = 0 ∧ p.x < 0)) := by simp [upperSide]
  have hsame := not_through_of_same_side c p
  have hopp := dot_neg_of_opposite c p
  generalize rHit c p = R at hr ⊢
  generalize lHit c p = L at hl ⊢
  generalize upperSide c = SC at hsc ⊢
  generalize upperSide p = SP at hsp ⊢
  generalize cross p c = K at hr hl hK hsame hopp ⊢
  generalize dot p c = D at hD hsame hopp ⊢
  rcases lt_trichotomy c.y 0 with h1 | h1 | h1 <;> rcases lt_trichotomy p.y 0 with h2 | h2 | h2
  · -- both below
    have hR : R = false := by
      rw [Bool.eq_false_iff, Ne, hr]; rintro (⟨_, _, _⟩ | ⟨_, _, _⟩) <;> linarith
    have hL : L = false := by
      rw [Bool.eq_false_iff, Ne, hl]; rintro (⟨_, _, _⟩ | ⟨_, _, _⟩) <;> linarith
    have hSC : SC = false := by
      rw [Bool.eq_false_iff, Ne, hsc]; rintro (_ | ⟨_, _⟩) <;> linarith
    have hSP : SP = false := by
      rw [Bool.eq_false_iff, Ne, hsp]; rintro (_ | ⟨_, _⟩) <;> linarith
    have hT : ¬ (K = 0 ∧ D ≤ 0) := hsame (mul_pos_of_neg_of_neg h1 h2)
    simp [hR, hL, hSC, hSP, hT]
  · -- curr below, prev on the axis
    have hpx : p.x ≠ 0 := by rcases hp with h | h; exact h; exact absurd h2 h
    have hKv : K = p.x * c.y := by rw [hK, h2]; ring
    have hR : R = false := by
      rw [Bool.eq_false_iff, Ne, hr]; rintro (⟨_, _, _⟩ | ⟨_, _, _⟩) <;> linarith
    have hSC : SC = false := by
      rw [Bool.eq_false_iff, Ne, hsc]; rintro (_ | ⟨_, _⟩) <;> linarith
    have hT : ¬ (K = 0 ∧ D ≤ 0) := by
      rintro ⟨h, _⟩
      rw [hKv] at h
      rcases mul_eq_zero.mp h with h | h
      · exact hpx h
      · linarith
    rcases lt_or_gt_of_ne hpx with hx | hx
    · have hL : L = true := by
        rw [hl]; right; exact ⟨h1, h2.ge, by rw [hKv]; exact mul_pos_of_neg_of_neg hx h1⟩
      have hSP : SP = true := by rw [hsp]; right; exact ⟨h2, hx⟩
      simp [hR, hL, hSC, hSP, hT]
    · have hL : L = false := by
        rw [Bool.eq_false_iff, Ne, hl]; rintro (⟨_, _, _⟩ | ⟨_, _, hk⟩)
        · linarith
        · rw [hKv] at hk; nlinarith
      have hSP : SP = false := by
        rw [Bool.eq_false_iff, Ne, hsp]; rintro (_ | ⟨_, _⟩) <;> linarith
      simp [hR, hL, hSC, hSP, hT]
  · -- curr below, prev above
    have hSC : SC = false := by
      rw [Bool.eq_false_iff, Ne, hsc]; rintro (_ | ⟨_, _⟩) <;> linarith
    have hSP : SP = true := by rw [hsp]; left; exact h2
    have hneg : c.y * p.y < 0 := mul_neg_of_neg_of_pos h1 h2
    rcases lt_trichotomy K 0 with hk | hk | hk
    · have hR : R = true := by rw [hr]; right; exact ⟨h1.le, h2, hk⟩
      have hL : L = false := by
        rw [Bool.eq_false_iff, Ne, hl]; rintro (⟨_, _, _⟩ | ⟨_, _, _⟩) <;> linarith
      have hT : ¬ (K = 0 ∧ D ≤ 0) := by rintro ⟨h, _⟩; linarith
      simp [hR, hL, hSC, hSP, hT]
    · have hR : R = false := by
        rw [Bool.eq_false_iff, Ne, hr]; rintro (⟨_, _, _⟩ | ⟨_, _, _⟩) <;> linarith
      have hL : L = false := by
        rw [Bool.eq_false_iff, Ne, hl]; rintro (⟨_, _, _⟩ | ⟨_, _, _⟩) <;> linarith
      have hT : K = 0 ∧ D ≤ 0 := ⟨hk, hopp hneg hk⟩
      simp [hR, hL, hSC, hSP, hT]
    · have hR : R = false := by
        rw [Bool.eq_false_iff, Ne, hr]; rintro (⟨_, _, _⟩ | ⟨_, _, _⟩) <;> linarith
      have hL : L = true := by rw [hl]; right; exact ⟨h1, h2.le, hk⟩
      have hT : ¬ (K = 0 ∧ D ≤ 0) := by rintro ⟨h, _⟩; linarith
      simp [hR, hL, hSC, hSP, hT]
  · -- curr on the axis, prev below
    have hcx : c.x ≠ 0 := by rcases hc with h | h; exact h; exact absurd h1 h
    have hKv : K = - (p.y * c.x) := by rw [hK, h1]; ring
    have hR : R = false := by
      rw [Bool.eq_false_iff, Ne, hr]; rintro (⟨_, _, _⟩ | ⟨_, _, _⟩) <;> linarith
    have hSP : SP = false := by
      rw [Bool.eq_false_iff, Ne, hsp]; rintro (_ | ⟨_, _⟩) <;> linarith
    have hT : ¬ (K = 0 ∧ D ≤ 0) := by
      rintro ⟨h, _⟩
      rw [hKv, neg_eq_zero] at h
      rcases mul_eq_zero.mp h with h | h
      · linarith
      · exact hcx h
    rcases lt_or_gt_of_ne hcx with hx | hx
    · have hL : L = true := by
        rw [hl]; left
        exact ⟨h2, h1.ge, by rw [hKv, neg_lt_zero]; exact mul_pos_of_neg_of_neg h2 hx⟩
      have hSC : SC = true := by rw [hsc]; right; exact ⟨h1, hx⟩
      simp [hR, hL, hSC, hSP, hT]
    · have hL : L = false := by
        rw [Bool.eq_false_iff, Ne, hl]; rintro (⟨_, _, hk⟩ | ⟨_, _, _⟩)
        · rw [hKv] at hk; nlinarith
        · linarith
      have hSC : SC = false := by
        rw [Bool.eq_false_iff, Ne, hsc]; rintro (_ | ⟨_, _⟩) <;> linarith
      simp [hR, hL, hSC, hSP, hT]
  · -- both on the axis
    have hcx : c.x ≠ 0 := by rcases hc with h | h; exact h; exact absurd h1 h
    have hpx : p.x ≠ 0 := by rcases hp with h | h; exact h; exact absurd h2 h
    have hKv : K = 0 := by rw [hK, h1, h2]; ring
    have hDv : D = p.x * c.x := by rw [hD, h1, h2]; ring
    have hR : R = false := by
      rw [Bool.eq_false_iff, Ne, hr]; rintro (⟨_, _, _⟩ | ⟨_, _, _⟩) <;> linarith
    have hL : L = false := by
      rw [Bool.eq_false_iff, Ne, hl]; rintro (⟨_, _, _⟩ | ⟨_, _, _⟩) <;> linarith
    rcases lt_or_gt_of_ne hcx with hx | hx <;> rcases lt_or_gt_of_ne hpx with hx' | hx'
    · have hSC : SC = true := by rw [hsc]; right; exact ⟨h1, hx⟩
      have hSP : SP = true := by rw [hsp]; right; exact ⟨h2, hx'⟩
      have hT : ¬ (K = 0 ∧ D ≤ 0) := by
        rintro ⟨_, h⟩; rw [hDv] at h; nlinarith [mul_pos_of_neg_of_neg hx' hx]
      simp [hR, hL, hSC, hSP, hT]
    · have hSC : SC = true := by rw [hsc]; right; exact ⟨h1, hx⟩
      have hSP : SP = false := by
        rw [Bool.eq_false_iff, Ne, hsp]; rintro (_ | ⟨_, _⟩) <;> linarith
      have hT : K = 0 ∧ D ≤ 0 := ⟨hKv, by rw [hDv]; exact (mul_neg_of_pos_of_neg hx' hx).le⟩
      simp [hR, hL, hSC, hSP, hT]
    · have hSC : SC = false := by
        rw [Bool.eq_false_iff, Ne, hsc]; rintro (_ | ⟨_, _⟩) <;> linarith
      have hSP : SP = true := by rw [hsp]; right; exact ⟨h2, hx'⟩
      have hT : K = 0 ∧ D ≤ 0 := ⟨hKv, by rw [hDv]; exact (mul_neg_of_neg_of_pos hx' hx).le⟩
      simp [hR, hL, hSC, hSP, hT]
    · have hSC : SC = false := by
        rw [Bool.eq_false_iff, Ne, hsc]; rintro (_ | ⟨_, _⟩) <;> linarith
      have hSP : SP = false := by
        rw [Bool.eq_false_iff, Ne, hsp]; rintro (_ | ⟨_, _⟩) <;> linarith
      have hT : ¬ (K = 0 ∧ D ≤ 0) := by
        rintro ⟨_, h⟩; rw [hDv] at h; nlinarith [mul_pos hx' hx]
      simp [hR, hL, hSC, hSP, hT]
  · -- curr on the axis, prev above
    have hcx : c.x ≠ 0 := by rcases hc with h | h; exact h; exact absurd h1 h
    have hKv : K = - (p.y * c.x) := by rw [hK, h1]; ring
    have hL : L = false := by
      rw [Bool.eq_false_iff, Ne, hl]; rintro (⟨_, _, _⟩ | ⟨_, _, _⟩) <;> linarith
    have hSP : SP = true := by rw [hsp]; left; exact h2
    have hT : ¬ (K = 0 ∧ D ≤ 0) := by
      rintro ⟨h, _⟩
      rw [hKv, neg_eq_zero] at h
      rcases mul_eq_zero.mp h with h | h
      · linarith
      · exact hcx h
    rcases lt_or_gt_of_ne hcx with hx | hx
    · have hR : R = false := by
        rw [Bool.eq_false_iff, Ne, hr]; rintro (⟨_, _, _⟩ | ⟨_, _, hk⟩)
        · linarith
        · rw [hKv] at hk; nlinarith
      have hSC : SC = true := by rw [hsc]; right; exact ⟨h1, hx⟩
      simp [hR, hL, hSC, hSP, hT]
    · have hR : R = true := by
        rw [hr]; right
        exact ⟨h1.le, h2, by rw [hKv, neg_lt_zero]; exact mul_pos h2 hx⟩
      have hSC : SC = false := by
        rw [Bool.eq_false_iff, Ne, hsc]; rintro (_ | ⟨_, _⟩) <;> linarith
      simp [hR, hL, hSC, hSP, hT]
  · -- curr above, prev below
    have hSC : SC = true := by rw [hsc]; left; exact h1
    have hSP : SP = false := by
      rw [Bool.eq_false_iff, Ne, hsp]; rintro (_ | ⟨_, _⟩) <;> linarith
    have hneg : c.y * p.y < 0 := mul_neg_of_pos_of_neg h1 h2
    rcases lt_trichotomy K 0 with hk | hk | hk
    · have hR : R = false := by
        rw [Bool.eq_false_iff, Ne, hr]; rintro (⟨_, _, _⟩ | ⟨_, _, _⟩) <;> linarith
      have hL : L = true := by rw [hl]; left; exact ⟨h2, h1.le, hk⟩
      have hT : ¬ (K = 0 ∧ D ≤ 0) := by rintro ⟨h, _⟩; linarith
      simp [hR, hL, hSC, hSP, hT]
    · have hR : R = false := by
        rw [Bool.eq_false_iff, Ne, hr]; rintro (⟨_, _, _⟩ | ⟨_, _, _⟩) <;> linarith
      have hL : L = false := by
        rw [Bool.eq_false_iff, Ne, hl]; rintro (⟨_, _, _⟩ | ⟨_, _, _⟩) <;> linarith
      have hT : K = 0 ∧ D ≤ 0 := ⟨hk, hopp hneg hk⟩
      simp [hR, hL, hSC, hSP, hT]
    · have hR : R = true := by rw [hr]; left; exact ⟨h2.le, h1, hk⟩
      have hL : L = false := by
        rw [Bool.eq_false_iff, Ne, hl]; rintro (⟨_, _, _⟩ | ⟨_, _, _⟩) <;> linarith
      have hT : ¬ (K = 0 ∧ D ≤ 0) := by rintro ⟨h, _⟩; linarith
      simp [hR, hL, hSC, hSP, hT]
  · -- curr above, prev on the axis
    have hpx : p.x ≠ 0 := by rcases hp with h | h; exact h; exact absurd h2 h
    have hKv : K = p.x * c.y := by rw [hK, h2]; ring
    have hL : L = false := by
      rw [Bool.eq_false_iff, Ne, hl]; rintro (⟨_, _, _⟩ | ⟨_, _, _⟩) <;> linarith
    have hSC : SC = true := by rw [hsc]; left; exact h1
    have hT : ¬ (K = 0 ∧ D ≤ 0) := by
      rintro ⟨h, _⟩
      rw [hKv] at h
      rcases mul_eq_zero.mp h with h | h
      · exact hpx h
      · linarith
    rcases lt_or_gt_of_ne hpx with hx | hx
    · have hR : R = false := by
        rw [Bool.eq_false_iff, Ne, hr]; rintro (⟨_, _, hk⟩ | ⟨_, _, _⟩)
        · rw [hKv] at hk; nlinarith
        · linarith
      have hSP : SP = true := by rw [hsp]; right; exact ⟨h2, hx⟩
      simp [hR, hL, hSC, hSP, hT]
    · have hR : R = true := by
        rw [hr]; left; exact ⟨h2.le, h1, by rw [hKv]; exact mul_pos hx h1⟩
      have hSP : SP = false := by
        rw [Bool.eq_false_iff, Ne, hsp]; rintro (_ | ⟨_, _⟩) <;> linarith
      simp [hR, hL, hSC, hSP, hT]
  · -- both above
    have hR : R = false := by
      rw [Bool.eq_false_iff, Ne, hr]; rintro (⟨_, _, _⟩ | ⟨_, _, _⟩) <;> linarith
    have hL : L = false := by
      rw [Bool.eq_false_iff, Ne, hl]; rintro (⟨_, _, _⟩ | ⟨_, _, _⟩) <;> linarith
    have hSC : SC = true := by rw [hsc]; left; exact h1
    have hSP : SP = true := by rw [hsp]; left; exact h2
    have hT : ¬ (K = 0 ∧ D ≤ 0) := hsame (mul_pos h1 h2)
    simp [hR, hL, hSC, hSP, hT]

theorem prevIdx_zero (m : Nat) : prevIdx (m + 1) 0 = m := by
  simp [prevIdx]

theorem prevIdx_succ (m i : Nat) (h : i < m) : prevIdx (m + 1) (i + 1) = i := by
  unfold prevIdx
  rw [show i + 1 + (m + 1) - 1 = i + (m + 1) by omega, Nat.add_mod_right]
  exact Nat.mod_eq_of_lt (by omega)

theorem prevIdx_lt (n i : Nat) (h : 0 < n) : prevIdx n i < n := Nat.mod_lt _ h

theorem sum_prevIdx {M : Type} [AddCommMonoid M] (f : ℕ → M) (n : Nat) :
    ∑ i in Finset.range n, f (prevIdx n i) = ∑ i in Finset.range n, f i := by
  cases n with
  | zero => simp
  | succ m =>
    rw [Finset.sum_range_succ' _ m, prevIdx_zero, Finset.sum_range_succ _ m]
    congr 1
    apply Finset.sum_congr rfl
    intro i hi
    rw [prevIdx_succ m i (Finset.mem_range.mp hi)]

theorem onSegment_iff (a b pt : Point) :
    onSegment a b pt = true ↔
      cross ⟨a.x - pt.x, a.y - pt.y⟩ ⟨b.x - pt.x, b.y - pt.y⟩ = 0 ∧
      dot ⟨a.x - pt.x, a.y - pt.y⟩ ⟨b.x - pt.x, b.y - pt.y⟩ ≤ 0 := by
  simp only [onSegment, Bool.and_eq_true, decide_eq_true_eq, cross, dot, Point.sub]
  constructor
  · rintro ⟨h1, h2⟩; exact ⟨by linarith, h2⟩
  · rintro ⟨h1, h2⟩; exact ⟨by linarith, h2⟩

theorem rel_ne_zero (pts : List Point) (pt : Point) (i : Nat)
    (h : pts.getD i default ≠ pt) : (rel pts pt i).x ≠ 0 ∨ (rel pts pt i).y ≠ 0 := by
  by_contra hc
  simp only [not_or, not_not, rel] at hc
  apply h
  cases hv : pts.getD i default with
  | mk vx vy =>
    cases pt with
    | mk px py =>
      rw [hv] at hc
      simp only [Point.mk.injEq]
      exact ⟨by linarith [hc.1], by linarith [hc.2]⟩

/-- For a query point that is no vertex, the two crossing counters differ in parity exactly
when an odd number of cyclic edges pass through the point. -/
theorem crossings_parity (pts : List Point) (pt : Point) (h : pt ∉ pts) :
    (rCount pts pt + lCount pts pt) % 2 = edgesThrough pts pt % 2 := by
  have key : ∀ i ∈ Finset.range pts.length,
      ((if rHit (rel pts pt i) (rel pts pt (prevIdx pts.length i)) then 1 else 0) +
        (if lHit (rel pts pt i) (rel pts pt (prevIdx pts.length i)) then 1 else 0)) % 2 =
      ((if upperSide (rel pts pt i) then 1 else 0) +
        (if upperSide (rel pts pt (prevIdx pts.length i)) then 1 else 0) +
        (if onSegment (pts.getD (prevIdx pts.length i) default) (pts.getD i default) pt
          then 1 else 0)) % 2 := by
    intro i hi
    have hi' : i < pts.length := Finset.mem_range.mp hi
    have hp : prevIdx pts.length i < pts.length := prevIdx_lt _ _ (by omega)
    have e := edge_parity (rel pts pt i) (rel pts pt (prevIdx pts.length i))
      (rel_ne_zero pts pt i (getD_ne_of_not_mem pts pt h i hi'))
      (rel_ne_zero pts pt _ (getD_ne_of_not_mem pts pt h _ hp))
    rw [e]
    congr 2
    by_cases hs : onSegment (pts.getD (prevIdx pts.length i) default) (pts.getD i default) pt
        = true
    · have hh : cross (rel pts pt (prevIdx pts.length i)) (rel pts pt i) = 0 ∧
          dot (rel pts pt (prevIdx pts.length i)) (rel pts pt i) ≤ 0 :=
        (onSegment_iff _ _ _).mp hs
      rw [if_pos hs, if_pos hh]
    · have hh : ¬ (cross (rel pts pt (prevIdx pts.length i)) (rel pts pt i) = 0 ∧
          dot (rel pts pt (prevIdx pts.length i)) (rel pts pt i) ≤ 0) :=
        fun hh => hs ((onSegment_iff _ _ _).mpr hh)
      rw [if_neg hs, if_neg hh]
  unfold rCount lCount edgesThrough
  rw [← Finset.sum_add_distrib, Finset.sum_nat_mod, Finset.sum_congr rfl key,
    ← Finset.sum_nat_mod, Finset.sum_add_distrib, Finset.sum_add_distrib,
    sum_prevIdx (fun i => if upperSide (rel pts pt i) then 1 else 0)]
  omega

/-! ### A query point on an edge -/

theorem onSegment_between (a b pt : Point) (h : onSegment a b pt = true) :
    (a.x - pt.x) * (b.x - pt.x) ≤ 0 ∧ (a.y - pt.y) * (b.y - pt.y) ≤ 0 := by
  obtain ⟨hK, hD⟩ := (onSegment_iff a b pt).mp h
  simp only [cross, dot] at hK hD
  have e : ((a.x - pt.x) * (b.x - pt.x)) * ((a.y - pt.y) * (b.y - pt.y))
      = ((a.x - pt.x) * (b.y - pt.y)) ^ 2 := by
    linear_combination (-((a.x - pt.x) * (b.y - pt.y))) * hK
  constructor
  · by_contra hc
    nlinarith [sq_nonneg ((a.x - pt.x) * (b.y - pt.y))]
  · by_contra hc
    nlinarith [sq_nonneg ((a.x - pt.x) * (b.y - pt.y))]

theorem IsPointInside_of_onSegment (xs : List Point) (a b pt : Point) (ha : a ∈ xs)
    (hb : b ∈ xs) (h : onSegment a b pt = true) : (minimalBox xs).IsPointInside pt = true := by
  obtain ⟨hx, hy⟩ := onSegment_between a b pt h
  rw [minimalBox_IsPointInside]
  refine ⟨?_, ?_, ?_, ?_⟩
  · rcases le_or_lt a.x pt.x with h1 | h1
    · exact ⟨a, ha, h1⟩
    · refine ⟨b, hb, ?_⟩
      by_contra hc
      nlinarith
  · rcases le_or_lt pt.x a.x with h1 | h1
    · exact ⟨a, ha, h1⟩
    · refine ⟨b, hb, ?_⟩
      by_contra hc
      nlinarith
  · rcases le_or_lt a.y pt.y with h1 | h1
    · exact ⟨a, ha, h1⟩
    · refine ⟨b, hb, ?_⟩
      by_contra hc
      nlinarith
  · rcases le_or_lt pt.y a.y with h1 | h1
    · exact ⟨a, ha, h1⟩
    · refine ⟨b, hb, ?_⟩
      by_contra hc
      nlinarith

theorem getD_mem (pts : List Point) (i : Nat) (h : i < pts.length) :
    pts.getD i default ∈ pts := by
  rw [List.getD_eq_getElem _ _ h]
  exact List.getElem_mem _

theorem exists_edge_of_edgesThrough (pts : List Point) (pt : Point)
    (h : edgesThrough pts pt ≠ 0) :
    ∃ i, i < pts.length ∧
      onSegment (pts.getD (prevIdx pts.length i) default) (pts.getD i default) pt = true := by
  by_contra hc
  apply h
  unfold edgesThrough
  apply Finset.sum_eq_zero
  intro i hi
  rw [if_neg]
  intro hs
  exact hc ⟨i, Finset.mem_range.mp hi, hs⟩

/-- In exact arithmetic, a region of at least 3 vertices contains every point that lies on
an odd number of its cyclic edges. -/
theorem Contains_on_odd_edges_exact (ops : List Mutator) (pt : Point)
    (hn : 3 ≤ (Region.run ops).m_points.length)
    (hodd : edgesThrough (Region.run ops).m_points pt % 2 = 1) :
    (Region.run ops).Contains pt = true := by
  have hne0 : edgesThrough (Region.run ops).m_points pt ≠ 0 := by omega
  obtain ⟨i, hi, hs⟩ := exists_edge_of_edgesThrough _ pt hne0
  have hin : (Region.run ops).m_rect.IsPointInside pt = true := by
    rw [run_rect]
    exact IsPointInside_of_onSegment _ _ _ pt
      (getD_mem _ _ (prevIdx_lt _ _ (by omega))) (getD_mem _ _ hi) hs
  rw [Contains_eq, hin]
  by_cases hm : pt ∈ (Region.run ops).m_points
  · simp only [hm, decide_True, Bool.true_or, Bool.and_true, Bool.and_eq_true,
      decide_eq_true_eq]
    omega
  · have hp := crossings_parity _ pt hm
    have hne : (rCount (Region.run ops).m_points pt % 2
        != lCount (Region.run ops).m_points pt % 2) = true := by
      rw [bne_iff_ne]; omega
    simp only [hne, Bool.true_or, Bool.or_true, Bool.and_true, Bool.and_eq_true,
      decide_eq_true_eq]
    omega

/-! ### Closed polygons that turn counter-clockwise about the query point -/

theorem prevIdx_eq (n i : Nat) (hi : i < n) :
    prevIdx n i = if i = 0 then n - 1 else i - 1 := by
  cases n with
  | zero => omega
  | succ m =>
    cases i with
    | zero => simp [prevIdx_zero]
    | succ j => rw [prevIdx_succ m j (by omega)]; simp

/-- A property that passes from every vertex to its cyclic predecessor and holds somewhere
holds everywhere. -/
theorem cyclic_propagate (P : ℕ → Prop) (n : Nat)
    (hstep : ∀ i, i < n → P i → P (prevIdx n i)) (j : Nat) (hj : j < n) (hP : P j) :
    ∀ i, i < n → P i := by
  have down : ∀ m, m < n → P m → ∀ i, i ≤ m → P i := by
    intro m
    induction m with
    | zero => intro _ h i hi; rwa [Nat.le_zero.mp hi]
    | succ m ih =>
      intro hm h i hi
      rcases Nat.lt_or_ge i (m + 1) with h1 | h1
      · refine ih (by omega) ?_ i (by omega)
        have := hstep (m + 1) hm h
        rwa [prevIdx_eq n (m + 1) hm, if_neg (by omega), Nat.add_sub_cancel] at this
      · rwa [show i = m + 1 by omega]
  have h0 : P 0 := down j hj hP 0 (Nat.zero_le _)
  have hl : P (n - 1) := by
    have := hstep 0 (by omega) h0
    rwa [prevIdx_eq n 0 (by omega), if_pos rfl] at this
  intro i hi
  exact down (n - 1) (by omega) hl i (by omega)

/-- No closed polygon whose edges all turn counter-clockwise about the origin stays on one
strict side of the x-axis. -/
theorem no_cycle_one_side (n : Nat) (v : ℕ → Point) (hn : 0 < n)
    (hin : ∀ i, i < n → 0 < cross (v (prevIdx n i)) (v i))
    (hs : ∀ i, i < n → 0 < (v (prevIdx n i)).y * (v i).y) : False := by
  have hpos : 0 < ∑ i in Finset.range n,
      ((v (prevIdx n i)).x / (v (prevIdx n i)).y - (v i).x / (v i).y) := by
    apply Finset.sum_pos
    · intro i hi
      have hi' := Finset.mem_range.mp hi
      have h1 := hs i hi'
      have h2 := hin i hi'
      have hp : (v (prevIdx n i)).y ≠ 0 := fun h => by rw [h, zero_mul] at h1; exact lt_irrefl _ h1
      have hc : (v i).y ≠ 0 := fun h => by rw [h, mul_zero] at h1; exact lt_irrefl _ h1
      have e : (v (prevIdx n i)).x / (v (prevIdx n i)).y - (v i).x / (v i).y
          = cross (v (prevIdx n i)) (v i) / ((v (prevIdx n i)).y * (v i).y) := by
        simp only [cross]; field_simp
      rw [e]
      exact div_pos h2 h1
    · exact ⟨0, Finset.mem_range.mpr hn⟩
  rw [Finset.sum_sub_distrib, sum_prevIdx (fun i => (v i).x / (v i).y), sub_self] at hpos
  exact lt_irrefl _ hpos

theorem succIdx_prev (n j : Nat) (hj : j < n) :
    ∃ s, s < n ∧ prevIdx n s = j := by
  rcases Nat.lt_or_ge (j + 1) n with h | h
  · exact ⟨j + 1, h, by rw [prevIdx_eq n (j + 1) h, if_neg (by omega), Nat.add_sub_cancel]⟩
  · exact ⟨0, by omega, by rw [prevIdx_eq n 0 (by omega), if_pos rfl]; omega⟩

/-- A closed polygon whose edges all turn counter-clockwise about the origin has an edge
that goes up across the x-axis: from `y ≤ 0` to `y > 0`. -/
theorem exists_up_edge (n : Nat) (v : ℕ → Point) (hn : 0 < n)
    (hin : ∀ i, i < n → 0 < cross (v (prevIdx n i)) (v i)) :
    ∃ i, i < n ∧ (v (prevIdx n i)).y ≤ 0 ∧ 0 < (v i).y := by
  by_contra hno
  have hstep : ∀ i, i < n → 0 < (v i).y → 0 < (v (prevIdx n i)).y := by
    intro i hi hy
    by_contra hc
    exact hno ⟨i, hi, not_lt.mp hc, hy⟩
  by_cases hex : ∃ j, j < n ∧ 0 < (v j).y
  · obtain ⟨j, hj, hy⟩ := hex
    have hall := cyclic_propagate (fun i => 0 < (v i).y) n hstep j hj hy
    exact no_cycle_one_side n v hn hin
      (fun i hi => mul_pos (hall _ (prevIdx_lt n i hn)) (hall i hi))
  · have hall : ∀ i, i < n → (v i).y ≤ 0 := fun i hi => not_lt.mp (fun h => hex ⟨i, hi, h⟩)
    by_cases hz : ∃ j, j < n ∧ (v j).y = 0
    · obtain ⟨j, hj, hy⟩ := hz
      obtain ⟨s, hs, hsj⟩ := succIdx_prev n j hj
      have h1 := hin j hj
      have h2 := hin s hs
      rw [hsj] at h2
      have h3 := hall _ (prevIdx_lt n j hn)
      have h4 := hall s hs
      simp only [cross, hy, mul_zero, zero_mul, sub_zero, zero_sub] at h1 h2
      -- h1 : 0 < -(prev.y * v_j.x), h2 : 0 < v_j.x * v_s.y
      rcases lt_trichotomy (v j).x 0 with hx | hx | hx
      · nlinarith
      · rw [hx] at h2; simp at h2
      · nlinarith
    · have hneg : ∀ i, i < n → (v i).y < 0 := fun i hi =>
        lt_of_le_of_ne (hall i hi) (fun h => hz ⟨i, hi, h⟩)
      exact no_cycle_one_side n v hn hin
        (fun i hi => mul_pos_of_neg_of_neg (hneg _ (prevIdx_lt n i hn)) (hneg i hi))

/-- Two distinct edges of a counter-clockwise convex polygon cannot both go up across the
x-axis. -/
theorem no_two_up (a b c d : Point) (ha : a.y ≤ 0) (hb : 0 < b.y) (hc : c.y ≤ 0)
    (hd : 0 < d.y) (h1 : 0 < leftOf a b c) (h2 : 0 < leftOf a b d) (h3 : 0 < leftOf c d a)
    (h4 : 0 < leftOf c d b) : False := by
  rcases le_total c.y a.y with h | h
  · have e : (d.y - a.y) * leftOf a b c + (a.y - c.y) * leftOf a b d
        = - ((b.y - a.y) * leftOf c d a) := by
      simp only [leftOf, cross, Point.sub]; ring
    have p1 : 0 < (d.y - a.y) * leftOf a b c := mul_pos (by linarith) h1
    have p2 : 0 ≤ (a.y - c.y) * leftOf a b d := mul_nonneg (by linarith) h2.le
    have p3 : 0 < (b.y - a.y) * leftOf c d a := mul_pos (by linarith) h3
    linarith
  · have e : (b.y - c.y) * leftOf c d a + (c.y - a.y) * leftOf c d b
        = - ((d.y - c.y) * leftOf a b c) := by
      simp only [leftOf, cross, Point.sub]; ring
    have p1 : 0 < (b.y - c.y) * leftOf c d a := mul_pos (by linarith) h3
    have p2 : 0 ≤ (c.y - a.y) * leftOf c d b := mul_nonneg (by linarith) h4.le
    have p3 : 0 < (d.y - c.y) * leftOf a b c := mul_pos (by linarith) h1
    linarith

theorem prevIdx_inj (n i j : Nat) (hi : i < n) (hj : j < n) (h : prevIdx n i = prevIdx n j) :
    i = j := by
  rw [prevIdx_eq n i hi, prevIdx_eq n j hj] at h
  split_ifs at h <;> omega

theorem up_edge_unique (n : Nat) (v : ℕ → Point)
    (hc : ∀ i, i < n → ∀ k, k < n → k ≠ i → k ≠ prevIdx n i →
      0 < leftOf (v (prevIdx n i)) (v i) (v k))
    (i j : Nat) (hi : i < n) (hj : j < n)
    (ui : (v (prevIdx n i)).y ≤ 0 ∧ 0 < (v i).y)
    (uj : (v (prevIdx n j)).y ≤ 0 ∧ 0 < (v j).y) : i = j := by
  by_contra hne
  have hn : 0 < n := by omega
  have hpi := prevIdx_lt n i hn
  have hpj := prevIdx_lt n j hn
  have hpne : prevIdx n j ≠ prevIdx n i := fun h => hne (prevIdx_inj n i j hi hj h.symm)
  have hji : prevIdx n j ≠ i := fun h => by
    have := uj.1; rw [h] at this; linarith [ui.2]
  have hij : prevIdx n i ≠ j := fun h => by
    have := ui.1; rw [h] at this; linarith [uj.2]
  exact no_two_up (v (prevIdx n i)) (v i) (v (prevIdx n j)) (v j) ui.1 ui.2 uj.1 uj.2
    (hc i hi _ hpj hji hpne)
    (hc i hi j hj (fun h => hne h.symm) (fun h => hij h.symm))
    (hc j hj _ hpi hij (fun h => hpne h.symm))
    (hc j hj i hi hne (fun h => hji h.symm))

/-- In a counter-clockwise convex polygon with the origin strictly inside, exactly one edge
is counted by `rCross`. -/
theorem rHit_count_eq_one (n : Nat) (v : ℕ → Point) (hn : 0 < n)
    (hin : ∀ i, i < n → 0 < cross (v (prevIdx n i)) (v i))
    (hc : ∀ i, i < n → ∀ k, k < n → k ≠ i → k ≠ prevIdx n i →
      0 < leftOf (v (prevIdx n i)) (v i) (v k)) :
    ∑ i in Finset.range n, (if rHit (v i) (v (prevIdx n i)) then 1 else 0) = 1 := by
  have hiff : ∀ i, i < n →
      (rHit (v i) (v (prevIdx n i)) = true ↔ (v (prevIdx n i)).y ≤ 0 ∧ 0 < (v i).y) := by
    intro i hi
    rw [rHit_iff]
    have := hin i hi
    constructor
    · rintro (⟨h1, h2, _⟩ | ⟨_, _, h3⟩)
      · exact ⟨h1, h2⟩
      · linarith
    · rintro ⟨h1, h2⟩; exact Or.inl ⟨h1, h2, this⟩
  obtain ⟨i0, hi0, hu0⟩ := exists_up_edge n v hn hin
  rw [Finset.sum_eq_single i0]
  · rw [if_pos ((hiff i0 hi0).mpr hu0)]
  · intro j hj hne
    rw [if_neg]
    intro h
    exact hne (up_edge_unique n v hc j i0 (Finset.mem_range.mp hj) hi0
      ((hiff j (Finset.mem_range.mp hj)).mp h) hu0)
  · intro h; exact absurd (Finset.mem_range.mpr hi0) h

/-! ### Symmetries of the crossing tests -/

theorem rHit_comm (c p : Point) : rHit c p = rHit p c := by
  rw [Bool.eq_iff_iff, rHit_iff, rHit_iff]
  have e : cross c p = - cross p c := by simp only [cross]; ring
  rw [e]
  constructor
  · rintro (⟨h1, h2, h3⟩ | ⟨h1, h2, h3⟩)
    · exact Or.inr ⟨h1, h2, by linarith⟩
    · exact Or.inl ⟨h1, h2, by linarith⟩
  · rintro (⟨h1, h2, h3⟩ | ⟨h1, h2, h3⟩)
    · exact Or.inr ⟨h1, h2, by linarith⟩
    · exact Or.inl ⟨h1, h2, by linarith⟩

theorem lHit_comm (c p : Point) : lHit c p = lHit p c := by
  rw [Bool.eq_iff_iff, lHit_iff, lHit_iff]
  have e : cross c p = - cross p c := by simp only [cross]; ring
  rw [e]
  constructor
  · rintro (⟨h1, h2, h3⟩ | ⟨h1, h2, h3⟩)
    · exact Or.inr ⟨h1, h2, by linarith⟩
    · exact Or.inl ⟨h1, h2, by linarith⟩
  · rintro (⟨h1, h2, h3⟩ | ⟨h1, h2, h3⟩)
    · exact Or.inr ⟨h1, h2, by linarith⟩
    · exact Or.inl ⟨h1, h2, by linarith⟩

/-- The left counter of a configuration is the right counter of its point reflection. -/
theorem lHit_eq_rHit_neg (c p : Point) : lHit c p = rHit ⟨-c.x, -c.y⟩ ⟨-p.x, -p.y⟩ := by
  rw [Bool.eq_iff_iff, lHit_iff, rHit_iff]
  have e : cross ⟨-p.x, -p.y⟩ ⟨-c.x, -c.y⟩ = cross p c := by simp only [cross]; ring
  rw [e]
  simp only [neg_nonpos, neg_pos]
  constructor
  · rintro (⟨h1, h2, h3⟩ | ⟨h1, h2, h3⟩)
    · exact Or.inr ⟨h2, h1, h3⟩
    · exact Or.inl ⟨h2, h1, h3⟩
  · rintro (⟨h1, h2, h3⟩ | ⟨h1, h2, h3⟩)
    · exact Or.inr ⟨h2, h1, h3⟩
    · exact Or.inl ⟨h2, h1, h3⟩

/-- A sum over the cyclic edges of a symmetric quantity is the same when the vertices are
listed backwards. -/
theorem sum_edges_reverse {M : Type} [AddCommMonoid M] (g : Point → Point → M)
    (hg : ∀ a b, g a b = g b a) (w : ℕ → Point) (n : Nat) :
    ∑ i in Finset.range n, g (w (n - 1 - i)) (w (n - 1 - prevIdx n i))
      = ∑ i in Finset.range n, g (w i) (w (prevIdx n i)) := by
  cases n with
  | zero => simp
  | succ m =>
    rw [Finset.sum_range_succ' _ m, Finset.sum_range_succ' _ m, prevIdx_zero]
    congr 1
    · have hR : ∑ k in Finset.range m, g (w (k + 1)) (w (prevIdx (m + 1) (k + 1)))
          = ∑ k in Finset.range m, g (w (k + 1)) (w k) :=
        Finset.sum_congr rfl (fun k hk => by rw [prevIdx_succ m k (Finset.mem_range.mp hk)])
      rw [hR, ← Finset.sum_range_reflect (fun j => g (w (j + 1)) (w j)) m]
      apply Finset.sum_congr rfl
      intro i hi
      have hi' := Finset.mem_range.mp hi
      rw [prevIdx_succ m i hi', hg]
      congr 2 <;> omega
    · rw [hg]
      congr 2
      omega

/-! ### Convex polygons with the query point strictly inside -/

theorem leftOf_rel (pts : List Point) (pt : Point) (a b k : Nat) :
    leftOf (rel pts pt a) (rel pts pt b) (rel pts pt k)
      = leftOf (pts.getD a default) (pts.getD b default) (pts.getD k default) := by
  simp only [leftOf, cross, Point.sub, rel]; ring

theorem cross_rel (pts : List Point) (pt : Point) (a b : Nat) :
    cross (rel pts pt a) (rel pts pt b)
      = leftOf (pts.getD a default) (pts.getD b default) pt := by
  simp only [leftOf, cross, Point.sub, rel]; ring

theorem leftOf_swap (a b p : Point) : leftOf b a p = - leftOf a b p := by
  simp only [leftOf, cross, Point.sub]; ring

theorem rev_idx (n i : Nat) (hi : i < n) :
    n - 1 - prevIdx n i < n ∧ prevIdx n (n - 1 - prevIdx n i) = n - 1 - i := by
  have h1 := prevIdx_eq n i hi
  have h2 := prevIdx_lt n i (by omega)
  refine ⟨by omega, ?_⟩
  rw [prevIdx_eq n _ (by omega)]
  split_ifs at h1 ⊢ <;> omega

/-- The counts and the bounding-box facts for a closed polygon given by a vertex function:
counter-clockwise convex with the origin strictly inside. -/
theorem convex_core (n : Nat) (v : ℕ → Point) (hn : 0 < n)
    (hin : ∀ i, i < n → 0 < cross (v (prevIdx n i)) (v i))
    (hc : ∀ i, i < n → ∀ k, k < n → k ≠ i → k ≠ prevIdx n i →
      0 < leftOf (v (prevIdx n i)) (v i) (v k)) :
    ∑ i in Finset.range n, (if rHit (v i) (v (prevIdx n i)) then 1 else 0) = 1 ∧
    ∑ i in Finset.range n, (if lHit (v i) (v (prevIdx n i)) then 1 else 0) = 1 ∧
    (∃ i, i < n ∧ (v i).x ≤ 0) ∧ (∃ i, i < n ∧ 0 ≤ (v i).x) ∧
    (∃ i, i < n ∧ (v i).y ≤ 0) ∧ (∃ i, i < n ∧ 0 ≤ (v i).y) := by
  refine ⟨rHit_count_eq_one n v hn hin hc, ?_, ?_⟩
  · simp only [lHit_eq_rHit_neg]
    apply rHit_count_eq_one n (fun i => ⟨-(v i).x, -(v i).y⟩) hn
    · intro i hi
      have := hin i hi
      simp only [cross] at this ⊢
      linarith
    · intro i hi k hk h1 h2
      have := hc i hi k hk h1 h2
      simp only [leftOf, cross, Point.sub] at this ⊢
      linarith
  · obtain ⟨i, hi, h1, h2⟩ := exists_up_edge n v hn hin
    obtain ⟨j, hj, h3, h4⟩ := exists_up_edge n (fun i => ⟨(v i).y, -(v i).x⟩) hn (by
      intro i hi
      have := hin i hi
      simp only [cross] at this ⊢
      linarith)
    simp only [neg_nonpos, neg_pos] at h3 h4
    exact ⟨⟨j, hj, h4.le⟩, ⟨_, prevIdx_lt n j hn, h3⟩, ⟨_, prevIdx_lt n i hn, h1⟩, ⟨i, hi, h2.le⟩⟩

theorem box_of_rel (pts : List Point) (pt : Point) (f : ℕ → ℕ)
    (hf : ∀ i, i < pts.length → f i < pts.length)
    (h : (∃ i, i < pts.length ∧ (rel pts pt (f i)).x ≤ 0) ∧
      (∃ i, i < pts.length ∧ 0 ≤ (rel pts pt (f i)).x) ∧
      (∃ i, i < pts.length ∧ (rel pts pt (f i)).y ≤ 0) ∧
      (∃ i, i < pts.length ∧ 0 ≤ (rel pts pt (f i)).y)) :
    (minimalBox pts).IsPointInside pt = true := by
  obtain ⟨⟨a, ha, ha'⟩, ⟨b, hb, hb'⟩, ⟨c, hc, hc'⟩, ⟨d, hd, hd'⟩⟩ := h
  simp only [rel] at ha' hb' hc' hd'
  rw [minimalBox_IsPointInside]
  exact ⟨⟨_, getD_mem pts _ (hf a ha), by linarith⟩, ⟨_, getD_mem pts _ (hf b hb), by linarith⟩,
    ⟨_, getD_mem pts _ (hf c hc), by linarith⟩, ⟨_, getD_mem pts _ (hf d hd), by linarith⟩⟩

theorem not_mem_of_StrictlyInside (s : ℚ) (pts : List Point) (pt : Point)
    (hin : StrictlyInside s pts pt) : pt ∉ pts := by
  intro hm
  obtain ⟨j, hj, hje⟩ := List.getElem_of_mem hm
  have h := hin j hj
  rw [List.getD_eq_getElem _ _ hj, hje] at h
  simp only [leftOf, cross, Point.sub] at h
  have e : s * ((pt.x - (pts.getD (prevIdx pts.length j) default).x) *
      (pt.y - (pts.getD (prevIdx pts.length j) default).y) -
      (pt.y - (pts.getD (prevIdx pts.length j) default).y) *
      (pt.x - (pts.getD (prevIdx pts.length j) default).x)) = 0 := by ring
  rw [e] at h
  exact lt_irrefl _ h

/-- For a strictly convex polygon, in either orientation, and a point strictly inside it,
each counter ends at exactly 1, the point passes the rectangle test and is no vertex. -/
theorem convex_inside_counts (s : ℚ) (pts : List Point) (pt : Point) (hs : s ≠ 0)
    (hn : 0 < pts.length) (hc : StrictlyConvex s pts) (hin : StrictlyInside s pts pt) :
    rCount pts pt = 1 ∧ lCount pts pt = 1 ∧ (minimalBox pts).IsPointInside pt = true ∧
      pt ∉ pts := by
  have hnm := not_mem_of_StrictlyInside s pts pt hin
  rcases lt_or_gt_of_ne hs with hneg | hpos
  · -- clockwise: read the vertices backwards
    have hin' : ∀ i, i < pts.length →
        0 < cross (rel pts pt (pts.length - 1 - prevIdx pts.length i))
          (rel pts pt (pts.length - 1 - i)) := by
      intro i hi
      obtain ⟨hj, hpj⟩ := rev_idx pts.length i hi
      have h := hin _ hj
      rw [hpj] at h
      rw [cross_rel, leftOf_swap]
      nlinarith
    have hc' : ∀ i, i < pts.length → ∀ k, k < pts.length → k ≠ i → k ≠ prevIdx pts.length i →
        0 < leftOf (rel pts pt (pts.length - 1 - prevIdx pts.length i))
          (rel pts pt (pts.length - 1 - i)) (rel pts pt (pts.length - 1 - k)) := by
      intro i hi k hk h1 h2
      obtain ⟨hj, hpj⟩ := rev_idx pts.length i hi
      have hp := prevIdx_lt pts.length i hn
      have h := hc _ hj (pts.length - 1 - k) (by omega) (by omega) (by rw [hpj]; omega)
      rw [hpj] at h
      rw [leftOf_rel, leftOf_swap]
      nlinarith
    obtain ⟨c1, c2, c3⟩ := convex_core pts.length (fun i => rel pts pt (pts.length - 1 - i)) hn
      hin' hc'
    refine ⟨?_, ?_, ?_, hnm⟩
    · rw [← c1]
      exact (sum_edges_reverse (fun a b => if rHit a b then 1 else 0)
        (fun a b => by
          show (if rHit a b = true then 1 else 0) = (if rHit b a = true then 1 else 0)
          rw [rHit_comm]) (rel pts pt) pts.length).symm
    · rw [← c2]
      exact (sum_edges_reverse (fun a b => if lHit a b then 1 else 0)
        (fun a b => by
          show (if lHit a b = true then 1 else 0) = (if lHit b a = true then 1 else 0)
          rw [lHit_comm]) (rel pts pt) pts.length).symm
    · exact box_of_rel pts pt (fun i => pts.length - 1 - i) (fun i hi => by
        show pts.length - 1 - i < pts.length
        omega) c3
  · have hin' : ∀ i, i < pts.length →
        0 < cross (rel pts pt (prevIdx pts.length i)) (rel pts pt i) := by
      intro i hi
      have h := hin i hi
      rw [cross_rel]
      exact (mul_pos_iff_of_pos_left hpos).mp h
    have hc' : ∀ i, i < pts.length → ∀ k, k < pts.length → k ≠ i → k ≠ prevIdx pts.length i →
        0 < leftOf (rel pts pt (prevIdx pts.length i)) (rel pts pt i) (rel pts pt k) := by
      intro i hi k hk h1 h2
      have h := hc i hi k hk h1 h2
      rw [leftOf_rel]
      exact (mul_pos_iff_of_pos_left hpos).mp h
    obtain ⟨c1, c2, c3⟩ := convex_core pts.length (rel pts pt) hn hin' hc'
    exact ⟨c1, c2, box_of_rel pts pt (fun i => i) (fun i hi => hi) c3, hnm⟩

/-- In exact arithmetic, the scan of a strictly convex polygon listed in boundary order
(counter-clockwise, `s = 1`, or clockwise, `s = -1`) at a point strictly inside it ends with
`rCross = 1` and `lCross = 1`. -/
theorem Contains_convex_interior_exact (ops : List Mutator) (p : Point)
    (hn : 3 ≤ (Region.run ops).m_points.length)
    (h : (StrictlyConvex 1 (Region.run ops).m_points ∧
            StrictlyInside 1 (Region.run ops).m_points p) ∨
         (StrictlyConvex (-1) (Region.run ops).m_points ∧
            StrictlyInside (-1) (Region.run ops).m_points p)) :
    (Region.run ops).scan p = Scan.finished 1 1 ∧ (Region.run ops).Contains p = true := by
  have key : rCount (Region.run ops).m_points p = 1 ∧ lCount (Region.run ops).m_points p = 1 ∧
      (minimalBox (Region.run ops).m_points).IsPointInside p = true ∧
      p ∉ (Region.run ops).m_points := by
    rcases h with ⟨hc, hin⟩ | ⟨hc, hin⟩
    · exact convex_inside_counts 1 _ p (by norm_num) (by omega) hc hin
    · exact convex_inside_counts (-1) _ p (by norm_num) (by omega) hc hin
  obtain ⟨hr, hl, hbox, hnm⟩ := key
  have hs : (Region.run ops).scan p = Scan.finished 1 1 := by
    rw [scan_of_not_mem _ p hnm, hr, hl]
  refine ⟨hs, ?_⟩
  rw [Contains_eq, run_rect, hbox, hr, hl]
  simp only [Bool.and_eq_true, decide_eq_true_eq, Bool.or_eq_true]
  exact ⟨⟨by omega, trivial⟩, Or.inr (by decide)⟩

/-! ### All vertices in a half-plane beside the query point -/

theorem rHit_half_plane (α β : ℚ) (c p : Point) (hc : 0 < α * c.x + β * c.y)
    (hp : 0 < α * p.x + β * p.y) :
    rHit c p = true ↔ (0 < α ∧ ((0 < c.y) ↔ ¬ (0 < p.y))) := by
  rw [rHit_iff]
  have e : α * cross p c = (α * p.x + β * p.y) * c.y - (α * c.x + β * c.y) * p.y := by
    simp only [cross]; ring
  constructor
  · rintro (⟨h1, h2, h3⟩ | ⟨h1, h2, h3⟩)
    · have : 0 < α * cross p c := by
        rw [e]; nlinarith [mul_pos hp h2, mul_nonneg hc.le (neg_nonneg.mpr h1)]
      refine ⟨(pos_iff_pos_of_mul_pos this).mpr h3, ?_⟩
      exact ⟨fun _ => not_lt.mpr h1, fun _ => h2⟩
    · have : α * cross p c < 0 := by
        rw [e]; nlinarith [mul_pos hc h2, mul_nonneg hp.le (neg_nonneg.mpr h1)]
      refine ⟨?_, ?_⟩
      · by_contra hα
        nlinarith [mul_nonneg (neg_nonneg.mpr (not_lt.mp hα)) (neg_nonneg.mpr h3.le)]
      · exact ⟨fun h => absurd h (not_lt.mpr h1), fun h => absurd h2 h⟩
  · rintro ⟨hα, hiff⟩
    by_cases hcy : 0 < c.y
    · have hpy : p.y ≤ 0 := not_lt.mp (hiff.mp hcy)
      left
      refine ⟨hpy, hcy, ?_⟩
      have : 0 < α * cross p c := by
        rw [e]; nlinarith [mul_pos hp hcy, mul_nonneg hc.le (neg_nonneg.mpr hpy)]
      exact (pos_iff_pos_of_mul_pos this).mp hα
    · have hpy : 0 < p.y := by
        by_contra h; exact hcy (hiff.mpr h)
      right
      refine ⟨not_lt.mp hcy, hpy, ?_⟩
      have : α * cross p c < 0 := by
        rw [e]; nlinarith [mul_pos hc hpy, mul_nonneg hp.le (neg_nonneg.mpr (not_lt.mp hcy))]
      by_contra hk
      nlinarith [mul_nonneg hα.le (not_lt.mp hk)]

theorem rHit_half_plane_parity (α β : ℚ) (c p : Point) (hc : 0 < α * c.x + β * c.y)
    (hp : 0 < α * p.x + β * p.y) :
    (if rHit c p then 1 else 0) % 2 =
      ((if 0 < α ∧ 0 < c.y then 1 else 0) + (if 0 < α ∧ 0 < p.y then 1 else 0)) % 2 := by
  have h := rHit_half_plane α β c p hc hp
  by_cases hα : 0 < α <;> by_cases h1 : 0 < c.y <;> by_cases h2 : 0 < p.y <;>
    simp [h, hα, h1, h2]

/-- When all vertices, seen from the query point, lie in an open half-plane whose border
passes through the query point, both counters end even. -/
theorem counts_even_of_half_plane (pts : List Point) (pt : Point) (α β : ℚ)
    (h : ∀ i, i < pts.length → 0 < α * (rel pts pt i).x + β * (rel pts pt i).y) :
    rCount pts pt % 2 = 0 ∧ lCount pts pt % 2 = 0 := by
  have hn : ∀ i, i < pts.length → prevIdx pts.length i < pts.length :=
    fun i hi => prevIdx_lt _ _ (by omega)
  constructor
  · unfold rCount
    rw [Finset.sum_nat_mod, Finset.sum_congr rfl (fun i hi =>
      rHit_half_plane_parity α β _ _ (h i (Finset.mem_range.mp hi))
        (h _ (hn i (Finset.mem_range.mp hi)))), ← Finset.sum_nat_mod, Finset.sum_add_distrib,
      sum_prevIdx (fun i => if 0 < α ∧ 0 < (rel pts pt i).y then 1 else 0)]
    omega
  · unfold lCount
    simp only [lHit_eq_rHit_neg]
    rw [Finset.sum_nat_mod, Finset.sum_congr rfl (fun i hi =>
      rHit_half_plane_parity (-α) (-β) _ _
        (by have := h i (Finset.mem_range.mp hi); simp only; linarith)
        (by have := h _ (hn i (Finset.mem_range.mp hi)); simp only; linarith)),
      ← Finset.sum_nat_mod, Finset.sum_add_distrib,
      sum_prevIdx (fun i => if 0 < -α ∧
        0 < (Point.mk (-(rel pts pt i).x) (-(rel pts pt i).y)).y then 1 else 0)]
    omega

/-- A point on the outer side of the line through `u` and `v`, with all vertices on its
closed inner side, is not contained. -/
theorem Contains_false_of_separated (ops : List Mutator) (pt u v : Point) (s : ℚ)
    (hall : ∀ i, i < (Region.run ops).m_points.length →
      0 ≤ s * leftOf u v ((Region.run ops).m_points.getD i default))
    (hout : s * leftOf u v pt < 0) : (Region.run ops).Contains pt = false := by
  have hh : ∀ i, i < (Region.run ops).m_points.length →
      0 < (-(s * (v.y - u.y))) * (rel (Region.run ops).m_points pt i).x
        + (s * (v.x - u.x)) * (rel (Region.run ops).m_points pt i).y := by
    intro i hi
    have h := hall i hi
    simp only [leftOf, cross, Point.sub, rel] at h hout ⊢
    nlinarith
  obtain ⟨hr, hl⟩ := counts_even_of_half_plane _ pt _ _ hh
  have hnm : pt ∉ (Region.run ops).m_points := by
    intro hm
    obtain ⟨j, hj, hje⟩ := List.getElem_of_mem hm
    have h := hh j hj
    simp only [rel, List.getD_eq_getElem _ _ hj, hje, sub_self, mul_zero, add_zero] at h
    exact lt_irrefl _ h
  rw [Contains_eq, hr, hl]
  simp [hnm]

theorem leftOf_sum (a b c p : Point) :
    leftOf a b p + leftOf b c p + leftOf c a p = leftOf a b c := by
  simp only [leftOf, cross, Point.sub]; ring

theorem leftOf_rot (a b c : Point) : leftOf b c a = leftOf a b c := by
  simp only [leftOf, cross, Point.sub]; ring

theorem leftOf_self_left (a b : Point) : leftOf a b a = 0 := by
  simp only [leftOf, cross, Point.sub]; ring

theorem leftOf_self_right (a b : Point) : leftOf a b b = 0 := by
  simp only [leftOf, cross, Point.sub]; ring

/-- A point of a non-degenerate triangle that lies on the line of the edge `a b`, weakly
inside the two other edges and on no vertex, is on the edge `a b` and on no other edge. -/
theorem triangle_edge (a b c p : Point) (s : ℚ) (harea : 0 < s * leftOf a b c)
    (hx : leftOf a b p = 0) (hy : 0 ≤ s * leftOf b c p) (hz : 0 ≤ s * leftOf c a p)
    (hpa : p ≠ a) (hpb : p ≠ b) :
    onSegment a b p = true ∧ onSegment b c p = false ∧ onSegment c a p = false := by
  have hsum := leftOf_sum a b c p
  rw [hx, zero_add] at hsum
  have hA : 0 < (a.x - p.x) ^ 2 + (a.y - p.y) ^ 2 := by
    by_contra h
    have h1 : (a.x - p.x) ^ 2 = 0 := by nlinarith [sq_nonneg (a.x - p.x), sq_nonneg (a.y - p.y)]
    have h2 : (a.y - p.y) ^ 2 = 0 := by nlinarith [sq_nonneg (a.x - p.x), sq_nonneg (a.y - p.y)]
    apply hpa
    cases a; cases p
    simp only [Point.mk.injEq]
    simp only at h1 h2
    exact ⟨by nlinarith [pow_eq_zero_iff (two_ne_zero) |>.mp h1],
      by nlinarith [pow_eq_zero_iff (two_ne_zero) |>.mp h2]⟩
  have hB : 0 < (b.x - p.x) ^ 2 + (b.y - p.y) ^ 2 := by
    by_contra h
    have h1 : (b.x - p.x) ^ 2 = 0 := by nlinarith [sq_nonneg (b.x - p.x), sq_nonneg (b.y - p.y)]
    have h2 : (b.y - p.y) ^ 2 = 0 := by nlinarith [sq_nonneg (b.x - p.x), sq_nonneg (b.y - p.y)]
    apply hpb
    cases b; cases p
    simp only [Point.mk.injEq]
    simp only at h1 h2
    exact ⟨by nlinarith [pow_eq_zero_iff (two_ne_zero) |>.mp h1],
      by nlinarith [pow_eq_zero_iff (two_ne_zero) |>.mp h2]⟩
  refine ⟨?_, ?_, ?_⟩
  · rw [onSegment_iff]
    refine ⟨by rw [← hx]; simp only [leftOf, cross, Point.sub]; ring, ?_⟩
    by_contra hD
    have hD' := not_le.mp hD
    -- (A·B)(A×C) - (A·C)(A×B) = |A|² (B×C)
    have e : dot ⟨a.x - p.x, a.y - p.y⟩ ⟨b.x - p.x, b.y - p.y⟩ * (s * leftOf c a p)
        + ((a.x - p.x) ^ 2 + (a.y - p.y) ^ 2) * (s * leftOf b c p)
        = - (s * (((a.x - p.x) * (c.x - p.x) + (a.y - p.y) * (c.y - p.y)) * leftOf a b p)) := by
      simp only [leftOf, cross, dot, Point.sub]; ring
    rw [hx, mul_zero, mul_zero, neg_zero] at e
    have t1 := mul_nonneg hD'.le hz
    have t2 := mul_nonneg hA.le hy
    have z1 : ((a.x - p.x) ^ 2 + (a.y - p.y) ^ 2) * (s * leftOf b c p) = 0 := by linarith
    have z2 : dot ⟨a.x - p.x, a.y - p.y⟩ ⟨b.x - p.x, b.y - p.y⟩ * (s * leftOf c a p) = 0 := by
      linarith
    have k1 : s * leftOf b c p = 0 := by
      rcases mul_eq_zero.mp z1 with h | h
      · exact absurd h (ne_of_gt hA)
      · exact h
    have k2 : s * leftOf c a p = 0 := by
      rcases mul_eq_zero.mp z2 with h | h
      · exact absurd h (ne_of_gt hD')
      · exact h
    have : s * leftOf a b c = 0 := by rw [← hsum, mul_add, k1, k2, add_zero]
    linarith
  · rw [Bool.eq_false_iff, Ne, onSegment_iff]
    rintro ⟨h1, _⟩
    have h1' : leftOf b c p = 0 := by rw [← h1]; simp only [leftOf, cross, Point.sub]; ring
    rw [h1', zero_add] at hsum
    have hne : leftOf c a p ≠ 0 := by
      intro h; rw [h] at hsum; rw [← hsum, mul_zero] at harea; exact lt_irrefl _ harea
    -- (A×B) C + (B×C) A + (C×A) B = 0
    have ex : leftOf c a p * (b.x - p.x) = - (leftOf a b p * (c.x - p.x))
        - leftOf b c p * (a.x - p.x) := by
      simp only [leftOf, cross, Point.sub]; ring
    have ey : leftOf c a p * (b.y - p.y) = - (leftOf a b p * (c.y - p.y))
        - leftOf b c p * (a.y - p.y) := by
      simp only [leftOf, cross, Point.sub]; ring
    rw [hx, h1'] at ex ey
    simp only [zero_mul, neg_zero, sub_zero] at ex ey
    have bx : b.x - p.x = 0 := (mul_eq_zero.mp ex).resolve_left hne
    have by' : b.y - p.y = 0 := (mul_eq_zero.mp ey).resolve_left hne
    rw [bx, by'] at hB
    norm_num at hB
  · rw [Bool.eq_false_iff, Ne, onSegment_iff]
    rintro ⟨h1, _⟩
    have h1' : leftOf c a p = 0 := by rw [← h1]; simp only [leftOf, cross, Point.sub]; ring
    rw [h1', add_zero] at hsum
    have hne : leftOf b c p ≠ 0 := by
      intro h; rw [h] at hsum; rw [← hsum, mul_zero] at harea; exact lt_irrefl _ harea
    have ex : leftOf b c p * (a.x - p.x) = - (leftOf a b p * (c.x - p.x))
        - leftOf c a p * (b.x - p.x) := by
      simp only [leftOf, cross, Point.sub]; ring
    have ey : leftOf b c p * (a.y - p.y) = - (leftOf a b p * (c.y - p.y))
        - leftOf c a p * (b.y - p.y) := by
      simp only [leftOf, cross, Point.sub]; ring
    rw [hx, h1'] at ex ey
    simp only [zero_mul, neg_zero, sub_zero] at ex ey
    have ax : a.x - p.x = 0 := (mul_eq_zero.mp ex).resolve_left hne
    have ay : a.y - p.y = 0 := (mul_eq_zero.mp ey).resolve_left hne
    rw [ax, ay] at hA
    norm_num at hA

/-! ### Triangles -/

/-- The three ways in which `Contains` returns true, in terms of the edge counts. -/
theorem Contains_of_counts (ops : List Mutator) (pt : Point)
    (hn : 3 ≤ (Region.run ops).m_points.length)
    (hbox : (minimalBox (Region.run ops).m_points).IsPointInside pt = true)
    (h : pt ∈ (Region.run ops).m_points ∨
      rCount (Region.run ops).m_points pt % 2 ≠ lCount (Region.run ops).m_points pt % 2 ∨
      rCount (Region.run ops).m_points pt % 2 = 1) :
    (Region.run ops).Contains pt = true := by
  rw [Contains_eq, run_rect, hbox]
  simp only [Bool.and_eq_true, decide_eq_true_eq, Bool.or_eq_true, bne_iff_ne, ne_eq,
    beq_iff_eq]
  refine ⟨⟨by omega, trivial⟩, ?_⟩
  rcases h with h | h | h
  · exact Or.inl (Or.inl h)
  · exact Or.inl (Or.inr h)
  · exact Or.inr h

theorem StrictlyConvex_triangle (s : ℚ) (a b c : Point) (h : 0 < s * leftOf a b c) :
    StrictlyConvex s [a, b, c] := by
  intro i hi k hk h1 h2
  simp only [List.length_cons, List.length_nil] at hi hk h1 h2 ⊢
  have e1 : leftOf c a b = leftOf a b c := by simp only [leftOf, cross, Point.sub]; ring
  have e2 : leftOf b c a = leftOf a b c := by simp only [leftOf, cross, Point.sub]; ring
  interval_cases i <;> interval_cases k <;>
    first
    | (exfalso; revert h1 h2; decide)
    | (simp only [prevIdx, List.getD_cons_zero, List.getD_cons_succ]; norm_num [e1, e2, h])

theorem StrictlyInside_triangle (s : ℚ) (a b c p : Point) (h1 : 0 < s * leftOf a b p)
    (h2 : 0 < s * leftOf b c p) (h3 : 0 < s * leftOf c a p) :
    StrictlyInside s [a, b, c] p := by
  intro i hi
  simp only [List.length_cons, List.length_nil] at hi ⊢
  interval_cases i <;>
    (simp only [prevIdx, List.getD_cons_zero, List.getD_cons_succ]; norm_num [h1, h2, h3])

theorem edgesThrough_triangle (a b c p : Point) :
    edgesThrough [a, b, c] p = (if onSegment c a p then 1 else 0)
      + (if onSegment a b p then 1 else 0) + (if onSegment b c p then 1 else 0) := by
  simp only [edgesThrough, List.length_cons, List.length_nil, Finset.sum_range_succ,
    Finset.sum_range_zero, prevIdx]
  norm_num [List.getD]

theorem mem_triangle_getD (a b c : Point) (P : Point → Prop) (ha : P a) (hb : P b) (hc : P c) :
    ∀ i, i < ([a, b, c] : List Point).length → P (([a, b, c] : List Point).getD i default) := by
  intro i hi
  simp only [List.length_cons, List.length_nil] at hi
  interval_cases i
  · exact ha
  · exact hb
  · exact hc

theorem Contains_triangle_edge (ops : List Mutator) (a b c p : Point)
    (hpts : (Region.run ops).m_points = [a, b, c]) (u v : Point)
    (hu : u ∈ (Region.run ops).m_points) (hv : v ∈ (Region.run ops).m_points)
    (hodd : edgesThrough (Region.run ops).m_points p = 1)
    (hseg : onSegment u v p = true) : (Region.run ops).Contains p = true := by
  have hbox := IsPointInside_of_onSegment _ u v p hu hv hseg
  by_cases hm : p ∈ (Region.run ops).m_points
  · exact Contains_of_counts ops p (by rw [hpts]; exact Nat.le_refl 3) hbox (Or.inl hm)
  · have hp := crossings_parity _ p hm
    rw [hodd] at hp
    exact Contains_of_counts ops p (by rw [hpts]; exact Nat.le_refl 3) hbox (Or.inr (Or.inl (by omega)))

/-- The triangle `a`, `b`, `c` with orientation sign `s` contains exactly the points that
are weakly on the inner side of its three edges. -/
theorem triangle_core (ops : List Mutator) (a b c p : Point) (s : ℚ)
    (hpts : (Region.run ops).m_points = [a, b, c]) (harea : 0 < s * leftOf a b c) :
    (Region.run ops).Contains p = true ↔
      (0 ≤ s * leftOf a b p ∧ 0 ≤ s * leftOf b c p ∧ 0 ≤ s * leftOf c a p) := by
  have hs : s ≠ 0 := fun h => by rw [h, zero_mul] at harea; exact lt_irrefl _ harea
  have e1 : leftOf b c a = leftOf a b c := leftOf_rot a b c
  have e2 : leftOf c a b = leftOf a b c := by rw [leftOf_rot b c a, e1]
  constructor
  · intro hC
    by_contra hnot
    have hfalse : (Region.run ops).Contains p = false := by
      by_cases h1 : 0 ≤ s * leftOf a b p
      · by_cases h2 : 0 ≤ s * leftOf b c p
        · have h3 : s * leftOf c a p < 0 := not_le.mp (fun h3 => hnot ⟨h1, h2, h3⟩)
          apply Contains_false_of_separated ops p c a s _ h3
          rw [hpts]
          exact mem_triangle_getD a b c (fun q => 0 ≤ s * leftOf c a q)
            (by simp only [leftOf_self_right, mul_zero, le_refl]) (by simp only [e2]; exact harea.le)
            (by simp only [leftOf_self_left, mul_zero, le_refl])
        · apply Contains_false_of_separated ops p b c s _ (not_le.mp h2)
          rw [hpts]
          exact mem_triangle_getD a b c (fun q => 0 ≤ s * leftOf b c q)
            (by simp only [e1]; exact harea.le) (by simp only [leftOf_self_left, mul_zero, le_refl])
            (by simp only [leftOf_self_right, mul_zero, le_refl])
      · apply Contains_false_of_separated ops p a b s _ (not_le.mp h1)
        rw [hpts]
        exact mem_triangle_getD a b c (fun q => 0 ≤ s * leftOf a b q)
          (by simp only [leftOf_self_left, mul_zero, le_refl]) (by simp only [leftOf_self_right, mul_zero, le_refl]) harea.le
    rw [hfalse] at hC
    exact Bool.false_ne_true hC
  · rintro ⟨h1, h2, h3⟩
    have hlen : 3 ≤ (Region.run ops).m_points.length := by rw [hpts]; exact Nat.le_refl 3
    by_cases hm : p ∈ (Region.run ops).m_points
    · exact Contains_of_counts ops p hlen (IsPointInside_of_mem _ p hm) (Or.inl hm)
    · have hma : a ∈ (Region.run ops).m_points := by rw [hpts]; simp
      have hmb : b ∈ (Region.run ops).m_points := by rw [hpts]; simp
      have hmc : c ∈ (Region.run ops).m_points := by rw [hpts]; simp
      have hpa : p ≠ a := fun h => hm (h ▸ hma)
      have hpb : p ≠ b := fun h => hm (h ▸ hmb)
      have hpc : p ≠ c := fun h => hm (h ▸ hmc)
      have hzero : ∀ x : ℚ, s * x = 0 → x = 0 := fun x hx =>
        (mul_eq_zero.mp hx).resolve_left hs
      rcases h1.lt_or_eq with g1 | g1
      · rcases h2.lt_or_eq with g2 | g2
        · rcases h3.lt_or_eq with g3 | g3
          · -- strictly inside
            obtain ⟨hr, _, hbox, _⟩ := convex_inside_counts s (Region.run ops).m_points p hs
              (by omega) (by rw [hpts]; exact StrictlyConvex_triangle s a b c harea)
              (by rw [hpts]; exact StrictlyInside_triangle s a b c p g1 g2 g3)
            exact Contains_of_counts ops p hlen hbox (Or.inr (Or.inr (by rw [hr])))
          · -- on the edge from c to a
            obtain ⟨t1, t2, t3⟩ := triangle_edge c a b p s (by rw [e2]; exact harea)
              (hzero _ g3.symm) h1 h2 hpc hpa
            apply Contains_triangle_edge ops a b c p hpts c a hmc hma _ t1
            rw [hpts, edgesThrough_triangle, t1, t2, t3]; rfl
        · -- on the edge from b to c
          obtain ⟨t1, t2, t3⟩ := triangle_edge b c a p s (by rw [e1]; exact harea)
            (hzero _ g2.symm) h3 h1 hpb hpc
          apply Contains_triangle_edge ops a b c p hpts b c hmb hmc _ t1
          rw [hpts, edgesThrough_triangle, t1, t2, t3]; rfl
      · -- on the edge from a to b
        obtain ⟨t1, t2, t3⟩ := triangle_edge a b c p s harea (hzero _ g1.symm) h2 h3 hpa hpb
        apply Contains_triangle_edge ops a b c p hpts a b hma hmb _ t1
        rw [hpts, edgesThrough_triangle, t1, t2, t3]; rfl

/-- In exact arithmetic, a region of three non-collinear vertices contains exactly the
points of the closed triangle. -/
theorem Contains_triangle_exact (ops : List Mutator) (a b c p : Point)
    (hpts : (Region.run ops).m_points = [a, b, c])
    (hnc : cross (b.sub a) (c.sub a) ≠ 0) :
    (Region.run ops).Contains p = true ↔
      ((0 ≤ cross (b.sub a) (p.sub a) ∧ 0 ≤ cross (c.sub b) (p.sub b) ∧
          0 ≤ cross (a.sub c) (p.sub c)) ∨
       (cross (b.sub a) (p.sub a) ≤ 0 ∧ cross (c.sub b) (p.sub b) ≤ 0 ∧
          cross (a.sub c) (p.sub c) ≤ 0)) := by
  have hsum : cross (b.sub a) (p.sub a) + cross (c.sub b) (p.sub b) + cross (a.sub c) (p.sub c)
      = cross (b.sub a) (c.sub a) := leftOf_sum a b c p
  rcases lt_or_gt_of_ne hnc with hneg | hpos
  · have h := triangle_core ops a b c p (-1) hpts (by
      show 0 < -1 * cross (b.sub a) (c.sub a)
      linarith)
    rw [h]
    simp only [leftOf]
    constructor
    · rintro ⟨h1, h2, h3⟩
      exact Or.inr ⟨by linarith, by linarith, by linarith⟩
    · rintro (⟨h1, h2, h3⟩ | ⟨h1, h2, h3⟩)
      · linarith
      · exact ⟨by linarith, by linarith, by linarith⟩
  · have h := triangle_core ops a b c p 1 hpts (by
      show 0 < 1 * cross (b.sub a) (c.sub a)
      linarith)
    rw [h]
    simp only [leftOf]
    constructor
    · rintro ⟨h1, h2, h3⟩
      exact Or.inl ⟨by linarith, by linarith, by linarith⟩
    · rintro (⟨h1, h2, h3⟩ | ⟨h1, h2, h3⟩)
      · exact ⟨by linarith, by linarith, by linarith⟩
      · linarith

/-! ### `Assign` twice -/

/-- C11: for every region `r`, in any prior state, and every point sequence `X`, `Assign X`
performed twice leaves the same region as `Assign X` performed once - the same vertex
sequence, the same bounding rectangle and the same `Contains p` for every `p` - and that
region does not depend on what `r` held before (any other region `r'` gives the same). -/
theorem Assign_idempotent (r r' : Region) (X : List Point) (p : Point) :
    ((r.Assign X).Assign X).m_points = (r.Assign X).m_points ∧
    ((r.Assign X).Assign X).Rect = (r.Assign X).Rect ∧
    ((r.Assign X).Assign X).Contains p = (r.Assign X).Contains p ∧
    (r.Assign X).m_points = X ∧
    r.Assign X = r'.Assign X := by
  have h1 : (r.Assign X).Assign X = r.Assign X := rfl
  have h2 : r.Assign X = r'.Assign X := rfl
  refine ⟨?_, ?_, ?_, rfl, h2⟩
  · rw [h1]
  · rw [h1]
  · rw [h1]

/-! ### No division by zero -/

theorem straddle_ne (a b : ℚ) (h : (decide (a > 0) != decide (b > 0)) = true) : b - a ≠ 0 := by
  intro h0
  have hab : b = a := by linarith
  rw [hab] at h
  simp at h

theorem straddle_neg_ne (a b : ℚ) (h : (decide (a < 0) != decide (b < 0)) = true) :
    b - a ≠ 0 := by
  intro h0
  have hab : b = a := by linarith
  rw [hab] at h
  simp at h

theorem checkedDiv_of_ne (a b : ℚ) (h : b ≠ 0) : checkedDiv a b = some (a / b) := by
  simp [checkedDiv, h]

theorem scanLoopChecked_eq (r : Region) (pt : Point) (n k : Nat) :
    ∀ i rc lc, r.scanLoopChecked pt n k i rc lc = some (r.scanLoop pt n k i rc lc) := by
  induction k with
  | zero => intro i rc lc; rw [Region.scanLoopChecked, Region.scanLoop]
  | succ k ih =>
    intro i rc lc
    rw [Region.scanLoopChecked, Region.scanLoop]
    by_cases h0 : (r.m_points.getD i default).equal pt = true
    · rw [if_pos h0, if_pos h0]
    · rw [if_neg h0, if_neg h0]
      simp only [crossX]
      by_cases h1 : (decide ((r.m_points.getD i default).y - pt.y > 0) !=
          decide ((r.m_points.getD ((i + n - 1) % n) default).y - pt.y > 0)) = true
      · by_cases h2 : (decide ((r.m_points.getD i default).y - pt.y < 0) !=
            decide ((r.m_points.getD ((i + n - 1) % n) default).y - pt.y < 0)) = true
        · simp only [h1, h2, if_true, checkedDiv_of_ne _ _ (straddle_ne _ _ h1), Option.map_some']
          exact ih _ _ _
        · simp only [h1, h2, if_true, if_false, checkedDiv_of_ne _ _ (straddle_ne _ _ h1),
            Option.map_some', Bool.false_eq_true]
          exact ih _ _ _
      · by_cases h2 : (decide ((r.m_points.getD i default).y - pt.y < 0) !=
            decide ((r.m_points.getD ((i + n - 1) % n) default).y - pt.y < 0)) = true
        · simp only [h1, h2, if_true, if_false, checkedDiv_of_ne _ _ (straddle_neg_ne _ _ h2),
            Option.map_some', Bool.false_eq_true]
          exact ih _ _ _
        · simp only [h1, h2, if_false, Bool.false_eq_true]
          exact ih _ _ _

/-- C12: in the right-ray branch, entered under `(curr.y > 0) != (prev.y > 0)`, and in the
left-ray branch, entered under `(curr.y < 0) != (prev.y < 0)`, the divisor `prev.y - curr.y`
is not zero; hence `Contains` with every division checked never fails, for every region and
every query point, and returns what `Contains` returns. -/
theorem Contains_never_divides_by_zero (r : Region) (pt : Point) (curr prev : Point) :
    ((decide (curr.y > 0) != decide (prev.y > 0)) = true → prev.y - curr.y ≠ 0) ∧
    ((decide (curr.y < 0) != decide (prev.y < 0)) = true → prev.y - curr.y ≠ 0) ∧
    r.ContainsChecked pt = some (r.Contains pt) := by
  refine ⟨straddle_ne _ _, straddle_neg_ne _ _, ?_⟩
  unfold Region.ContainsChecked Region.Contains Region.scan
  rw [scanLoopChecked_eq]
  by_cases h : (!r.IsValid || !r.m_rect.IsPointInside pt) = true
  · rw [if_pos h, if_pos h]
  · rw [if_neg h, if_neg h]
    cases r.scanLoop pt r.m_points.length r.m_points.length 0 0 0 with
    | vertex => rfl
    | finished a b =>
      simp only
      split_ifs <;> rfl

/-- Witness for C12: the edge from (0,-1) to (1,1) seen from the query point straddles the
x-axis and its divisor is -2; the checked scan of the triangle (0,0),(4,0),(0,4) at (1,1)
succeeds. -/
theorem Contains_never_divides_by_zero_witness :
    ((-1 : ℚ) - 1 ≠ 0) ∧
    (Region.ofRange [⟨0, 0⟩, ⟨4, 0⟩, ⟨0, 4⟩]).ContainsChecked ⟨1, 1⟩
      = some ((Region.ofRange [⟨0, 0⟩, ⟨4, 0⟩, ⟨0, 4⟩]).Contains ⟨1, 1⟩) :=
  ⟨(Contains_never_divides_by_zero (Region.ofRange [⟨0, 0⟩, ⟨4, 0⟩, ⟨0, 4⟩]) ⟨1, 1⟩
      ⟨1, 1⟩ ⟨0, -1⟩).1 (by norm_num),
   (Contains_never_divides_by_zero (Region.ofRange [⟨0, 0⟩, ⟨4, 0⟩, ⟨0, 4⟩]) ⟨1, 1⟩
      ⟨1, 1⟩ ⟨0, -1⟩).2.2⟩

/-! ### The reference characterisation -/

theorem any_equal_iff (pts : List Point) (pt : Point) :
    pts.any (fun v => v.equal pt) = true ↔ pt ∈ pts := by
  rw [List.any_eq_true]
  constructor
  · rintro ⟨v, hv, he⟩
    rw [Point.equal_iff] at he
    rwa [← he]
  · intro h
    exact ⟨pt, h, (Point.equal_iff _ _).mpr rfl⟩

theorem Contains_eq_ContainsSpec (r : Region) (pt : Point) :
    r.Contains pt = r.ContainsSpec pt := by
  unfold Region.Contains Region.ContainsSpec
  by_cases h : (!r.IsValid || !r.m_rect.IsPointInside pt) = true
  · rw [if_pos h, if_pos h]
  · rw [if_neg h, if_neg h]
    by_cases hm : pt ∈ r.m_points
    · rw [scan_of_mem r pt hm, if_pos ((any_equal_iff _ _).mpr hm)]
    · rw [scan_of_not_mem r pt hm, if_neg (fun hh => hm ((any_equal_iff _ _).mp hh))]

/-- C13: `Contains` is the specification's sequence - Step 0, full vertex scan, full crossing
scan over the cyclic edges, classification - for every region and every point; and for a
region with at least 3 vertices and a point inside the bounding rectangle that equals no
stored vertex, `Contains` is true exactly when `rCross` is odd or `lCross` is odd, the
two counts being taken over all cyclic edges. -/
theorem Contains_reference (r : Region) (pt : Point) :
    r.Contains pt = r.ContainsSpec pt ∧
    (3 ≤ r.m_points.length → r.m_rect.IsPointInside pt = true → pt ∉ r.m_points →
      (r.scan pt = Scan.finished (rCount r.m_points pt) (lCount r.m_points pt) ∧
       (r.Contains pt = true ↔
          (rCount r.m_points pt % 2 = 1 ∨ lCount r.m_points pt % 2 = 1)))) := by
  refine ⟨Contains_eq_ContainsSpec r pt, ?_⟩
  intro hn hin hm
  refine ⟨scan_of_not_mem r pt hm, ?_⟩
  rw [Contains_eq, hin]
  simp only [hm, decide_False, Bool.false_or, Bool.and_eq_true, decide_eq_true_eq,
    Bool.or_eq_true, bne_iff_ne, ne_eq, beq_iff_eq, Bool.and_true]
  constructor
  · rintro ⟨_, h | h⟩
    · omega
    · exact Or.inl h
  · intro h
    refine ⟨by omega, ?_⟩
    omega

/-- Witness for C13: the point (1,1) and the triangle (0,0),(4,0),(0,4). -/
theorem Contains_reference_witness :
    (Region.ofRange [⟨0, 0⟩, ⟨4, 0⟩, ⟨0, 4⟩]).scan ⟨1, 1⟩
      = Scan.finished (rCount [⟨0, 0⟩, ⟨4, 0⟩, ⟨0, 4⟩] ⟨1, 1⟩)
          (lCount [⟨0, 0⟩, ⟨4, 0⟩, ⟨0, 4⟩] ⟨1, 1⟩) ∧
    ((Region.ofRange [⟨0, 0⟩, ⟨4, 0⟩, ⟨0, 4⟩]).Contains ⟨1, 1⟩ = true ↔
      (rCount [⟨0, 0⟩, ⟨4, 0⟩, ⟨0, 4⟩] ⟨1, 1⟩ % 2 = 1 ∨
        lCount [⟨0, 0⟩, ⟨4, 0⟩, ⟨0, 4⟩] ⟨1, 1⟩ % 2 = 1)) :=
  (Contains_reference (Region.ofRange [⟨0, 0⟩, ⟨4, 0⟩, ⟨0, 4⟩]) ⟨1, 1⟩).2 (by decide)
    (by norm_num [Region.ofRange, Rect.Add, Rect.IsPointInside])
    (by simp [Region.ofRange])

/-! ### Soundness of the on-edge classification -/

/-- In exact arithmetic, counters of different parity at a point that is no vertex mean that
the point lies on a cyclic edge. -/
theorem on_edge_classification_sound_exact (r : Region) (pt : Point) (rCross lCross : Nat)
    (hm : pt ∉ r.m_points) (hs : r.scan pt = Scan.finished rCross lCross) :
    (rCross % 2 ≠ lCross % 2 →
      ∃ i, i < r.m_points.length ∧
        onSegment (r.m_points.getD (prevIdx r.m_points.length i) default)
          (r.m_points.getD i default) pt = true) ∧
    ((∀ i, i < r.m_points.length →
        onSegment (r.m_points.getD (prevIdx r.m_points.length i) default)
          (r.m_points.getD i default) pt = false) →
      rCross % 2 = lCross % 2) := by
  rw [scan_of_not_mem r pt hm] at hs
  injection hs with h1 h2
  have hp := crossings_parity r.m_points pt hm
  rw [h1, h2] at hp
  have key : rCross % 2 ≠ lCross % 2 →
      ∃ i, i < r.m_points.length ∧
        onSegment (r.m_points.getD (prevIdx r.m_points.length i) default)
          (r.m_points.getD i default) pt = true := by
    intro hne
    apply exists_edge_of_edgesThrough
    omega
  refine ⟨key, ?_⟩
  intro hall
  by_contra hne
  obtain ⟨i, hi, hseg⟩ := key hne
  rw [hall i hi] at hseg
  exact Bool.false_ne_true hseg

/-! ### The rectangle test as an optimisation -/

theorem lastFrom_append_cons (t l : List Point) (v a : Point) :
    lastFrom a (t ++ v :: l) = lastFrom v l := by
  induction t generalizing a with
  | nil => rfl
  | cons b t ih => exact ih b

theorem getD_length_cons (l : List Point) (a d : Point) :
    (a :: l).getD l.length d = lastFrom a l := by
  induction l generalizing a with
  | nil => rfl
  | cons b t ih =>
    rw [List.length_cons, List.getD_cons_succ]
    exact ih b

theorem sum_range_pairs (g : Point → Point → ℕ) (l : List Point) (a : Point) :
    ∑ i in Finset.range l.length, g ((a :: l).getD i default) (l.getD i default)
      = (List.zipWith g (a :: l) l).sum := by
  induction l generalizing a with
  | nil => rfl
  | cons b t ih =>
    rw [List.length_cons, Finset.sum_range_succ']
    simp only [List.getD_cons_succ, List.getD_cons_zero, List.zipWith_cons_cons, List.sum_cons]
    rw [ih b, Nat.add_comm]

/-- The sum over the cyclic edges by index is the sum read off the list. -/
theorem sum_edges_eq_cycSum (g : Point → Point → ℕ) (pts : List Point) :
    ∑ i in Finset.range pts.length,
        g (pts.getD (prevIdx pts.length i) default) (pts.getD i default)
      = cycSum g pts := by
  cases pts with
  | nil => rfl
  | cons a l =>
    rw [List.length_cons, Finset.sum_range_succ', prevIdx_zero, getD_length_cons]
    have e : ∀ i ∈ Finset.range l.length,
        g ((a :: l).getD (prevIdx (l.length + 1) (i + 1)) default)
          ((a :: l).getD (i + 1) default)
        = g ((a :: l).getD i default) (l.getD i default) := by
      intro i hi
      rw [prevIdx_succ l.length i (Finset.mem_range.mp hi), List.getD_cons_succ]
    rw [Finset.sum_congr rfl e, sum_range_pairs, List.getD_cons_zero, cycSum, Nat.add_comm]

theorem zipSum_append_single (g : Point → Point → ℕ) (l : List Point) (a b : Point) :
    (List.zipWith g (a :: (l ++ [b])) (l ++ [b])).sum
      = (List.zipWith g (a :: l) l).sum + g (lastFrom a l) b := by
  induction l generalizing a with
  | nil => simp [lastFrom]
  | cons c t ih =>
    simp only [List.cons_append, List.zipWith_cons_cons, List.sum_cons, lastFrom]
    rw [ih c, Nat.add_assoc]

theorem cycSum_cons (g : Point → Point → ℕ) (a : Point) (l : List Point) :
    cycSum g (a :: l) = g (lastFrom a l) a + (List.zipWith g (a :: l) l).sum := rfl

theorem cycSum_rotate_one (g : Point → Point → ℕ) (a : Point) (l : List Point) :
    cycSum g (l ++ [a]) = cycSum g (a :: l) := by
  cases l with
  | nil => rfl
  | cons b t =>
    rw [List.cons_append, cycSum_cons, cycSum_cons, zipSum_append_single,
      lastFrom_append_cons]
    simp only [lastFrom, List.zipWith_cons_cons, List.sum_cons]
    omega

/-- The sum over the cyclic edges does not depend on the vertex the list starts at. -/
theorem cycSum_append_comm (g : Point → Point → ℕ) (l1 l2 : List Point) :
    cycSum g (l1 ++ l2) = cycSum g (l2 ++ l1) := by
  induction l1 generalizing l2 with
  | nil => simp
  | cons a t ih =>
    rw [List.cons_append, ← cycSum_rotate_one, List.append_assoc, ih (l2 ++ [a])]
    simp

theorem zipSum_dup (g : Point → Point → ℕ) (t l2 : List Point) (a v : Point) :
    (List.zipWith g (a :: (t ++ v :: v :: l2)) (t ++ v :: v :: l2)).sum
      = (List.zipWith g (a :: (t ++ v :: l2)) (t ++ v :: l2)).sum + g v v := by
  induction t generalizing a with
  | nil =>
    simp only [List.nil_append, List.zipWith_cons_cons, List.sum_cons]
    omega
  | cons c t ih =>
    simp only [List.cons_append, List.zipWith_cons_cons, List.sum_cons]
    rw [ih c, Nat.add_assoc]

/-- Inserting a copy of a vertex next to it adds the zero-length edge and nothing else. -/
theorem cycSum_dup (g : Point → Point → ℕ) (l1 l2 : List Point) (v : Point) :
    cycSum g (l1 ++ v :: v :: l2) = cycSum g (l1 ++ v :: l2) + g v v := by
  cases l1 with
  | nil =>
    simp only [List.nil_append, cycSum_cons, lastFrom, List.zipWith_cons_cons,
      List.sum_cons]
    omega
  | cons a t =>
    rw [List.cons_append, List.cons_append, cycSum_cons, cycSum_cons, zipSum_dup,
      lastFrom_append_cons, lastFrom_append_cons]
    simp only [lastFrom]
    omega

theorem rCount_eq_cycSum (pts : List Point) (pt : Point) :
    rCount pts pt = cycSum (fun p c =>
      if rHit ⟨c.x - pt.x, c.y - pt.y⟩ ⟨p.x - pt.x, p.y - pt.y⟩ then 1 else 0) pts :=
  sum_edges_eq_cycSum (fun p c =>
      if rHit ⟨c.x - pt.x, c.y - pt.y⟩ ⟨p.x - pt.x, p.y - pt.y⟩ then 1 else 0) pts

theorem lCount_eq_cycSum (pts : List Point) (pt : Point) :
    lCount pts pt = cycSum (fun p c =>
      if lHit ⟨c.x - pt.x, c.y - pt.y⟩ ⟨p.x - pt.x, p.y - pt.y⟩ then 1 else 0) pts :=
  sum_edges_eq_cycSum (fun p c =>
      if lHit ⟨c.x - pt.x, c.y - pt.y⟩ ⟨p.x - pt.x, p.y - pt.y⟩ then 1 else 0) pts

/-- Two regions agree at a point when they agree on validity, on the rectangle test, on
which points are vertices and on the two edge counts. -/
theorem Contains_congr (r r' : Region) (pt : Point)
    (hlen : (2 < r'.m_points.length) ↔ (2 < r.m_points.length))
    (hrect : r'.m_rect.IsPointInside pt = r.m_rect.IsPointInside pt)
    (hmem : pt ∈ r'.m_points ↔ pt ∈ r.m_points)
    (hr : rCount r'.m_points pt = rCount r.m_points pt)
    (hl : lCount r'.m_points pt = lCount r.m_points pt) :
    r'.Contains pt = r.Contains pt := by
  have h1 : decide (2 < r'.m_points.length) = decide (2 < r.m_points.length) :=
    decide_eq_decide.mpr hlen
  have h2 : decide (pt ∈ r'.m_points) = decide (pt ∈ r.m_points) := decide_eq_decide.mpr hmem
  rw [Contains_eq, Contains_eq, hrect, hr, hl, h1, h2]

theorem rHit_self (c : Point) : rHit c c = false := by simp [rHit]

theorem lHit_self (c : Point) : lHit c c = false := by simp [lHit]

theorem Rect.Add_idem (r : Rect) (v : Point) : (r.Add v).Add v = r.Add v := by
  cases r with
  | empty => simp [Rect.Add]
  | box a b c d => simp [Rect.Add]

theorem minimalBox_dup (l1 l2 : List Point) (v : Point) :
    minimalBox (l1 ++ v :: v :: l2) = minimalBox (l1 ++ v :: l2) := by
  rw [← foldl_Add_empty, ← foldl_Add_empty]
  simp only [List.foldl_append, List.foldl_cons, Rect.Add_idem]

theorem dupAt_split (pts : List Point) (i : Nat) (hi : i < pts.length) :
    ∃ l1 v l2, pts = l1 ++ v :: l2 ∧ dupAt pts i = l1 ++ v :: v :: l2 := by
  refine ⟨pts.take i, pts[i], pts.drop (i + 1), ?_, ?_⟩
  · rw [← List.drop_eq_getElem_cons hi, List.take_append_drop]
  · have h1 : List.take (i + 1) pts = List.take i pts ++ [pts[i]] := by
      rw [List.take_succ, List.getElem?_eq_getElem hi]
      rfl
    have h2 : List.drop i pts = pts[i] :: List.drop (i + 1) pts :=
      List.drop_eq_getElem_cons hi
    show List.take (i + 1) pts ++ List.drop i pts
      = List.take i pts ++ pts[i] :: pts[i] :: List.drop (i + 1) pts
    rw [h1, h2, List.append_assoc]
    rfl

theorem mem_dup (l1 l2 : List Point) (v pt : Point) :
    pt ∈ l1 ++ v :: v :: l2 ↔ pt ∈ l1 ++ v :: l2 := by
  simp only [List.mem_append, List.mem_cons]
  tauto

/-! ### Zero-length edges -/

/-- C16: an edge whose two endpoints coincide is counted by neither `rCross` nor `lCross`;
and for every region with at least 3 vertices, every index `i` of a vertex and every query
point `p`, a region holding the same vertices with a copy of vertex `i` inserted
immediately after vertex `i` has the same bounding rectangle and the same `Contains p`. -/
theorem Contains_duplicate_vertex (ops ops' : List Mutator) (i : Nat) (p c : Point)
    (hn : 3 ≤ (Region.run ops).m_points.length) (hi : i < (Region.run ops).m_points.length)
    (h : (Region.run ops').m_points = dupAt (Region.run ops).m_points i) :
    rHit c c = false ∧ lHit c c = false ∧
    (Region.run ops').Rect = (Region.run ops).Rect ∧
    (Region.run ops').Contains p = (Region.run ops).Contains p := by
  obtain ⟨l1, v, l2, e1, e2⟩ := dupAt_split _ i hi
  rw [e2] at h
  have hrect : (Region.run ops').m_rect = (Region.run ops).m_rect := by
    rw [run_rect, run_rect, h, e1, minimalBox_dup]
  refine ⟨rHit_self c, lHit_self c, hrect, ?_⟩
  apply Contains_congr
  · have hlen := congrArg List.length e1
    rw [h]
    simp only [List.length_append, List.length_cons] at hlen ⊢
    constructor <;> intro _ <;> omega
  · rw [hrect]
  · rw [h, e1]; exact mem_dup l1 l2 v p
  · rw [h, e1, rCount_eq_cycSum, rCount_eq_cycSum, cycSum_dup]
    simp only [rHit_self, Bool.false_eq_true, if_false, Nat.add_zero]
  · rw [h, e1, lCount_eq_cycSum, lCount_eq_cycSum, cycSum_dup]
    simp only [lHit_self, Bool.false_eq_true, if_false, Nat.add_zero]

/-- Witness for C16: the triangle (0,0),(4,0),(0,4) against (0,0),(4,0),(4,0),(0,4), at the
inner point (1,1). -/
theorem Contains_duplicate_vertex_witness :
    (Region.run [Mutator.construct [⟨0, 0⟩, ⟨4, 0⟩, ⟨4, 0⟩, ⟨0, 4⟩]]).Rect
      = (Region.run [Mutator.construct [⟨0, 0⟩, ⟨4, 0⟩, ⟨0, 4⟩]]).Rect ∧
    (Region.run [Mutator.construct [⟨0, 0⟩, ⟨4, 0⟩, ⟨4, 0⟩, ⟨0, 4⟩]]).Contains ⟨1, 1⟩
      = (Region.run [Mutator.construct [⟨0, 0⟩, ⟨4, 0⟩, ⟨0, 4⟩]]).Contains ⟨1, 1⟩ :=
  (Contains_duplicate_vertex [Mutator.construct [⟨0, 0⟩, ⟨4, 0⟩, ⟨0, 4⟩]]
    [Mutator.construct [⟨0, 0⟩, ⟨4, 0⟩, ⟨4, 0⟩, ⟨0, 4⟩]] 1 ⟨1, 1⟩ ⟨0, 0⟩
    (by decide) (by decide) rfl).2.2

/-! ### The starting vertex -/

/-- C18: for every vertex sequence `xs`, every cyclic rotation `xs.rotate k` of it and every
point `p`, a region holding the rotated sequence has the same bounding rectangle and the same
`Contains p` as a region holding `xs`. -/
theorem Contains_rotation (ops ops' : List Mutator) (k : Nat) (p : Point)
    (h : (Region.run ops').m_points = (Region.run ops).m_points.rotate k) :
    (Region.run ops').Rect = (Region.run ops).Rect ∧
    (Region.run ops').Contains p = (Region.run ops).Contains p := by
  have hrect : (Region.run ops').m_rect = (Region.run ops).m_rect := by
    rw [run_rect, run_rect, h, ← foldl_Add_empty, ← foldl_Add_empty]
    exact foldl_Add_perm _ _ (List.rotate_perm _ k) _
  have hsplit : (Region.run ops).m_points
      = List.take (k % (Region.run ops).m_points.length) (Region.run ops).m_points
        ++ List.drop (k % (Region.run ops).m_points.length) (Region.run ops).m_points :=
    (List.take_append_drop _ _).symm
  refine ⟨hrect, ?_⟩
  apply Contains_congr
  · rw [h, List.length_rotate]
  · rw [hrect]
  · rw [h, List.mem_rotate]
  · rw [h, rCount_eq_cycSum, rCount_eq_cycSum, List.rotate_eq_drop_append_take_mod,
      cycSum_append_comm, ← hsplit]
  · rw [h, lCount_eq_cycSum, lCount_eq_cycSum, List.rotate_eq_drop_append_take_mod,
      cycSum_append_comm, ← hsplit]

/-- Witness for C18: the triangle (0,0),(4,0),(0,4) started at its second vertex. -/
theorem Contains_rotation_witness :
    (Region.run [Mutator.construct [⟨4, 0⟩, ⟨0, 4⟩, ⟨0, 0⟩]]).Rect
      = (Region.run [Mutator.construct [⟨0, 0⟩, ⟨4, 0⟩, ⟨0, 4⟩]]).Rect ∧
    (Region.run [Mutator.construct [⟨4, 0⟩, ⟨0, 4⟩, ⟨0, 0⟩]]).Contains ⟨1, 1⟩
      = (Region.run [Mutator.construct [⟨0, 0⟩, ⟨4, 0⟩, ⟨0, 4⟩]]).Contains ⟨1, 1⟩ :=
  Contains_rotation [Mutator.construct [⟨0, 0⟩, ⟨4, 0⟩, ⟨0, 4⟩]]
    [Mutator.construct [⟨4, 0⟩, ⟨0, 4⟩, ⟨0, 0⟩]] 1 ⟨1, 1⟩ rfl

/-! ### The winding direction -/

theorem getD_reverse (pts : List Point) (i : Nat) (hi : i < pts.length) :
    pts.reverse.getD i default = pts.getD (pts.length - 1 - i) default := by
  rw [List.getD_eq_getElem _ _ (by rw [List.length_reverse]; exact hi),
    List.getD_eq_getElem _ _ (by omega), List.getElem_reverse]

theorem rel_reverse (pts : List Point) (pt : Point) (i : Nat) (hi : i < pts.length) :
    rel pts.reverse pt i = rel pts pt (pts.length - 1 - i) := by
  simp only [rel, getD_reverse pts i hi]

theorem crossX_comm (curr prev : Point) : crossX curr prev = crossX prev curr := by
  rw [crossX, crossX, ← neg_div_neg_eq]
  congr 1 <;> ring

theorem rCount_reverse (pts : List Point) (pt : Point) :
    rCount pts.reverse pt = rCount pts pt := by
  unfold rCount
  rw [List.length_reverse]
  rw [← sum_edges_reverse (fun a b => if rHit a b then 1 else 0)
    (fun a b => by
      show (if rHit a b = true then 1 else 0) = (if rHit b a = true then 1 else 0)
      rw [rHit_comm]) (rel pts pt) pts.length]
  apply Finset.sum_congr rfl
  intro i hi
  have hi' := Finset.mem_range.mp hi
  rw [rel_reverse pts pt i hi', rel_reverse pts pt _ (prevIdx_lt _ _ (by omega))]

theorem lCount_reverse (pts : List Point) (pt : Point) :
    lCount pts.reverse pt = lCount pts pt := by
  unfold lCount
  rw [List.length_reverse]
  rw [← sum_edges_reverse (fun a b => if lHit a b then 1 else 0)
    (fun a b => by
      show (if lHit a b = true then 1 else 0) = (if lHit b a = true then 1 else 0)
      rw [lHit_comm]) (rel pts pt) pts.length]
  apply Finset.sum_congr rfl
  intro i hi
  have hi' := Finset.mem_range.mp hi
  rw [rel_reverse pts pt i hi', rel_reverse pts pt _ (prevIdx_lt _ _ (by omega))]

/-- C19: both straddle tests and the intersection abscissa are symmetric under swapping
`curr` and `prev`; and for every vertex sequence `xs` and every point `p`, a region holding
the reversed sequence has the same bounding rectangle and the same `Contains p` as a region
holding `xs`. -/
theorem Contains_reverse (ops ops' : List Mutator) (p curr prev : Point)
    (h : (Region.run ops').m_points = (Region.run ops).m_points.reverse) :
    crossX curr prev = crossX prev curr ∧
    rHit curr prev = rHit prev curr ∧ lHit curr prev = lHit prev curr ∧
    (Region.run ops').Rect = (Region.run ops).Rect ∧
    (Region.run ops').Contains p = (Region.run ops).Contains p := by
  have hrect : (Region.run ops').m_rect = (Region.run ops).m_rect := by
    rw [run_rect, run_rect, h, ← foldl_Add_empty, ← foldl_Add_empty]
    exact foldl_Add_perm _ _ (List.reverse_perm _) _
  refine ⟨crossX_comm curr prev, rHit_comm curr prev, lHit_comm curr prev, hrect, ?_⟩
  apply Contains_congr
  · rw [h, List.length_reverse]
  · rw [hrect]
  · rw [h, List.mem_reverse]
  · rw [h, rCount_reverse]
  · rw [h, lCount_reverse]

/-- Witness for C19: the triangle (0,0),(4,0),(0,4) listed backwards. -/
theorem Contains_reverse_witness :
    (Region.run [Mutator.construct [⟨0, 4⟩, ⟨4, 0⟩, ⟨0, 0⟩]]).Contains ⟨1, 1⟩
      = (Region.run [Mutator.construct [⟨0, 0⟩, ⟨4, 0⟩, ⟨0, 4⟩]]).Contains ⟨1, 1⟩ :=
  (Contains_reverse [Mutator.construct [⟨0, 0⟩, ⟨4, 0⟩, ⟨0, 4⟩]]
    [Mutator.construct [⟨0, 4⟩, ⟨4, 0⟩, ⟨0, 0⟩]] ⟨1, 1⟩ ⟨0, 0⟩ ⟨0, 0⟩ rfl).2.2.2.2

/-! ### Rounding to `double` -/

theorem roundNE_intCast (z : ℤ) : roundNE (z : ℚ) = z := by
  simp [roundNE]

theorem floor_le_roundNE (t : ℚ) : ⌊t⌋ ≤ roundNE t := by
  unfold roundNE
  split_ifs <;> omega

theorem roundNE_le_floor_succ (t : ℚ) : roundNE t ≤ ⌊t⌋ + 1 := by
  unfold roundNE
  split_ifs <;> omega

theorem log_eq_of_bounds (q : ℚ) (e : ℤ) (h1 : (2 : ℚ) ^ e ≤ q) (h2 : q < (2 : ℚ) ^ (e + 1)) :
    Int.log 2 q = e := by
  have hq : 0 < q := lt_of_lt_of_le (by positivity) h1
  have a : e ≤ Int.log 2 q := by
    rw [← Int.zpow_le_iff_le_log (by norm_num) hq]
    exact_mod_cast h1
  have b : Int.log 2 q < e + 1 := by
    rw [← Int.lt_zpow_iff_log_lt (by norm_num) hq]
    exact_mod_cast h2
  omega

/-- The rounding by its definition, for a positive number whose binary exponent is known. -/
theorem roundD_of_pos (q : ℚ) (hq : 0 < q) :
    roundD q =
      if (2 : ℚ) ^ (1024 : ℤ) ≤
          roundNE (q / 2 ^ (max (Int.log 2 q) (-1022) - 52)) * 2 ^ (max (Int.log 2 q) (-1022) - 52)
      then Dbl.pinf
      else Dbl.fin
        (roundNE (q / 2 ^ (max (Int.log 2 q) (-1022) - 52))
          * 2 ^ (max (Int.log 2 q) (-1022) - 52)) := by
  unfold roundD
  rw [if_neg (ne_of_gt hq), abs_of_pos hq]
  simp only [hq, if_true]

theorem roundD_zero : roundD 0 = Dbl.fin 0 := by
  simp [roundD]

/-- Rounding commutes with the change of sign. -/
theorem roundD_neg_fin (q r : ℚ) (h : roundD q = Dbl.fin r) : roundD (-q) = Dbl.fin (-r) := by
  unfold roundD at h ⊢
  by_cases h0 : q = 0
  · subst h0
    simp only [if_true] at h
    simp only [neg_zero, if_true]
    injection h with h
    rw [← h, neg_zero]
  · have h0' : -q ≠ 0 := neg_ne_zero.mpr h0
    rw [if_neg h0] at h
    rw [if_neg h0', abs_neg]
    by_cases hov : (2 : ℚ) ^ (1024 : ℤ) ≤
        roundNE (|q| / 2 ^ (max (Int.log 2 |q|) (-1022) - 52))
          * 2 ^ (max (Int.log 2 |q|) (-1022) - 52)
    · simp only [hov, if_true] at h
      split_ifs at h
    · simp only [hov, if_false] at h ⊢
      injection h with h
      rw [← h]
      rcases lt_or_gt_of_ne h0 with hneg | hpos
      · have a : ¬ 0 < q := not_lt.mpr (le_of_lt hneg)
        have b : 0 < -q := neg_pos.mpr hneg
        simp only [a, b, if_true, if_false, neg_neg]
      · have a : 0 < q := hpos
        have b : ¬ 0 < -q := by
          rw [not_lt]; linarith
        simp only [a, b, if_true, if_false]

/-- A number with at most 53 significant bits, not below the spacing of the subnormal
numbers and below `2 ^ 1024`, is a `double`: rounding leaves it as it is. -/
theorem roundD_of_repr (m : ℕ) (k : ℤ) (hm0 : 0 < m) (hm : m < 2 ^ 53) (hk : -1074 ≤ k)
    (hfin : (m : ℚ) * 2 ^ k < 2 ^ (1024 : ℤ)) :
    roundD ((m : ℚ) * 2 ^ k) = Dbl.fin ((m : ℚ) * 2 ^ k) := by
  have h2k : (0 : ℚ) < 2 ^ k := by positivity
  have hmq : (0 : ℚ) < m := by exact_mod_cast hm0
  have hq : (0 : ℚ) < (m : ℚ) * 2 ^ k := by positivity
  have hL1 : 2 ^ Nat.log 2 m ≤ m := Nat.pow_log_le_self 2 (by omega)
  have hL2 : m < 2 ^ (Nat.log 2 m + 1) := Nat.lt_pow_succ_log_self (by norm_num) m
  have hL52 : Nat.log 2 m < 53 := by
    by_contra hc
    have : 2 ^ 53 ≤ 2 ^ Nat.log 2 m := Nat.pow_le_pow_right (by norm_num) (by omega)
    omega
  have hlog : Int.log 2 ((m : ℚ) * 2 ^ k) = (Nat.log 2 m : ℤ) + k := by
    apply log_eq_of_bounds
    · rw [zpow_add₀ (by norm_num)]
      apply mul_le_mul_of_nonneg_right _ (le_of_lt h2k)
      rw [zpow_natCast]
      exact_mod_cast hL1
    · rw [show (Nat.log 2 m : ℤ) + k + 1 = ((Nat.log 2 m + 1 : ℕ) : ℤ) + k by push_cast; ring,
        zpow_add₀ (by norm_num)]
      apply mul_lt_mul_of_pos_right _ h2k
      rw [zpow_natCast]
      exact_mod_cast hL2
  rw [roundD_of_pos _ hq, hlog]
  set e : ℤ := max ((Nat.log 2 m : ℤ) + k) (-1022) with he
  have hj : 0 ≤ k - e + 52 := by
    rcases le_total ((Nat.log 2 m : ℤ) + k) (-1022) with h | h
    · rw [max_eq_right h] at he; omega
    · rw [max_eq_left h] at he; omega
  obtain ⟨j, hj'⟩ := Int.eq_ofNat_of_zero_le hj
  have hquot : (m : ℚ) * 2 ^ k / 2 ^ (e - 52) = ((m * 2 ^ j : ℕ) : ℤ) := by
    rw [div_eq_iff (by positivity)]
    push_cast
    rw [mul_assoc, ← zpow_natCast (2 : ℚ) j, ← hj', ← zpow_add₀ (by norm_num)]
    congr 2
    ring
  rw [hquot, roundNE_intCast, ← hquot, div_mul_cancel₀ _ (by positivity)]
  rw [if_neg (not_le.mpr hfin)]

/-- An integer of absolute value at most `2 ^ 53` is a `double`. -/
theorem roundD_int (n : ℤ) (h : n.natAbs ≤ 2 ^ 53) : roundD (n : ℚ) = Dbl.fin (n : ℚ) := by
  have key : ∀ m : ℕ, m ≤ 2 ^ 53 → roundD (m : ℚ) = Dbl.fin (m : ℚ) := by
    intro m hm
    rcases Nat.eq_zero_or_pos m with h0 | h0
    · subst h0; simp [roundD]
    · rcases Nat.lt_or_ge m (2 ^ 53) with h1 | h1
      · have := roundD_of_repr m 0 h0 h1 (by norm_num) (by
          rw [zpow_zero, mul_one]
          have : (m : ℚ) < 2 ^ 53 := by exact_mod_cast h1
          refine lt_trans this ?_
          norm_num)
        simpa using this
      · have hm' : m = 2 ^ 53 := le_antisymm hm h1
        have h := roundD_of_repr 1 53 (by norm_num) (by norm_num) (by norm_num) (by norm_num)
        rw [hm', show (((2 ^ 53 : ℕ) : ℕ) : ℚ) = ((1 : ℕ) : ℚ) * 2 ^ (53 : ℤ) by norm_num]
        exact h
  obtain ⟨m, rfl | rfl⟩ := Int.eq_nat_or_neg n
  · have := key m (by simpa using h)
    exact_mod_cast this
  · have := key m (by simpa using h)
    push_cast
    exact roundD_neg_fin _ _ this

/-- The rounded magnitude of a positive number that is not below the smallest positive
`double`: at least the power of two below the number, at most twice the number. -/
theorem round_bounds (q : ℚ) (h1 : (2 : ℚ) ^ (-1074 : ℤ) ≤ q) :
    (2 : ℚ) ^ Int.log 2 q ≤
        roundNE (q / 2 ^ (max (Int.log 2 q) (-1022) - 52)) * 2 ^ (max (Int.log 2 q) (-1022) - 52) ∧
      (roundNE (q / 2 ^ (max (Int.log 2 q) (-1022) - 52)) : ℚ)
        * 2 ^ (max (Int.log 2 q) (-1022) - 52) ≤ 2 * q := by
  have hq : 0 < q := lt_of_lt_of_le (by positivity) h1
  have hL1 : (2 : ℚ) ^ Int.log 2 q ≤ q := by
    have := Int.zpow_log_le_self (b := 2) (by norm_num) hq
    exact_mod_cast this
  have hL0 : -1074 ≤ Int.log 2 q := by
    rw [← Int.zpow_le_iff_le_log (by norm_num) hq]
    exact_mod_cast h1
  set L : ℤ := Int.log 2 q with hL
  set e : ℤ := max L (-1022) with he
  have hulp : (0 : ℚ) < 2 ^ (e - 52) := by positivity
  have hj : 0 ≤ L - e + 52 := by
    rcases le_total L (-1022) with h | h
    · rw [max_eq_right h] at he; omega
    · rw [max_eq_left h] at he; omega
  obtain ⟨j, hj'⟩ := Int.eq_ofNat_of_zero_le hj
  have hN : (((2 ^ j : ℕ) : ℤ) : ℚ) * 2 ^ (e - 52) = 2 ^ L := by
    push_cast
    rw [← zpow_natCast (2 : ℚ) j, ← hj', ← zpow_add₀ (by norm_num)]
    congr 1
    ring
  have ht : (((2 ^ j : ℕ) : ℤ) : ℚ) ≤ q / 2 ^ (e - 52) := by
    rw [le_div_iff₀ hulp, hN]
    exact hL1
  have hfl : ((2 ^ j : ℕ) : ℤ) ≤ ⌊q / 2 ^ (e - 52)⌋ := Int.le_floor.mpr ht
  have hlo : ((2 ^ j : ℕ) : ℤ) ≤ roundNE (q / 2 ^ (e - 52)) :=
    le_trans hfl (floor_le_roundNE _)
  have hone : (1 : ℚ) ≤ q / 2 ^ (e - 52) := by
    refine le_trans ?_ ht
    have : 1 ≤ 2 ^ j := Nat.one_le_two_pow
    exact_mod_cast this
  have hup : (roundNE (q / 2 ^ (e - 52)) : ℚ) ≤ 2 * (q / 2 ^ (e - 52)) := by
    have a : (roundNE (q / 2 ^ (e - 52)) : ℚ) ≤ (⌊q / 2 ^ (e - 52)⌋ : ℚ) + 1 := by
      exact_mod_cast roundNE_le_floor_succ _
    have b : (⌊q / 2 ^ (e - 52)⌋ : ℚ) ≤ q / 2 ^ (e - 52) := Int.floor_le _
    linarith
  constructor
  · rw [← hN]
    apply mul_le_mul_of_nonneg_right _ (le_of_lt hulp)
    exact_mod_cast hlo
  · calc (roundNE (q / 2 ^ (e - 52)) : ℚ) * 2 ^ (e - 52)
        ≤ 2 * (q / 2 ^ (e - 52)) * 2 ^ (e - 52) :=
          mul_le_mul_of_nonneg_right hup (le_of_lt hulp)
      _ = 2 * q := by
          rw [mul_assoc, div_mul_cancel₀ _ (ne_of_gt hulp)]

/-- A positive number in the range of the `double`s rounds to a positive `double`, at least
the power of two below the number and at most twice the number. -/
theorem roundD_pos (q : ℚ) (h1 : (2 : ℚ) ^ (-1074 : ℤ) ≤ q) (h2 : q ≤ 2 ^ (1000 : ℤ)) :
    ∃ r, roundD q = Dbl.fin r ∧ (2 : ℚ) ^ Int.log 2 q ≤ r ∧ r ≤ 2 * q := by
  have hq : 0 < q := lt_of_lt_of_le (by positivity) h1
  obtain ⟨a, b⟩ := round_bounds q h1
  refine ⟨_, ?_, a, b⟩
  rw [roundD_of_pos q hq, if_neg]
  rw [not_le]
  calc _ ≤ 2 * q := b
    _ ≤ 2 * 2 ^ (1000 : ℤ) := by linarith
    _ < 2 ^ (1024 : ℤ) := by norm_num

/-- A number that is not below the smallest positive `double` does not round to zero,
whether the result is finite or not. -/
theorem roundD_gt_of_pos (q : ℚ) (h1 : (2 : ℚ) ^ (-1074 : ℤ) ≤ q) :
    (roundD q).gt 0 = true ∧ (roundD q).lt 0 = false := by
  have hq : 0 < q := lt_of_lt_of_le (by positivity) h1
  obtain ⟨a, _⟩ := round_bounds q h1
  have hpos : (0 : ℚ) < 2 ^ Int.log 2 q := by positivity
  rw [roundD_of_pos q hq]
  split_ifs
  · exact ⟨rfl, rfl⟩
  · simp only [Dbl.gt, Dbl.lt, decide_eq_true_eq, decide_eq_false_iff_not, not_lt]
    exact ⟨lt_of_lt_of_le hpos a, le_trans (le_of_lt hpos) a⟩

/-- A number that is not above minus the smallest positive `double` rounds to a negative
`double` or to minus infinity. -/
theorem roundD_lt_of_neg (q : ℚ) (h1 : q ≤ -(2 : ℚ) ^ (-1074 : ℤ)) :
    (roundD q).gt 0 = false ∧ (roundD q).lt 0 = true := by
  have hp : (0 : ℚ) < 2 ^ (-1074 : ℤ) := by positivity
  have hq : q < 0 := by linarith
  have h1' : (2 : ℚ) ^ (-1074 : ℤ) ≤ -q := by linarith
  obtain ⟨a, _⟩ := round_bounds (-q) h1'
  have hpos : (0 : ℚ) < 2 ^ Int.log 2 (-q) := by positivity
  unfold roundD
  rw [if_neg (ne_of_lt hq), abs_of_neg hq]
  have hn : ¬ 0 < q := not_lt.mpr (le_of_lt hq)
  simp only [hn, if_false]
  split_ifs
  · exact ⟨rfl, rfl⟩
  · simp only [Dbl.gt, Dbl.lt, decide_eq_true_eq, decide_eq_false_iff_not, not_lt]
    constructor <;> linarith

/-- Rounding keeps the sign of every number that is zero or not below the smallest positive
`double` in magnitude. -/
theorem roundD_sign (q : ℚ) (h : q = 0 ∨ (2 : ℚ) ^ (-1074 : ℤ) ≤ |q|) :
    (roundD q).gt 0 = decide (0 < q) ∧ (roundD q).lt 0 = decide (q < 0) := by
  rcases h with h | h
  · subst h
    simp [roundD_zero, Dbl.gt, Dbl.lt]
  · rcases le_or_lt 0 q with h0 | h0
    · rw [abs_of_nonneg h0] at h
      have hq : 0 < q := lt_of_lt_of_le (by positivity) h
      obtain ⟨a, b⟩ := roundD_gt_of_pos q h
      rw [a, b]
      simp [hq, not_lt.mpr (le_of_lt hq)]
    · rw [abs_of_neg h0] at h
      obtain ⟨a, b⟩ := roundD_lt_of_neg q (by linarith)
      rw [a, b]
      simp [h0, not_lt.mpr (le_of_lt h0)]

/-- A positive number below half the smallest positive `double` rounds to zero. -/
theorem roundD_tiny_pos (q : ℚ) (h0 : 0 < q) (h : q < (2 : ℚ) ^ (-1075 : ℤ)) :
    roundD q = Dbl.fin 0 := by
  have hlog : Int.log 2 q < -1075 := by
    rw [← Int.lt_zpow_iff_log_lt (by norm_num) h0]
    exact_mod_cast h
  have he : max (Int.log 2 q) (-1022) = -1022 := max_eq_right (by omega)
  rw [roundD_of_pos q h0, he]
  have ht : q / 2 ^ ((-1022 : ℤ) - 52) < 1 / 2 := by
    rw [div_lt_iff₀ (by positivity)]
    calc q < (2 : ℚ) ^ (-1075 : ℤ) := h
      _ = 1 / 2 * 2 ^ ((-1022 : ℤ) - 52) := by
        rw [show ((-1022 : ℤ) - 52) = -1075 + 1 by norm_num, zpow_add₀ (by norm_num)]
        norm_num
  have ht0 : 0 ≤ q / 2 ^ ((-1022 : ℤ) - 52) := by positivity
  have hfl : ⌊q / 2 ^ ((-1022 : ℤ) - 52)⌋ = 0 := by
    rw [Int.floor_eq_iff]
    constructor
    · rw [Int.cast_zero]; exact ht0
    · rw [Int.cast_zero, zero_add]; linarith
  have hr : roundNE (q / 2 ^ ((-1022 : ℤ) - 52)) = 0 := by
    unfold roundNE
    rw [hfl]
    simp only [Int.cast_zero, sub_zero]
    rw [if_pos ht]
  rw [hr]
  simp only [Int.cast_zero, zero_mul]
  rw [if_neg]
  rw [not_le]
  positivity

/-- A number below half the smallest positive `double` in magnitude rounds to zero. -/
theorem roundD_tiny (q : ℚ) (h : |q| < (2 : ℚ) ^ (-1075 : ℤ)) : roundD q = Dbl.fin 0 := by
  rcases lt_trichotomy q 0 with h0 | h0 | h0
  · rw [abs_of_neg h0] at h
    have := roundD_neg_fin _ _ (roundD_tiny_pos (-q) (by linarith) h)
    simpa using this
  · rw [h0, roundD_zero]
  · rw [abs_of_pos h0] at h
    exact roundD_tiny_pos q h0 h

/-- The rounding of a positive number from its binary exponent `e ≥ -1022` and the integer
nearest to its quotient by the spacing `2 ^ (e - 52)`. -/
theorem roundD_cert (q r : ℚ) (e f n : ℤ) (he : -1022 ≤ e) (h1 : (2 : ℚ) ^ e ≤ q)
    (h2 : q < 2 ^ (e + 1)) (hf1 : (f : ℚ) ≤ q / 2 ^ (e - 52)) (hf2 : q / 2 ^ (e - 52) < f + 1)
    (hn : n = if q / 2 ^ (e - 52) - f < 1 / 2 then f
      else if 1 / 2 < q / 2 ^ (e - 52) - f then f + 1
      else if f % 2 = 0 then f else f + 1)
    (hr : r = n * 2 ^ (e - 52)) (hfin : r < 2 ^ (1024 : ℤ)) :
    roundD q = Dbl.fin r := by
  have hq : 0 < q := lt_of_lt_of_le (by positivity) h1
  have hlog := log_eq_of_bounds q e h1 h2
  have hfl : ⌊q / 2 ^ (e - 52)⌋ = f := by
    rw [Int.floor_eq_iff]
    exact ⟨hf1, hf2⟩
  have hrn : roundNE (q / 2 ^ (e - 52)) = n := by
    unfold roundNE
    rw [hfl, hn]
  rw [roundD_of_pos q hq, hlog, max_eq_left he, hrn, ← hr, if_neg (not_le.mpr hfin)]

theorem IsIntUpTo.exists {b : ℕ} {q : ℚ} (h : IsIntUpTo b q) :
    ∃ n : ℤ, q = n ∧ n.natAbs ≤ b :=
  ⟨q.num, (Rat.coe_int_num_of_den_eq_one h.1).symm, h.2⟩

theorem isIntUpTo_intCast (b : ℕ) (n : ℤ) (h : n.natAbs ≤ b) : IsIntUpTo b (n : ℚ) := by
  unfold IsIntUpTo
  simpa using h

/-- A number at least 1 in the range of the `double`s rounds to a `double` at least 1. -/
theorem roundD_ge_one (q : ℚ) (h1 : 1 ≤ q) (h2 : q ≤ 2 ^ (1000 : ℤ)) :
    ∃ r, roundD q = Dbl.fin r ∧ 1 ≤ r ∧ r ≤ 2 * q := by
  have hq : 0 < q := by linarith
  obtain ⟨r, hr, a, b⟩ := roundD_pos q (le_trans (by norm_num) h1) h2
  refine ⟨r, hr, le_trans ?_ a, b⟩
  have hlog : 0 ≤ Int.log 2 q := by
    rw [← Int.zpow_le_iff_le_log (by norm_num) hq]
    simpa using h1
  exact one_le_zpow₀ (by norm_num) hlog

/-- A natural number up to `2 ^ 66` rounds to a `double` that is zero when the number is
zero and at least 1 otherwise. -/
theorem roundD_nat (m : ℕ) (h : m ≤ 2 ^ 66) :
    ∃ r, roundD (m : ℚ) = Dbl.fin r ∧ (m = 0 → r = 0) ∧ (0 < m → 1 ≤ r) ∧ 0 ≤ r ∧
      r ≤ 2 ^ 67 := by
  rcases Nat.eq_zero_or_pos m with h0 | h0
  · subst h0
    exact ⟨0, by simp [roundD_zero], fun _ => rfl, fun h => absurd h (lt_irrefl _), le_refl _,
      by norm_num⟩
  · have h1 : (1 : ℚ) ≤ m := by exact_mod_cast h0
    have h2 : (m : ℚ) ≤ 2 ^ 66 := by exact_mod_cast h
    obtain ⟨r, hr, a, b⟩ := roundD_ge_one m h1 (le_trans h2 (by norm_num))
    refine ⟨r, hr, fun h => by omega, fun _ => a, by linarith, ?_⟩
    calc r ≤ 2 * (m : ℚ) := b
      _ ≤ 2 * 2 ^ 66 := by linarith
      _ = 2 ^ 67 := by norm_num

/-- The numerator of `x` for two products that are small enough to be exact. -/
theorem numD_exact (P1 P2 : ℤ) (h1 : P1.natAbs ≤ 2 ^ 52) (h2 : P2.natAbs ≤ 2 ^ 52) :
    ∃ r3 : ℚ, Dbl.sub (roundD (P1 : ℚ)) (roundD (P2 : ℚ)) = Dbl.fin r3 ∧
      (r3 = 0 ∨ 1 ≤ |r3|) ∧ |r3| ≤ 2 ^ 70 ∧ (0 < r3 ↔ P2 < P1) ∧ (r3 < 0 ↔ P1 < P2) := by
  refine ⟨((P1 - P2 : ℤ) : ℚ), ?_, ?_, ?_, ?_, ?_⟩
  · rw [roundD_int P1 (by omega), roundD_int P2 (by omega)]
    show roundD ((P1 : ℚ) - (P2 : ℚ)) = _
    rw [← Int.cast_sub]
    exact roundD_int _ (by omega)
  · rcases eq_or_ne (P1 - P2) 0 with h | h
    · left; exact_mod_cast h
    · right
      have : 1 ≤ |P1 - P2| := Int.one_le_abs h
      exact_mod_cast this
  · have : |P1 - P2| ≤ 2 ^ 70 := by
      rw [abs_le]; constructor <;> omega
    exact_mod_cast this
  · rw [Int.cast_pos]; omega
  · rw [Int.cast_lt_zero]; omega

/-- The numerator of `x` for two products of weakly opposite signs: nothing cancels, and the
rounded difference of the rounded products has the sign of the exact difference. -/
theorem numD_nocancel_pos (m1 m2 : ℕ) (h1 : m1 ≤ 2 ^ 66) (h2 : m2 ≤ 2 ^ 66) :
    ∃ r3 : ℚ, Dbl.sub (roundD (m1 : ℚ)) (roundD (-(m2 : ℚ))) = Dbl.fin r3 ∧
      (r3 = 0 ∨ 1 ≤ r3) ∧ 0 ≤ r3 ∧ r3 ≤ 2 ^ 70 ∧ (r3 = 0 ↔ m1 = 0 ∧ m2 = 0) := by
  obtain ⟨r1, e1, z1, p1, n1, u1⟩ := roundD_nat m1 h1
  obtain ⟨r2, e2, z2, p2, n2, u2⟩ := roundD_nat m2 h2
  rw [e1, roundD_neg_fin _ _ e2]
  show ∃ r3 : ℚ, roundD (r1 - -r2) = Dbl.fin r3 ∧ _
  rw [sub_neg_eq_add]
  by_cases hz : m1 = 0 ∧ m2 = 0
  · rw [z1 hz.1, z2 hz.2, add_zero, roundD_zero]
    exact ⟨0, rfl, Or.inl rfl, le_refl _, by norm_num, by simp [hz]⟩
  · have hge : 1 ≤ r1 + r2 := by
      rcases Nat.eq_zero_or_pos m1 with h | h
      · have : 0 < m2 := by
          rcases Nat.eq_zero_or_pos m2 with h' | h'
          · exact absurd ⟨h, h'⟩ hz
          · exact h'
        have := p2 this
        linarith
      · have := p1 h
        linarith
    obtain ⟨r3, e3, a3, b3⟩ := roundD_ge_one (r1 + r2) hge (by
      calc r1 + r2 ≤ 2 ^ 67 + 2 ^ 67 := by linarith
        _ ≤ 2 ^ (1000 : ℤ) := by norm_num)
    refine ⟨r3, e3, Or.inr a3, by linarith, ?_, ?_⟩
    · calc r3 ≤ 2 * (r1 + r2) := b3
        _ ≤ 2 * (2 ^ 67 + 2 ^ 67) := by linarith
        _ ≤ 2 ^ 70 := by norm_num
    · constructor
      · intro h; linarith
      · intro h; exact absurd h hz

/-- Changing the sign of both operands changes the sign of a finite rounded difference. -/
theorem sub_roundD_neg (a b r : ℚ) (h : Dbl.sub (roundD a) (roundD b) = Dbl.fin r) :
    Dbl.sub (roundD (-a)) (roundD (-b)) = Dbl.fin (-r) := by
  rcases ha : roundD a with r1 | _ | _ | _ <;> rcases hb : roundD b with r2 | _ | _ | _ <;>
    rw [ha, hb] at h <;> try exact Dbl.noConfusion h
  rw [roundD_neg_fin _ _ ha, roundD_neg_fin _ _ hb]
  have h' : roundD (r1 - r2) = Dbl.fin r := h
  show roundD (-r1 - -r2) = Dbl.fin (-r)
  rw [show -r1 - -r2 = -(r1 - r2) by ring]
  exact roundD_neg_fin _ _ h'

theorem numD_nocancel (P1 P2 : ℤ) (h1 : P1.natAbs ≤ 2 ^ 66) (h2 : P2.natAbs ≤ 2 ^ 66)
    (hop : (0 ≤ P1 ∧ P2 ≤ 0) ∨ (P1 ≤ 0 ∧ 0 ≤ P2)) :
    ∃ r3 : ℚ, Dbl.sub (roundD (P1 : ℚ)) (roundD (P2 : ℚ)) = Dbl.fin r3 ∧
      (r3 = 0 ∨ 1 ≤ |r3|) ∧ |r3| ≤ 2 ^ 70 ∧ (0 < r3 ↔ P2 < P1) ∧ (r3 < 0 ↔ P1 < P2) := by
  rcases hop with ⟨a, b⟩ | ⟨a, b⟩
  · obtain ⟨m1, rfl⟩ := Int.eq_ofNat_of_zero_le a
    obtain ⟨m2, hm2⟩ := Int.eq_ofNat_of_zero_le (show 0 ≤ -P2 by omega)
    have hP2 : P2 = -(m2 : ℤ) := by omega
    subst hP2
    obtain ⟨r3, e3, c3, n3, u3, z3⟩ := numD_nocancel_pos m1 m2 (by omega) (by omega)
    refine ⟨r3, ?_, ?_, ?_, ?_, ?_⟩
    · push_cast; exact e3
    · rcases c3 with c | c
      · exact Or.inl c
      · right; rw [abs_of_nonneg n3]; exact c
    · rw [abs_of_nonneg n3]; exact u3
    · constructor
      · intro h
        have : ¬ (m1 = 0 ∧ m2 = 0) := fun hh => (ne_of_gt h) (z3.mpr hh)
        omega
      · intro h
        have : ¬ (m1 = 0 ∧ m2 = 0) := by omega
        have : r3 ≠ 0 := fun hh => this (z3.mp hh)
        exact lt_of_le_of_ne n3 (Ne.symm this)
    · constructor
      · intro h; linarith
      · intro h; omega
  · obtain ⟨m2, rfl⟩ := Int.eq_ofNat_of_zero_le b
    obtain ⟨m1, hm1⟩ := Int.eq_ofNat_of_zero_le (show 0 ≤ -P1 by omega)
    have hP1 : P1 = -(m1 : ℤ) := by omega
    subst hP1
    obtain ⟨r3, e3, c3, n3, u3, z3⟩ := numD_nocancel_pos m1 m2 (by omega) (by omega)
    have e3' := sub_roundD_neg _ _ _ e3
    rw [neg_neg] at e3'
    refine ⟨-r3, ?_, ?_, ?_, ?_, ?_⟩
    · push_cast; exact e3'
    · rcases c3 with c | c
      · left; rw [c, neg_zero]
      · right; rw [abs_neg, abs_of_nonneg n3]; exact c
    · rw [abs_neg, abs_of_nonneg n3]; exact u3
    · constructor
      · intro h; linarith
      · intro h; omega
    · constructor
      · intro h
        have : ¬ (m1 = 0 ∧ m2 = 0) := fun hh => by
          have := z3.mpr hh
          linarith
        omega
      · intro h
        have : ¬ (m1 = 0 ∧ m2 = 0) := by omega
        have : r3 ≠ 0 := fun hh => this (z3.mp hh)
        have := lt_of_le_of_ne n3 (Ne.symm this)
        linarith

/-- The sign of the rounded quotient of a numerator that is zero or at least 1 in magnitude
by a non-zero integer divisor of at most 34 bits. -/
theorem divD_sign (r3 : ℚ) (d : ℤ) (hr : r3 = 0 ∨ 1 ≤ |r3|) (hd0 : d ≠ 0)
    (hd : d.natAbs ≤ 2 ^ 34) :
    (Dbl.div (Dbl.fin r3) (roundD (d : ℚ))).gt 0 = decide (0 < r3 / d) ∧
    (Dbl.div (Dbl.fin r3) (roundD (d : ℚ))).lt 0 = decide (r3 / d < 0) := by
  rw [roundD_int d (by omega)]
  have hdq : (d : ℚ) ≠ 0 := by exact_mod_cast hd0
  show (if (d : ℚ) = 0 then Dbl.nan else roundD (r3 / d)).gt 0 = _ ∧
    (if (d : ℚ) = 0 then Dbl.nan else roundD (r3 / d)).lt 0 = _
  rw [if_neg hdq]
  apply roundD_sign
  rcases hr with hr | hr
  · left; rw [hr, zero_div]
  · right
    rw [abs_div]
    have hd1 : |(d : ℚ)| ≤ 2 ^ 34 := by
      have : |d| ≤ 2 ^ 34 := by rw [abs_le]; constructor <;> omega
      exact_mod_cast this
    have hdpos : 0 < |(d : ℚ)| := abs_pos.mpr hdq
    rw [le_div_iff₀ hdpos]
    calc (2 : ℚ) ^ (-1074 : ℤ) * |(d : ℚ)| ≤ 2 ^ (-1074 : ℤ) * 2 ^ 34 :=
          mul_le_mul_of_nonneg_left hd1 (by positivity)
      _ ≤ 1 := by norm_num
      _ ≤ |r3| := hr

/-! ### The crossing tests in `double` on integer coordinates -/

theorem crossXD_ofPoint (cx cy px py : ℤ) :
    crossXD (PointD.ofPoint ⟨cx, cy⟩) (PointD.ofPoint ⟨px, py⟩) =
      Dbl.div (Dbl.sub (roundD ((cx * py : ℤ) : ℚ)) (roundD ((px * cy : ℤ) : ℚ)))
        (roundD ((py - cy : ℤ) : ℚ)) := by
  push_cast
  rfl

/-- The sign of `x` computed in `double` is the sign of the exact `x`, for integer `curr`
and `prev` of different ordinates whose numerator is computed without a loss of sign. -/
theorem crossXD_sign (cx cy px py : ℤ) (hne : cy ≠ py)
    (hcy : cy.natAbs ≤ 2 ^ 33) (hpy : py.natAbs ≤ 2 ^ 33)
    (hnum : ∃ r3 : ℚ, Dbl.sub (roundD ((cx * py : ℤ) : ℚ)) (roundD ((px * cy : ℤ) : ℚ))
        = Dbl.fin r3 ∧
      (r3 = 0 ∨ 1 ≤ |r3|) ∧ |r3| ≤ 2 ^ 70 ∧ (0 < r3 ↔ px * cy < cx * py) ∧
        (r3 < 0 ↔ cx * py < px * cy)) :
    (crossXD (PointD.ofPoint ⟨cx, cy⟩) (PointD.ofPoint ⟨px, py⟩)).gt 0
        = decide (crossX ⟨cx, cy⟩ ⟨px, py⟩ > 0) ∧
    (crossXD (PointD.ofPoint ⟨cx, cy⟩) (PointD.ofPoint ⟨px, py⟩)).lt 0
        = decide (crossX ⟨cx, cy⟩ ⟨px, py⟩ < 0) := by
  obtain ⟨r3, e3, c3, -, s1, s2⟩ := hnum
  have hd0 : py - cy ≠ 0 := by omega
  obtain ⟨g, l⟩ := divD_sign r3 (py - cy) c3 hd0 (by omega)
  rw [crossXD_ofPoint, e3, g, l]
  have hX : crossX ⟨cx, cy⟩ ⟨px, py⟩ = (((cx * py - px * cy : ℤ) : ℚ)) / ((py - cy : ℤ) : ℚ) := by
    simp only [crossX]
    push_cast
    rfl
  rw [hX]
  have hdq : ((py - cy : ℤ) : ℚ) ≠ 0 := by exact_mod_cast hd0
  have n1 : (0 : ℚ) < ((cx * py - px * cy : ℤ) : ℚ) ↔ 0 < r3 := by
    rw [s1, Int.cast_pos]; omega
  have n2 : ((cx * py - px * cy : ℤ) : ℚ) < 0 ↔ r3 < 0 := by
    rw [s2, Int.cast_lt_zero]; omega
  constructor
  · rw [decide_eq_decide, gt_iff_lt, div_pos_iff, div_pos_iff, n1, n2]
  · rw [decide_eq_decide, div_neg_iff, div_neg_iff, n1, n2]

theorem natAbs_mul_le (a b : ℤ) (m n : ℕ) (ha : a.natAbs ≤ m) (hb : b.natAbs ≤ n) :
    (a * b).natAbs ≤ m * n := by
  rw [Int.natAbs_mul]
  exact Nat.mul_le_mul ha hb

/-- The two crossing tests of an edge give the same answers in `double` as in exact
arithmetic, for integer `curr` and `prev` of up to 33 bits, when the four numbers have at
most 26 bits, or the edge lies on one side of the x-axis, or it lies on one side of the
y-axis. -/
theorem hitD_int (cx cy px py : ℤ)
    (hcx : cx.natAbs ≤ 2 ^ 33) (hcy : cy.natAbs ≤ 2 ^ 33)
    (hpx : px.natAbs ≤ 2 ^ 33) (hpy : py.natAbs ≤ 2 ^ 33)
    (hcase : (cx.natAbs ≤ 2 ^ 26 ∧ cy.natAbs ≤ 2 ^ 26 ∧ px.natAbs ≤ 2 ^ 26 ∧ py.natAbs ≤ 2 ^ 26)
      ∨ cy = py ∨ 0 < cy * py ∨ 0 ≤ cx * px) :
    rHitD (PointD.ofPoint ⟨cx, cy⟩) (PointD.ofPoint ⟨px, py⟩) = rHit ⟨cx, cy⟩ ⟨px, py⟩ ∧
    lHitD (PointD.ofPoint ⟨cx, cy⟩) (PointD.ofPoint ⟨px, py⟩) = lHit ⟨cx, cy⟩ ⟨px, py⟩ := by
  have hg : ∀ q : ℚ, (Dbl.fin q).gt 0 = decide (q > 0) := fun _ => rfl
  have hl : ∀ q : ℚ, (Dbl.fin q).lt 0 = decide (q < 0) := fun _ => rfl
  by_cases hs : cy = py ∨ 0 < cy * py
  · have e1 : decide ((cy : ℚ) > 0) = decide ((py : ℚ) > 0) := by
      rw [decide_eq_decide, gt_iff_lt, gt_iff_lt, Int.cast_pos, Int.cast_pos]
      rcases hs with h | h
      · rw [h]
      · constructor
        · intro hc; exact (pos_iff_pos_of_mul_pos h).mp hc
        · intro hp; exact (pos_iff_pos_of_mul_pos h).mpr hp
    have e2 : decide ((cy : ℚ) < 0) = decide ((py : ℚ) < 0) := by
      rw [decide_eq_decide, Int.cast_lt_zero, Int.cast_lt_zero]
      rcases hs with h | h
      · rw [h]
      · constructor
        · intro hc; exact (neg_iff_neg_of_mul_pos h).mp hc
        · intro hp; exact (neg_iff_neg_of_mul_pos h).mpr hp
    simp only [rHitD, lHitD, rHit, lHit, PointD.ofPoint, hg, hl, e1, e2, bne_self_eq_false,
      Bool.false_and, and_self]
  · rw [not_or, not_lt] at hs
    obtain ⟨hne, hyy⟩ := hs
    have hnum : ∃ r3 : ℚ, Dbl.sub (roundD ((cx * py : ℤ) : ℚ)) (roundD ((px * cy : ℤ) : ℚ))
          = Dbl.fin r3 ∧
        (r3 = 0 ∨ 1 ≤ |r3|) ∧ |r3| ≤ 2 ^ 70 ∧ (0 < r3 ↔ px * cy < cx * py) ∧
          (r3 < 0 ↔ cx * py < px * cy) := by
      rcases hcase with ⟨a, b, c, d⟩ | h | h | h
      · exact numD_exact _ _ (natAbs_mul_le cx py (2 ^ 26) (2 ^ 26) a d)
          (natAbs_mul_le px cy (2 ^ 26) (2 ^ 26) c b)
      · exact absurd h hne
      · exact absurd h (not_lt.mpr hyy)
      · apply numD_nocancel _ _ (natAbs_mul_le cx py (2 ^ 33) (2 ^ 33) hcx hpy)
          (natAbs_mul_le px cy (2 ^ 33) (2 ^ 33) hpx hcy)
        apply mul_nonpos_iff.mp
        have : cx * py * (px * cy) = (cx * px) * (cy * py) := by ring
        rw [this]
        exact mul_nonpos_iff.mpr (Or.inl ⟨h, hyy⟩)
    obtain ⟨g, l⟩ := crossXD_sign cx cy px py hne hcy hpy hnum
    simp only [rHitD, lHitD, rHit, lHit, g, l]
    simp only [PointD.ofPoint, hg, hl, and_self]

theorem IsIntUpTo.mono {a b : ℕ} {q : ℚ} (h : IsIntUpTo a q) (hab : a ≤ b) : IsIntUpTo b q :=
  ⟨h.1, le_trans h.2 hab⟩

/-- The conversion to `double` and the subtraction are exact on integers of up to 32 bits. -/
theorem subD_int (a b : ℚ) (m : ℕ) (hm : m ≤ 2 ^ 32) (ha : IsIntUpTo m a) (hb : IsIntUpTo m b) :
    ∃ c : ℤ, a - b = c ∧ c.natAbs ≤ 2 * m ∧ Dbl.sub (roundD a) (roundD b) = Dbl.fin (c : ℚ) := by
  obtain ⟨x, rfl, hx⟩ := ha.exists
  obtain ⟨y, rfl, hy⟩ := hb.exists
  refine ⟨x - y, by push_cast; rfl, by omega, ?_⟩
  rw [roundD_int x (by omega), roundD_int y (by omega)]
  show roundD ((x : ℚ) - (y : ℚ)) = _
  rw [← Int.cast_sub]
  exact roundD_int _ (by omega)

/-- The two crossing tests of the edge from the vertex `w` to the vertex `v`, seen from `pt`,
give the same answers in `double` as in exact arithmetic when the coordinates are integers
of up to 32 bits and either they have at most 25 bits, or the edge is horizontal, or it lies
strictly on one side of the horizontal through `pt`, or it lies on one side of the vertical
through `pt`. -/
theorem edge_agree (v w pt : Point) (hv : v.IntUpTo (2 ^ 32)) (hw : w.IntUpTo (2 ^ 32))
    (hp : pt.IntUpTo (2 ^ 32))
    (hcase : (v.IntUpTo (2 ^ 25) ∧ w.IntUpTo (2 ^ 25) ∧ pt.IntUpTo (2 ^ 25)) ∨ v.y = w.y ∨
      0 < (v.y - pt.y) * (w.y - pt.y) ∨ 0 ≤ (v.x - pt.x) * (w.x - pt.x)) :
    rHitD (relD v pt) (relD w pt)
        = rHit ⟨v.x - pt.x, v.y - pt.y⟩ ⟨w.x - pt.x, w.y - pt.y⟩ ∧
    lHitD (relD v pt) (relD w pt)
        = lHit ⟨v.x - pt.x, v.y - pt.y⟩ ⟨w.x - pt.x, w.y - pt.y⟩ := by
  obtain ⟨cx, ecx, bcx, dcx⟩ := subD_int v.x pt.x _ (le_refl _) hv.1 hp.1
  obtain ⟨cy, ecy, bcy, dcy⟩ := subD_int v.y pt.y _ (le_refl _) hv.2 hp.2
  obtain ⟨px, epx, bpx, dpx⟩ := subD_int w.x pt.x _ (le_refl _) hw.1 hp.1
  obtain ⟨py, epy, bpy, dpy⟩ := subD_int w.y pt.y _ (le_refl _) hw.2 hp.2
  have e1 : relD v pt = PointD.ofPoint ⟨cx, cy⟩ := by
    simp only [relD, PointD.ofPoint, dcx, dcy]
  have e2 : relD w pt = PointD.ofPoint ⟨px, py⟩ := by
    simp only [relD, PointD.ofPoint, dpx, dpy]
  rw [e1, e2, ecx, ecy, epx, epy]
  apply hitD_int cx cy px py (by omega) (by omega) (by omega) (by omega)
  rcases hcase with ⟨a, b, c⟩ | h | h | h
  · left
    obtain ⟨cx', ecx', bcx', -⟩ := subD_int v.x pt.x (2 ^ 25) (by norm_num) a.1 c.1
    obtain ⟨cy', ecy', bcy', -⟩ := subD_int v.y pt.y (2 ^ 25) (by norm_num) a.2 c.2
    obtain ⟨px', epx', bpx', -⟩ := subD_int w.x pt.x (2 ^ 25) (by norm_num) b.1 c.1
    obtain ⟨py', epy', bpy', -⟩ := subD_int w.y pt.y (2 ^ 25) (by norm_num) b.2 c.2
    have h1 : cx = cx' := by exact_mod_cast ecx.symm.trans ecx'
    have h2 : cy = cy' := by exact_mod_cast ecy.symm.trans ecy'
    have h3 : px = px' := by exact_mod_cast epx.symm.trans epx'
    have h4 : py = py' := by exact_mod_cast epy.symm.trans epy'
    subst h1 h2 h3 h4
    exact ⟨by omega, by omega, by omega, by omega⟩
  · right; left
    have : (cy : ℚ) = py := by rw [← ecy, ← epy, h]
    exact_mod_cast this
  · right; right; left
    rw [ecy, epy] at h
    exact_mod_cast h
  · right; right; right
    rw [ecx, epx] at h
    exact_mod_cast h

theorem scanLoopD_succ (r : Region) (pt : Point) (n k i rc lc : Nat) :
    r.scanLoopD pt n (k + 1) i rc lc =
      if (r.m_points.getD i default).equal pt then Scan.vertex
      else r.scanLoopD pt n k (i + 1)
        (rc + if rHitD (relD (r.m_points.getD i default) pt)
          (relD (r.m_points.getD (prevIdx n i) default) pt) then 1 else 0)
        (lc + if lHitD (relD (r.m_points.getD i default) pt)
          (relD (r.m_points.getD (prevIdx n i) default) pt) then 1 else 0) := by
  rw [Region.scanLoopD]
  by_cases h0 : (r.m_points.getD i default).equal pt = true
  · rw [if_pos h0, if_pos h0]
  · rw [if_neg h0, if_neg h0]
    simp only [rHitD, lHitD, prevIdx, Bool.and_eq_true]
    congr 1
    · by_cases h1 : ((relD (r.m_points.getD i default) pt).y.gt 0 !=
          (relD (r.m_points.getD ((i + n - 1) % n) default) pt).y.gt 0) = true
      · simp only [h1, if_true, true_and]
        split_ifs <;> rfl
      · simp only [h1, if_false, false_and, Bool.false_eq_true, Nat.add_zero]
    · by_cases h1 : ((relD (r.m_points.getD i default) pt).y.lt 0 !=
          (relD (r.m_points.getD ((i + n - 1) % n) default) pt).y.lt 0) = true
      · simp only [h1, if_true, true_and]
        split_ifs <;> rfl
      · simp only [h1, if_false, false_and, Bool.false_eq_true, Nat.add_zero]

/-- The loop in `double` and the loop in exact arithmetic end alike when the two crossing
tests agree on every cyclic edge. -/
theorem scanLoopD_eq (r : Region) (pt : Point)
    (h : ∀ i, i < r.m_points.length →
      rHitD (relD (r.m_points.getD i default) pt)
          (relD (r.m_points.getD (prevIdx r.m_points.length i) default) pt)
        = rHit (rel r.m_points pt i) (rel r.m_points pt (prevIdx r.m_points.length i)) ∧
      lHitD (relD (r.m_points.getD i default) pt)
          (relD (r.m_points.getD (prevIdx r.m_points.length i) default) pt)
        = lHit (rel r.m_points pt i) (rel r.m_points pt (prevIdx r.m_points.length i)))
    (k : Nat) : ∀ i rc lc, i + k ≤ r.m_points.length →
      r.scanLoopD pt r.m_points.length k i rc lc = r.scanLoop pt r.m_points.length k i rc lc := by
  induction k with
  | zero => intro i rc lc _; rw [Region.scanLoopD, Region.scanLoop]
  | succ k ih =>
    intro i rc lc hik
    rw [scanLoopD_succ, scanLoop_succ, (h i (by omega)).1, (h i (by omega)).2,
      ih (i + 1) _ _ (by omega)]

theorem scanD_eq_scan (r : Region) (pt : Point)
    (h : ∀ i, i < r.m_points.length →
      rHitD (relD (r.m_points.getD i default) pt)
          (relD (r.m_points.getD (prevIdx r.m_points.length i) default) pt)
        = rHit (rel r.m_points pt i) (rel r.m_points pt (prevIdx r.m_points.length i)) ∧
      lHitD (relD (r.m_points.getD i default) pt)
          (relD (r.m_points.getD (prevIdx r.m_points.length i) default) pt)
        = lHit (rel r.m_points pt i) (rel r.m_points pt (prevIdx r.m_points.length i))) :
    r.scanD pt = r.scan pt :=
  scanLoopD_eq r pt h _ 0 0 0 (by omega)

/-- For integer coordinates of at most 25 bits every `double` operation of the scan is
exact or keeps the sign, and the scan in `double` ends as the scan in exact arithmetic. -/
theorem scanD_eq_scan_of_small (r : Region) (pt : Point)
    (hv : ∀ v ∈ r.m_points, v.IntUpTo (2 ^ 25)) (hp : pt.IntUpTo (2 ^ 25)) :
    r.scanD pt = r.scan pt := by
  have hmono : ∀ v : Point, v.IntUpTo (2 ^ 25) → v.IntUpTo (2 ^ 32) := fun v h =>
    ⟨h.1.mono (by norm_num), h.2.mono (by norm_num)⟩
  apply scanD_eq_scan
  intro i hi
  have h1 := hv _ (getD_mem r.m_points i hi)
  have h2 := hv _ (getD_mem r.m_points _ (prevIdx_lt r.m_points.length i (by omega)))
  exact edge_agree _ _ pt (hmono _ h1) (hmono _ h2) (hmono _ hp) (Or.inl ⟨h1, h2, hp⟩)

theorem ContainsD_eq_of_scan (r : Region) (pt : Point) (h : r.scanD pt = r.scan pt) :
    r.ContainsD pt = r.Contains pt := by
  unfold Region.ContainsD Region.Contains
  rw [h]

theorem scanLoopD_finished (r : Region) (pt : Point) (n k : Nat) :
    ∀ i rc lc, (∀ j, j < k → r.m_points.getD (i + j) default ≠ pt) →
      r.scanLoopD pt n k i rc lc = Scan.finished
        (rc + ∑ j in Finset.range k,
          if rHitD (relD (r.m_points.getD (i + j) default) pt)
            (relD (r.m_points.getD (prevIdx n (i + j)) default) pt) then 1 else 0)
        (lc + ∑ j in Finset.range k,
          if lHitD (relD (r.m_points.getD (i + j) default) pt)
            (relD (r.m_points.getD (prevIdx n (i + j)) default) pt) then 1 else 0) := by
  induction k with
  | zero => intro i rc lc _; rw [Region.scanLoopD]; rfl
  | succ k ih =>
    intro i rc lc hne
    rw [scanLoopD_succ]
    have h0 : ¬ (r.m_points.getD i default).equal pt = true := by
      rw [Point.equal_iff]; exact hne 0 (by omega)
    rw [if_neg h0]
    rw [ih (i + 1) _ _ (fun j hj => by
      have := hne (j + 1) (by omega)
      rwa [show i + 1 + j = i + (j + 1) by omega])]
    rw [Finset.sum_range_succ' _ k, Finset.sum_range_succ' _ k]
    simp only [show ∀ j, i + 1 + j = i + (j + 1) from fun j => by omega, Nat.add_zero]
    congr 1 <;> omega

theorem scanD_of_not_mem (r : Region) (pt : Point) (h : pt ∉ r.m_points) :
    r.scanD pt = Scan.finished (rCountD r.m_points pt) (lCountD r.m_points pt) := by
  unfold Region.scanD
  rw [scanLoopD_finished r pt _ _ 0 0 0 (fun j hj => by
    rw [Nat.zero_add]; exact getD_ne_of_not_mem _ _ h j hj)]
  simp [rCountD, lCountD]

theorem rCountD_three (a b c pt : Point) :
    rCountD [a, b, c] pt =
      (if rHitD (relD a pt) (relD c pt) then 1 else 0)
        + (if rHitD (relD b pt) (relD a pt) then 1 else 0)
        + (if rHitD (relD c pt) (relD b pt) then 1 else 0) := by
  simp only [rCountD, List.length_cons, List.length_nil, Finset.sum_range_succ,
    Finset.sum_range_zero, prevIdx, zero_add]
  rfl

theorem lCountD_three (a b c pt : Point) :
    lCountD [a, b, c] pt =
      (if lHitD (relD a pt) (relD c pt) then 1 else 0)
        + (if lHitD (relD b pt) (relD a pt) then 1 else 0)
        + (if lHitD (relD c pt) (relD b pt) then 1 else 0) := by
  simp only [lCountD, List.length_cons, List.length_nil, Finset.sum_range_succ,
    Finset.sum_range_zero, prevIdx, zero_add]
  rfl

theorem rCountD_four (a b c d pt : Point) :
    rCountD [a, b, c, d] pt =
      (if rHitD (relD a pt) (relD d pt) then 1 else 0)
        + (if rHitD (relD b pt) (relD a pt) then 1 else 0)
        + (if rHitD (relD c pt) (relD b pt) then 1 else 0)
        + (if rHitD (relD d pt) (relD c pt) then 1 else 0) := by
  simp only [rCountD, List.length_cons, List.length_nil, Finset.sum_range_succ,
    Finset.sum_range_zero, prevIdx, zero_add]
  rfl

theorem lCountD_four (a b c d pt : Point) :
    lCountD [a, b, c, d] pt =
      (if lHitD (relD a pt) (relD d pt) then 1 else 0)
        + (if lHitD (relD b pt) (relD a pt) then 1 else 0)
        + (if lHitD (relD c pt) (relD b pt) then 1 else 0)
        + (if lHitD (relD d pt) (relD c pt) then 1 else 0) := by
  simp only [lCountD, List.length_cons, List.length_nil, Finset.sum_range_succ,
    Finset.sum_range_zero, prevIdx, zero_add]
  rfl

/-- When the two products of the numerator round to the same `double`, the numerator is
zero (or a NaN) and the edge is counted by neither counter. -/
theorem hitD_cancelled (c p : PointD) (h : Dbl.mul c.x p.y = Dbl.mul p.x c.y) :
    rHitD c p = false ∧ lHitD c p = false := by
  have key : (crossXD c p).gt 0 = false ∧ (crossXD c p).lt 0 = false := by
    unfold crossXD
    rw [h]
    rcases Dbl.mul p.x c.y with r | _ | _ | _
    · have e : Dbl.sub (Dbl.fin r) (Dbl.fin r) = Dbl.fin 0 := by
        show roundD (r - r) = Dbl.fin 0
        rw [sub_self, roundD_zero]
      rw [e]
      rcases Dbl.sub p.y c.y with b | _ | _ | _
      · show (if b = 0 then Dbl.nan else roundD (0 / b)).gt 0 = false ∧
          (if b = 0 then Dbl.nan else roundD (0 / b)).lt 0 = false
        split_ifs
        · exact ⟨rfl, rfl⟩
        · rw [zero_div, roundD_zero]
          simp [Dbl.gt, Dbl.lt]
      · simp [Dbl.div, Dbl.gt, Dbl.lt]
      · simp [Dbl.div, Dbl.gt, Dbl.lt]
      · exact ⟨rfl, rfl⟩
    · exact ⟨rfl, rfl⟩
    · exact ⟨rfl, rfl⟩
    · exact ⟨rfl, rfl⟩
  simp [rHitD, lHitD, key.1, key.2]

/-- The loop's `curr` for an integer vertex and an integer query point of up to 32 bits. -/
theorem relD_int (v pt : Point) (hv : v.IntUpTo (2 ^ 32)) (hp : pt.IntUpTo (2 ^ 32)) :
    relD v pt = PointD.ofPoint ⟨v.x - pt.x, v.y - pt.y⟩ := by
  obtain ⟨cx, ecx, -, dcx⟩ := subD_int v.x pt.x _ (le_refl _) hv.1 hp.1
  obtain ⟨cy, ecy, -, dcy⟩ := subD_int v.y pt.y _ (le_refl _) hv.2 hp.2
  simp only [relD, PointD.ofPoint, dcx, dcy, ecx, ecy]

/-! ### Three scans in `double` in which a crossing is lost to rounding -/

/-- The square of 94906267 is odd and lies half-way between two `double`s; it rounds to the
even one, which is the product of 94906266 and 94906268. -/
theorem roundD_94906267_sq : roundD 9007199515875289 = Dbl.fin 9007199515875288 :=
  roundD_cert 9007199515875289 9007199515875288 53 4503599757937644 4503599757937644
    (by norm_num) (by norm_num) (by norm_num) (by norm_num) (by norm_num) (by norm_num)
    (by norm_num) (by norm_num)

theorem roundD_94906266_mul_94906268 :
    roundD 9007199515875288 = Dbl.fin 9007199515875288 := by
  have h := roundD_of_repr 4503599757937644 1 (by norm_num) (by norm_num) (by norm_num)
    (by norm_num)
  norm_num at h
  exact h

theorem relD_zero (v : Point) (hv : v.IntUpTo (2 ^ 32)) :
    relD v ⟨0, 0⟩ = PointD.ofPoint v := by
  rw [relD_int v ⟨0, 0⟩ hv (by decide)]
  simp

/-- The scan in `double` of the triangle (94906267,-94906266), (-94906267,94906266),
(-94906268,94906267) at (0,0) ends with both counters 0. -/
theorem scanD_R4 :
    (Region.ofRange [⟨94906267, -94906266⟩, ⟨-94906267, 94906266⟩,
      ⟨-94906268, 94906267⟩]).scanD ⟨0, 0⟩ = Scan.finished 0 0 := by
  rw [scanD_of_not_mem _ _ (by decide)]
  have e0 := hitD_cancelled (PointD.ofPoint ⟨94906267, -94906266⟩)
    (PointD.ofPoint ⟨-94906268, 94906267⟩) (by
      show roundD (94906267 * 94906267) = roundD (-94906268 * -94906266)
      norm_num
      rw [roundD_94906267_sq, roundD_94906266_mul_94906268])
  have e1 := hitD_cancelled (PointD.ofPoint ⟨-94906267, 94906266⟩)
    (PointD.ofPoint ⟨94906267, -94906266⟩) (by
      show roundD (-94906267 * -94906266) = roundD (94906267 * 94906266)
      norm_num)
  have e2 := edge_agree ⟨-94906268, 94906267⟩ ⟨-94906267, 94906266⟩ ⟨0, 0⟩ (by decide)
    (by decide) (by decide) (Or.inr (Or.inr (Or.inl (by norm_num))))
  show Scan.finished (rCountD [_, _, _] _) (lCountD [_, _, _] _) = _
  rw [rCountD_three, lCountD_three, relD_zero _ (by decide), relD_zero _ (by decide),
    relD_zero _ (by decide), e0.1, e0.2, e1.1, e1.2]
  rw [relD_zero _ (by decide), relD_zero _ (by decide)] at e2
  rw [e2.1, e2.2]
  norm_num [rHit, lHit, crossX]

/-- The product of 94906267 and 94906265 is odd and lies half-way between two `double`s; it
rounds to the even one, which is the square of 94906266. -/
theorem roundD_94906267_mul_94906265 : roundD 9007199326062755 = Dbl.fin 9007199326062756 :=
  roundD_cert 9007199326062755 9007199326062756 53 4503599663031377 4503599663031378
    (by norm_num) (by norm_num) (by norm_num) (by norm_num) (by norm_num) (by norm_num)
    (by norm_num) (by norm_num)

theorem roundD_94906266_sq : roundD 9007199326062756 = Dbl.fin 9007199326062756 := by
  have h := roundD_of_repr 4503599663031378 1 (by norm_num) (by norm_num) (by norm_num)
    (by norm_num)
  norm_num at h
  exact h

/-- The scan in `double` of the triangle (94906266,-94906265), (-94906267,94906266), (-1,-1)
at (0,0) ends with `rCross = 0` and `lCross = 1`: the numerator of `x` for the edge between
the first two vertices rounds to 0. -/
theorem scanD_T2 :
    (Region.ofRange [⟨94906266, -94906265⟩, ⟨-94906267, 94906266⟩, ⟨-1, -1⟩]).scanD ⟨0, 0⟩
      = Scan.finished 0 1 := by
  rw [scanD_of_not_mem _ _ (by decide)]
  have e0 := edge_agree ⟨94906266, -94906265⟩ ⟨-1, -1⟩ ⟨0, 0⟩ (by decide)
    (by decide) (by decide) (Or.inr (Or.inr (Or.inl (by norm_num))))
  have e1 := hitD_cancelled (PointD.ofPoint ⟨-94906267, 94906266⟩)
    (PointD.ofPoint ⟨94906266, -94906265⟩) (by
      show roundD (-94906267 * -94906265) = roundD (94906266 * 94906266)
      norm_num
      rw [roundD_94906267_mul_94906265, roundD_94906266_sq])
  have e2 := edge_agree ⟨-1, -1⟩ ⟨-94906267, 94906266⟩ ⟨0, 0⟩ (by decide)
    (by decide) (by decide) (Or.inr (Or.inr (Or.inr (by norm_num))))
  show Scan.finished (rCountD [_, _, _] _) (lCountD [_, _, _] _) = _
  rw [relD_zero _ (by decide), relD_zero _ (by decide)] at e0 e2
  rw [rCountD_three, lCountD_three, relD_zero _ (by decide), relD_zero _ (by decide),
    relD_zero _ (by decide), e0.1, e0.2, e1.1, e1.2, e2.1, e2.2]
  norm_num [rHit, lHit, crossX]

/-- The scan in `double` of the triangle (94906266,-94906267), (-94906267,94906268),
(-100000,-100000) at (0,0) ends with `rCross = 0` and `lCross = 1`. -/
theorem scanD_R3 :
    (Region.ofRange [⟨94906266, -94906267⟩, ⟨-94906267, 94906268⟩,
      ⟨-100000, -100000⟩]).scanD ⟨0, 0⟩ = Scan.finished 0 1 := by
  rw [scanD_of_not_mem _ _ (by decide)]
  have e0 := edge_agree ⟨94906266, -94906267⟩ ⟨-100000, -100000⟩ ⟨0, 0⟩ (by decide)
    (by decide) (by decide) (Or.inr (Or.inr (Or.inl (by norm_num))))
  have e1 := hitD_cancelled (PointD.ofPoint ⟨-94906267, 94906268⟩)
    (PointD.ofPoint ⟨94906266, -94906267⟩) (by
      show roundD (-94906267 * -94906267) = roundD (94906266 * 94906268)
      norm_num
      rw [roundD_94906267_sq, roundD_94906266_mul_94906268])
  have e2 := edge_agree ⟨-100000, -100000⟩ ⟨-94906267, 94906268⟩ ⟨0, 0⟩ (by decide)
    (by decide) (by decide) (Or.inr (Or.inr (Or.inr (by norm_num))))
  show Scan.finished (rCountD [_, _, _] _) (lCountD [_, _, _] _) = _
  rw [relD_zero _ (by decide), relD_zero _ (by decide)] at e0 e2
  rw [rCountD_three, lCountD_three, relD_zero _ (by decide), relD_zero _ (by decide),
    relD_zero _ (by decide), e0.1, e0.2, e1.1, e1.2, e2.1, e2.2]
  norm_num [rHit, lHit, crossX]

/-! ### A query point on an edge, in `double` -/

theorem ContainsD_eq_of_small (r : Region) (pt : Point)
    (hv : ∀ v ∈ r.m_points, v.IntUpTo (2 ^ 25)) (hp : pt.IntUpTo (2 ^ 25)) :
    r.ContainsD pt = r.Contains pt :=
  ContainsD_eq_of_scan r pt (scanD_eq_scan_of_small r pt hv hp)

/-- C3: for every region reached by the mutators that holds at least 3 vertices
with integer coordinates of absolute value at most `2 ^ 25`, and every query point with such
coordinates that lies on an odd number of the region's cyclic edges (on exactly one edge, for
instance), `Contains`, computed in `double` as in the code, returns true. -/
theorem ContainsD_on_odd_edges (ops : List Mutator) (pt : Point)
    (hv : ∀ v ∈ (Region.run ops).m_points, v.IntUpTo (2 ^ 25)) (hp : pt.IntUpTo (2 ^ 25))
    (hn : 3 ≤ (Region.run ops).m_points.length)
    (hodd : edgesThrough (Region.run ops).m_points pt % 2 = 1) :
    (Region.run ops).ContainsD pt = true := by
  rw [ContainsD_eq_of_small _ pt hv hp]
  exact Contains_on_odd_edges_exact ops pt hn hodd

/-- Witness for C3: (2,0) lies on exactly one edge of the triangle (0,0),(4,0),(0,4). -/
theorem ContainsD_on_odd_edges_witness :
    (Region.run [Mutator.construct [⟨0, 0⟩, ⟨4, 0⟩, ⟨0, 4⟩]]).ContainsD ⟨2, 0⟩ = true :=
  ContainsD_on_odd_edges [Mutator.construct [⟨0, 0⟩, ⟨4, 0⟩, ⟨0, 4⟩]] ⟨2, 0⟩ (by decide)
    (by decide) (by decide)
    (by
      show edgesThrough [⟨0, 0⟩, ⟨4, 0⟩, ⟨0, 4⟩] ⟨2, 0⟩ % 2 = 1
      simp only [edgesThrough, List.length_cons, List.length_nil, Finset.sum_range_succ,
        Finset.sum_range_zero, prevIdx]
      norm_num [onSegment, cross, dot, Point.sub])

/-- Counterexample to C3 as stated, twice. The region (-1,0),(1,0),(2,0) has 3 vertices and
the point (0,0) lies on its edge from (-1,0) to (1,0) (and on the closing edge from (2,0)
back to (-1,0)), yet `Contains` returns false: no edge straddles the x-axis. The triangle
(94906267,-94906266), (-94906267,94906266), (-94906268,94906267) has 32-bit integer
coordinates and the point (0,0) lies on exactly one of its edges, the one between the first
two vertices, yet `Contains` returns false: in `double` the square of 94906267 rounds to
the product of 94906266 and 94906268, and the only crossing is lost. -/
theorem ContainsD_on_edge_counterexample :
    (3 ≤ (Region.run [Mutator.construct [⟨-1, 0⟩, ⟨1, 0⟩, ⟨2, 0⟩]]).m_points.length ∧
      onSegment ⟨-1, 0⟩ ⟨1, 0⟩ ⟨0, 0⟩ = true ∧
      (Region.run [Mutator.construct [⟨-1, 0⟩, ⟨1, 0⟩, ⟨2, 0⟩]]).ContainsD ⟨0, 0⟩ = false) ∧
    ((∀ v ∈ (Region.run [Mutator.construct [⟨94906267, -94906266⟩, ⟨-94906267, 94906266⟩,
        ⟨-94906268, 94906267⟩]]).m_points, v.IntUpTo (2 ^ 31 - 1)) ∧
      onSegment ⟨94906267, -94906266⟩ ⟨-94906267, 94906266⟩ ⟨0, 0⟩ = true ∧
      edgesThrough [⟨94906267, -94906266⟩, ⟨-94906267, 94906266⟩, ⟨-94906268, 94906267⟩]
        ⟨0, 0⟩ = 1 ∧
      (Region.run [Mutator.construct [⟨94906267, -94906266⟩, ⟨-94906267, 94906266⟩,
        ⟨-94906268, 94906267⟩]]).ContainsD ⟨0, 0⟩ = false) := by
  refine ⟨⟨by decide, by norm_num [onSegment, cross, dot, Point.sub], ?_⟩,
    ⟨by decide, by norm_num [onSegment, cross, dot, Point.sub], ?_, ?_⟩⟩
  · rw [ContainsD_eq_of_small _ _ (by decide) (by decide)]
    norm_num [Region.run, Mutator.apply, Region.Contains, Region.ofRange, Region.IsValid,
      Rect.Add, Rect.IsPointInside, Region.scan, Region.scanLoop, Point.equal, crossX]
  · rw [edgesThrough_triangle]
    norm_num [onSegment, cross, dot, Point.sub]
  · show (Region.ofRange [⟨94906267, -94906266⟩, ⟨-94906267, 94906266⟩,
      ⟨-94906268, 94906267⟩]).ContainsD ⟨0, 0⟩ = false
    rw [Region.ContainsD, scanD_R4]
    norm_num [Region.ofRange, Region.IsValid, Rect.Add, Rect.IsPointInside]

/-! ### Convex polygons with the query point strictly inside, in `double` -/

/-- C6: for every region reached by the mutators whose at least 3 vertices have
integer coordinates of absolute value at most `2 ^ 25`, are in strictly convex position and
are listed in boundary order (counter-clockwise, `s = 1`, or clockwise, `s = -1`), and every
point `p` with such coordinates strictly inside it, the loop of `Contains`, computed in
`double` as in the code, runs to its end with `rCross = 1` and `lCross = 1`: each ray is
counted exactly once, both counters are odd and of the same parity, and `Contains p` is
true. -/
theorem ContainsD_convex_interior (ops : List Mutator) (p : Point)
    (hv : ∀ v ∈ (Region.run ops).m_points, v.IntUpTo (2 ^ 25)) (hp : p.IntUpTo (2 ^ 25))
    (hn : 3 ≤ (Region.run ops).m_points.length)
    (h : (StrictlyConvex 1 (Region.run ops).m_points ∧
            StrictlyInside 1 (Region.run ops).m_points p) ∨
         (StrictlyConvex (-1) (Region.run ops).m_points ∧
            StrictlyInside (-1) (Region.run ops).m_points p)) :
    (Region.run ops).scanD p = Scan.finished 1 1 ∧ (Region.run ops).ContainsD p = true := by
  rw [ContainsD_eq_of_small _ p hv hp, scanD_eq_scan_of_small _ p hv hp]
  exact Contains_convex_interior_exact ops p hn h

/-- Witness for C6: the centre (0,0) of the diamond (2,0),(0,2),(-2,0),(0,-2); both rays
leave through a vertex shared by two edges, and each is counted once. -/
theorem ContainsD_convex_interior_witness :
    (Region.run [Mutator.construct [⟨2, 0⟩, ⟨0, 2⟩, ⟨-2, 0⟩, ⟨0, -2⟩]]).scanD ⟨0, 0⟩
      = Scan.finished 1 1 ∧
    (Region.run [Mutator.construct [⟨2, 0⟩, ⟨0, 2⟩, ⟨-2, 0⟩, ⟨0, -2⟩]]).ContainsD ⟨0, 0⟩ = true :=
  ContainsD_convex_interior [Mutator.construct [⟨2, 0⟩, ⟨0, 2⟩, ⟨-2, 0⟩, ⟨0, -2⟩]] ⟨0, 0⟩
    (by decide) (by decide) (by decide)
    (Or.inl ⟨by
      intro i hi k hk h1 h2
      simp only [Region.run, List.foldl_cons, List.foldl_nil, Mutator.apply, Region.ofRange,
        List.length_cons, List.length_nil] at hi hk h1 h2 ⊢
      interval_cases i <;> interval_cases k <;>
        first
        | (exfalso; revert h1 h2; decide)
        | norm_num [prevIdx, leftOf, cross, Point.sub],
      by
      intro i hi
      simp only [Region.run, List.foldl_cons, List.foldl_nil, Mutator.apply, Region.ofRange,
        List.length_cons, List.length_nil] at hi ⊢
      interval_cases i <;> norm_num [prevIdx, leftOf, cross, Point.sub]⟩)

/-- Counterexample to C6 as stated: the triangle (94906266,-94906265), (-94906267,94906266),
(-1,-1) has 32-bit integer coordinates, is strictly convex and listed counter-clockwise, and
(0,0) lies strictly inside it; the scan of `Contains` ends with `rCross = 0`, which is even,
and `lCross = 1`, so `Contains` returns true through the differing-parity branch and not
through the odd-`rCross` branch. In `double` the product of 94906267 and 94906265 rounds to
the square of 94906266 and the crossing of the right ray is lost. -/
theorem ContainsD_convex_interior_counterexample :
    (∀ v ∈ (Region.run [Mutator.construct [⟨94906266, -94906265⟩, ⟨-94906267, 94906266⟩,
        ⟨-1, -1⟩]]).m_points, v.IntUpTo (2 ^ 31 - 1)) ∧
    StrictlyConvex 1 (Region.run [Mutator.construct [⟨94906266, -94906265⟩,
        ⟨-94906267, 94906266⟩, ⟨-1, -1⟩]]).m_points ∧
    StrictlyInside 1 (Region.run [Mutator.construct [⟨94906266, -94906265⟩,
        ⟨-94906267, 94906266⟩, ⟨-1, -1⟩]]).m_points ⟨0, 0⟩ ∧
    (Region.run [Mutator.construct [⟨94906266, -94906265⟩, ⟨-94906267, 94906266⟩,
        ⟨-1, -1⟩]]).scanD ⟨0, 0⟩ = Scan.finished 0 1 :=
  ⟨by decide,
   StrictlyConvex_triangle 1 _ _ _ (by norm_num [leftOf, cross, Point.sub]),
   StrictlyInside_triangle 1 _ _ _ _ (by norm_num [leftOf, cross, Point.sub])
     (by norm_num [leftOf, cross, Point.sub]) (by norm_num [leftOf, cross, Point.sub]),
   scanD_T2⟩

/-! ### Triangles, in `double` -/

/-- C7: for every region reached by the mutators whose vertices are three
non-collinear points `a`, `b`, `c` (in either orientation) with integer coordinates of
absolute value at most `2 ^ 25`, and every point `p` with such coordinates, `Contains p`,
computed in `double` as in the code, is true if and only if `p` lies in the closed triangle:
the three cross products `(b-a)×(p-a)`, `(c-b)×(p-b)`, `(a-c)×(p-c)` are all `≥ 0` or all
`≤ 0`. -/
theorem ContainsD_triangle (ops : List Mutator) (a b c p : Point)
    (hpts : (Region.run ops).m_points = [a, b, c])
    (ha : a.IntUpTo (2 ^ 25)) (hb : b.IntUpTo (2 ^ 25)) (hc : c.IntUpTo (2 ^ 25))
    (hp : p.IntUpTo (2 ^ 25))
    (hnc : cross (b.sub a) (c.sub a) ≠ 0) :
    (Region.run ops).ContainsD p = true ↔
      ((0 ≤ cross (b.sub a) (p.sub a) ∧ 0 ≤ cross (c.sub b) (p.sub b) ∧
          0 ≤ cross (a.sub c) (p.sub c)) ∨
       (cross (b.sub a) (p.sub a) ≤ 0 ∧ cross (c.sub b) (p.sub b) ≤ 0 ∧
          cross (a.sub c) (p.sub c) ≤ 0)) := by
  have hv : ∀ v ∈ (Region.run ops).m_points, v.IntUpTo (2 ^ 25) := by
    rw [hpts]
    intro v hv
    simp only [List.mem_cons, List.mem_singleton, List.not_mem_nil, or_false] at hv
    rcases hv with rfl | rfl | rfl
    · exact ha
    · exact hb
    · exact hc
  rw [ContainsD_eq_of_small _ p hv hp]
  exact Contains_triangle_exact ops a b c p hpts hnc

/-- Witness for C7: the triangle (0,0),(4,0),(0,4) contains (1,1), the vertex (0,0) and the
edge point (2,0), and does not contain (5,5). -/
theorem ContainsD_triangle_witness :
    (Region.run [Mutator.construct [⟨0, 0⟩, ⟨4, 0⟩, ⟨0, 4⟩]]).ContainsD ⟨1, 1⟩ = true ∧
    (Region.run [Mutator.construct [⟨0, 0⟩, ⟨4, 0⟩, ⟨0, 4⟩]]).ContainsD ⟨5, 5⟩ = false ∧
    (Region.run [Mutator.construct [⟨0, 0⟩, ⟨4, 0⟩, ⟨0, 4⟩]]).ContainsD ⟨0, 0⟩ = true ∧
    (Region.run [Mutator.construct [⟨0, 0⟩, ⟨4, 0⟩, ⟨0, 4⟩]]).ContainsD ⟨2, 0⟩ = true :=
  ⟨(ContainsD_triangle [Mutator.construct [⟨0, 0⟩, ⟨4, 0⟩, ⟨0, 4⟩]] ⟨0, 0⟩ ⟨4, 0⟩ ⟨0, 4⟩ ⟨1, 1⟩
      rfl (by decide) (by decide) (by decide) (by decide)
      (by norm_num [cross, Point.sub])).mpr (by norm_num [cross, Point.sub]),
   Bool.eq_false_iff.mpr (fun h => by
     have h' := (ContainsD_triangle [Mutator.construct [⟨0, 0⟩, ⟨4, 0⟩, ⟨0, 4⟩]]
       ⟨0, 0⟩ ⟨4, 0⟩ ⟨0, 4⟩ ⟨5, 5⟩ rfl (by decide) (by decide) (by decide) (by decide)
       (by norm_num [cross, Point.sub])).mp h
     norm_num [cross, Point.sub] at h'),
   (ContainsD_triangle [Mutator.construct [⟨0, 0⟩, ⟨4, 0⟩, ⟨0, 4⟩]] ⟨0, 0⟩ ⟨4, 0⟩ ⟨0, 4⟩ ⟨0, 0⟩
      rfl (by decide) (by decide) (by decide) (by decide)
      (by norm_num [cross, Point.sub])).mpr (by norm_num [cross, Point.sub]),
   (ContainsD_triangle [Mutator.construct [⟨0, 0⟩, ⟨4, 0⟩, ⟨0, 4⟩]] ⟨0, 0⟩ ⟨4, 0⟩ ⟨0, 4⟩ ⟨2, 0⟩
      rfl (by decide) (by decide) (by decide) (by decide)
      (by norm_num [cross, Point.sub])).mpr (by norm_num [cross, Point.sub])⟩

/-- Counterexample to C7 as stated: the triangle a = (94906266,-94906267),
b = (-94906267,94906268), c = (-100000,-100000) has 32-bit integer coordinates and is not
degenerate, and p = (0,0) is outside it (`(b-a)×(p-a) = -1 < 0` while `(c-b)×(p-b) > 0`);
yet `Contains p` is true: in `double` the square of 94906267 rounds to the product of
94906266 and 94906268, one of the two crossings of the left ray is lost, and the scan ends
with `rCross = 0`, `lCross = 1`. -/
theorem ContainsD_triangle_counterexample :
    (∀ v ∈ (Region.run [Mutator.construct [⟨94906266, -94906267⟩, ⟨-94906267, 94906268⟩,
        ⟨-100000, -100000⟩]]).m_points, v.IntUpTo (2 ^ 31 - 1)) ∧
    cross ((⟨-94906267, 94906268⟩ : Point).sub ⟨94906266, -94906267⟩)
      ((⟨-100000, -100000⟩ : Point).sub ⟨94906266, -94906267⟩) ≠ 0 ∧
    cross ((⟨-94906267, 94906268⟩ : Point).sub ⟨94906266, -94906267⟩)
      ((⟨0, 0⟩ : Point).sub ⟨94906266, -94906267⟩) < 0 ∧
    0 < cross ((⟨-100000, -100000⟩ : Point).sub ⟨-94906267, 94906268⟩)
      ((⟨0, 0⟩ : Point).sub ⟨-94906267, 94906268⟩) ∧
    (Region.run [Mutator.construct [⟨94906266, -94906267⟩, ⟨-94906267, 94906268⟩,
        ⟨-100000, -100000⟩]]).ContainsD ⟨0, 0⟩ = true := by
  refine ⟨by decide, by norm_num [cross, Point.sub], by norm_num [cross, Point.sub],
    by norm_num [cross, Point.sub], ?_⟩
  show (Region.ofRange [⟨94906266, -94906267⟩, ⟨-94906267, 94906268⟩,
    ⟨-100000, -100000⟩]).ContainsD ⟨0, 0⟩ = true
  rw [Region.ContainsD, scanD_R3]
  norm_num [Region.ofRange, Region.IsValid, Rect.Add, Rect.IsPointInside]

/-! ### Soundness of the on-edge classification, in `double` -/

/-- C14: for every region (with at least 3 vertices or fewer, simple or not) whose
vertices have integer coordinates of absolute value at most `2 ^ 25`, and every point with
such coordinates equal to no stored vertex, if the scan of `Contains`, computed in `double`
as in the code, ends with counters of different parity then the point lies on at least one
cyclic edge of the region; equivalently, for a point on no edge the two counters have the
same parity. -/
theorem scanD_on_edge_classification_sound (r : Region) (pt : Point) (rCross lCross : Nat)
    (hv : ∀ v ∈ r.m_points, v.IntUpTo (2 ^ 25)) (hp : pt.IntUpTo (2 ^ 25))
    (hm : pt ∉ r.m_points) (hs : r.scanD pt = Scan.finished rCross lCross) :
    (rCross % 2 ≠ lCross % 2 →
      ∃ i, i < r.m_points.length ∧
        onSegment (r.m_points.getD (prevIdx r.m_points.length i) default)
          (r.m_points.getD i default) pt = true) ∧
    ((∀ i, i < r.m_points.length →
        onSegment (r.m_points.getD (prevIdx r.m_points.length i) default)
          (r.m_points.getD i default) pt = false) →
      rCross % 2 = lCross % 2) := by
  rw [scanD_eq_scan_of_small r pt hv hp] at hs
  exact on_edge_classification_sound_exact r pt rCross lCross hm hs

/-- Witness for C14: the scan of the triangle (0,0),(4,0),(0,4) at the edge point (2,0) ends
with `rCross = 1` and `lCross = 0`. -/
theorem scanD_on_edge_classification_sound_witness :
    ∃ i, i < (Region.ofRange [⟨0, 0⟩, ⟨4, 0⟩, ⟨0, 4⟩]).m_points.length ∧
      onSegment ((Region.ofRange [⟨0, 0⟩, ⟨4, 0⟩, ⟨0, 4⟩]).m_points.getD
          (prevIdx (Region.ofRange [⟨0, 0⟩, ⟨4, 0⟩, ⟨0, 4⟩]).m_points.length i) default)
        ((Region.ofRange [⟨0, 0⟩, ⟨4, 0⟩, ⟨0, 4⟩]).m_points.getD i default) ⟨2, 0⟩ = true :=
  (scanD_on_edge_classification_sound (Region.ofRange [⟨0, 0⟩, ⟨4, 0⟩, ⟨0, 4⟩]) ⟨2, 0⟩ 1 0
    (by decide) (by decide) (by decide)
    (by
      rw [scanD_eq_scan_of_small _ _ (by decide) (by decide)]
      norm_num [Region.ofRange, Region.scan, Region.scanLoop, Point.equal, crossX])).1
    (by decide)

/-- Counterexample to C14 as stated: for the triangle (94906266,-94906267),
(-94906267,94906268), (-100000,-100000) with 32-bit integer coordinates and the point (0,0),
which is no vertex, the scan of `Contains` ends with `rCross = 0` and `lCross = 1`, counters
of different parity, and (0,0) lies on none of the three edges. -/
theorem scanD_on_edge_classification_counterexample :
    (∀ v ∈ (Region.ofRange [⟨94906266, -94906267⟩, ⟨-94906267, 94906268⟩,
        ⟨-100000, -100000⟩]).m_points, v.IntUpTo (2 ^ 31 - 1)) ∧
    (⟨0, 0⟩ : Point) ∉ (Region.ofRange [⟨94906266, -94906267⟩, ⟨-94906267, 94906268⟩,
        ⟨-100000, -100000⟩]).m_points ∧
    (Region.ofRange [⟨94906266, -94906267⟩, ⟨-94906267, 94906268⟩,
        ⟨-100000, -100000⟩]).scanD ⟨0, 0⟩ = Scan.finished 0 1 ∧
    0 % 2 ≠ 1 % 2 ∧
    onSegment ⟨-100000, -100000⟩ ⟨94906266, -94906267⟩ ⟨0, 0⟩ = false ∧
    onSegment ⟨94906266, -94906267⟩ ⟨-94906267, 94906268⟩ ⟨0, 0⟩ = false ∧
    onSegment ⟨-94906267, 94906268⟩ ⟨-100000, -100000⟩ ⟨0, 0⟩ = false :=
  ⟨by decide, by decide, scanD_R3, by decide,
   by norm_num [onSegment, cross, dot, Point.sub],
   by norm_num [onSegment, cross, dot, Point.sub],
   by norm_num [onSegment, cross, dot, Point.sub]⟩

/-! ### Two scans in `double` in which a crossing is lost to underflow -/

theorem hitD_same_y (c p : PointD) (h : c.y = p.y) : rHitD c p = false ∧ lHitD c p = false := by
  simp [rHitD, lHitD, h]

/-- The scan in `double` of the square (0,0), (4s,0), (4s,4s), (0,4s) at (s,s), for a
`double` `s` so small that the products of the coordinate differences underflow to zero:
no edge is counted. -/
theorem scanD_underflow_square (s : ℚ) (hs : 0 < s)
    (hr1 : roundD s = Dbl.fin s) (hr3 : roundD (3 * s) = Dbl.fin (3 * s))
    (hr4 : roundD (4 * s) = Dbl.fin (4 * s))
    (ht1 : roundD (s * s) = Dbl.fin 0) (ht3 : roundD (3 * (s * s)) = Dbl.fin 0)
    (ht9 : roundD (9 * (s * s)) = Dbl.fin 0) :
    (Region.ofRange [⟨0, 0⟩, ⟨4 * s, 0⟩, ⟨4 * s, 4 * s⟩, ⟨0, 4 * s⟩]).scanD ⟨s, s⟩
      = Scan.finished 0 0 := by
  have hs0 : s ≠ 0 := ne_of_gt hs
  have hrn : roundD (-s) = Dbl.fin (-s) := roundD_neg_fin _ _ hr1
  have htn3 : roundD (-(3 * (s * s))) = Dbl.fin 0 := by
    have := roundD_neg_fin _ _ ht3
    rwa [neg_zero] at this
  have hnm : (⟨s, s⟩ : Point) ∉
      (Region.ofRange [⟨0, 0⟩, ⟨4 * s, 0⟩, ⟨4 * s, 4 * s⟩, ⟨0, 4 * s⟩]).m_points := by
    have h4 : s ≠ 4 * s := by
      intro h
      have : 3 * s = 0 := by linarith
      exact hs0 (by linarith)
    simp [Region.ofRange, hs0, h4]
  rw [scanD_of_not_mem _ _ hnm]
  show Scan.finished (rCountD [_, _, _, _] _) (lCountD [_, _, _, _] _) = _
  have d0 : Dbl.sub (roundD 0) (roundD s) = Dbl.fin (-s) := by
    rw [roundD_zero, hr1]
    show roundD (0 - s) = _
    rw [zero_sub, hrn]
  have d4 : Dbl.sub (roundD (4 * s)) (roundD s) = Dbl.fin (3 * s) := by
    rw [hr4, hr1]
    show roundD (4 * s - s) = _
    rw [show 4 * s - s = 3 * s by ring, hr3]
  have ra : relD ⟨0, 0⟩ ⟨s, s⟩ = ⟨Dbl.fin (-s), Dbl.fin (-s)⟩ := by
    simp only [relD, d0]
  have rb : relD ⟨4 * s, 0⟩ ⟨s, s⟩ = ⟨Dbl.fin (3 * s), Dbl.fin (-s)⟩ := by
    simp only [relD, d0, d4]
  have rc : relD ⟨4 * s, 4 * s⟩ ⟨s, s⟩ = ⟨Dbl.fin (3 * s), Dbl.fin (3 * s)⟩ := by
    simp only [relD, d4]
  have rd : relD ⟨0, 4 * s⟩ ⟨s, s⟩ = ⟨Dbl.fin (-s), Dbl.fin (3 * s)⟩ := by
    simp only [relD, d0, d4]
  have e0 := hitD_cancelled ⟨Dbl.fin (-s), Dbl.fin (-s)⟩ ⟨Dbl.fin (-s), Dbl.fin (3 * s)⟩ (by
    show roundD (-s * (3 * s)) = roundD (-s * -s)
    rw [show -s * (3 * s) = -(3 * (s * s)) by ring, show -s * -s = s * s by ring, htn3, ht1])
  have e1 := hitD_same_y ⟨Dbl.fin (3 * s), Dbl.fin (-s)⟩ ⟨Dbl.fin (-s), Dbl.fin (-s)⟩ rfl
  have e2 := hitD_cancelled ⟨Dbl.fin (3 * s), Dbl.fin (3 * s)⟩ ⟨Dbl.fin (3 * s), Dbl.fin (-s)⟩
    (by
      show roundD (3 * s * -s) = roundD (3 * s * (3 * s))
      rw [show 3 * s * -s = -(3 * (s * s)) by ring, show 3 * s * (3 * s) = 9 * (s * s) by ring,
        htn3, ht9])
  have e3 := hitD_same_y ⟨Dbl.fin (-s), Dbl.fin (3 * s)⟩ ⟨Dbl.fin (3 * s), Dbl.fin (3 * s)⟩ rfl
  rw [rCountD_four, lCountD_four, ra, rb, rc, rd, e0.1, e0.2, e1.1, e1.2, e2.1, e2.2, e3.1,
    e3.2]
  rfl

/-- The point (s,s) is inside the bounding rectangle of the square (0,0), (4s,0), (4s,4s),
(0,4s) for every positive `s`. -/
theorem rect_underflow_square (s : ℚ) (hs : 0 < s) :
    (Region.ofRange [⟨0, 0⟩, ⟨4 * s, 0⟩, ⟨4 * s, 4 * s⟩, ⟨0, 4 * s⟩]).m_rect.IsPointInside
      ⟨s, s⟩ = true := by
  have h : (Region.ofRange [⟨0, 0⟩, ⟨4 * s, 0⟩, ⟨4 * s, 4 * s⟩, ⟨0, 4 * s⟩]).m_rect
      = minimalBox [⟨0, 0⟩, ⟨4 * s, 0⟩, ⟨4 * s, 4 * s⟩, ⟨0, 4 * s⟩] := foldl_Add_empty _
  rw [h, minimalBox_IsPointInside]
  refine ⟨⟨⟨0, 0⟩, by simp, le_of_lt hs⟩, ⟨⟨4 * s, 4 * s⟩, by simp, ?_⟩,
    ⟨⟨0, 0⟩, by simp, le_of_lt hs⟩, ⟨⟨4 * s, 4 * s⟩, by simp, ?_⟩⟩
  · show s ≤ 4 * s
    linarith
  · show s ≤ 4 * s
    linarith

/-- The multiples `m * 2 ^ -600` with `m < 2 ^ 53` are `double`s. -/
theorem roundD_mul_pow600 (m : ℕ) (h0 : 0 < m) (hm : m < 2 ^ 53) :
    roundD ((m : ℚ) * 2 ^ (-600 : ℤ)) = Dbl.fin ((m : ℚ) * 2 ^ (-600 : ℤ)) := by
  apply roundD_of_repr m (-600) h0 hm (by norm_num)
  have h1 : (m : ℚ) < 2 ^ 53 := by exact_mod_cast hm
  have h2 : (0 : ℚ) < 2 ^ (-600 : ℤ) := by positivity
  have h3 : (2 : ℚ) ^ (-600 : ℤ) ≤ 1 := zpow_le_one_of_nonpos₀ (by norm_num) (by norm_num)
  calc (m : ℚ) * 2 ^ (-600 : ℤ) ≤ (m : ℚ) * 1 :=
        mul_le_mul_of_nonneg_left h3 (by positivity)
    _ < 2 ^ (1024 : ℤ) := by
        rw [mul_one]
        refine lt_trans h1 ?_
        norm_num

/-- The products `m * (2 ^ -600 * 2 ^ -600)` with `m ≤ 9` underflow to zero. -/
theorem roundD_mul_pow600_sq (m : ℕ) (hm : m ≤ 9) :
    roundD ((m : ℚ) * (2 ^ (-600 : ℤ) * 2 ^ (-600 : ℤ))) = Dbl.fin 0 := by
  apply roundD_tiny
  have h1 : (m : ℚ) ≤ 9 := by exact_mod_cast hm
  have h0 : (0 : ℚ) ≤ m := by positivity
  rw [abs_of_nonneg (by positivity), ← zpow_add₀ (by norm_num)]
  have h2 : (0 : ℚ) < 2 ^ ((-600 : ℤ) + -600) := by positivity
  calc (m : ℚ) * 2 ^ ((-600 : ℤ) + -600) ≤ 9 * 2 ^ ((-600 : ℤ) + -600) :=
        mul_le_mul_of_nonneg_right h1 (le_of_lt h2)
    _ < 2 ^ (4 : ℤ) * 2 ^ ((-600 : ℤ) + -600) := by
        apply mul_lt_mul_of_pos_right _ h2
        norm_num
    _ = 2 ^ (-1196 : ℤ) := by
        rw [← zpow_add₀ (by norm_num)]
        norm_num
    _ < 2 ^ (-1075 : ℤ) := zpow_lt_zpow_right₀ (by norm_num) (by norm_num)

/-- Counterexample to C8 as stated: with `s = 2 ^ -600`, a `double`, the square (0,0),
(4s,0), (4s,4s), (0,4s) has `double` coordinates and `0 < 4s`, and the point (s,s) has
`0 ≤ s ≤ 4s` in both coordinates; yet `Contains` returns false: every product of two
coordinate differences underflows to zero, `x` is zero for both vertical edges and neither
counter moves. -/
theorem ContainsD_rectangle_counterexample :
    roundD (2 ^ (-600 : ℤ)) = Dbl.fin (2 ^ (-600 : ℤ)) ∧
    roundD (4 * 2 ^ (-600 : ℤ)) = Dbl.fin (4 * 2 ^ (-600 : ℤ)) ∧
    (0 : ℚ) < 4 * 2 ^ (-600 : ℤ) ∧
    (0 : ℚ) ≤ 2 ^ (-600 : ℤ) ∧ (2 : ℚ) ^ (-600 : ℤ) ≤ 4 * 2 ^ (-600 : ℤ) ∧
    (Region.run [Mutator.construct [⟨0, 0⟩, ⟨4 * 2 ^ (-600 : ℤ), 0⟩,
      ⟨4 * 2 ^ (-600 : ℤ), 4 * 2 ^ (-600 : ℤ)⟩, ⟨0, 4 * 2 ^ (-600 : ℤ)⟩]]).ContainsD
        ⟨2 ^ (-600 : ℤ), 2 ^ (-600 : ℤ)⟩ = false := by
  have hs : (0 : ℚ) < 2 ^ (-600 : ℤ) := by positivity
  have h1 : roundD (2 ^ (-600 : ℤ)) = Dbl.fin (2 ^ (-600 : ℤ)) := by
    have := roundD_mul_pow600 1 (by norm_num) (by norm_num)
    rwa [Nat.cast_one, one_mul] at this
  have h3 : roundD (3 * 2 ^ (-600 : ℤ)) = Dbl.fin (3 * 2 ^ (-600 : ℤ)) := by
    have := roundD_mul_pow600 3 (by norm_num) (by norm_num)
    exact_mod_cast this
  have h4 : roundD (4 * 2 ^ (-600 : ℤ)) = Dbl.fin (4 * 2 ^ (-600 : ℤ)) := by
    have := roundD_mul_pow600 4 (by norm_num) (by norm_num)
    exact_mod_cast this
  have t1 : roundD (2 ^ (-600 : ℤ) * 2 ^ (-600 : ℤ)) = Dbl.fin 0 := by
    have := roundD_mul_pow600_sq 1 (by norm_num)
    rwa [Nat.cast_one, one_mul] at this
  have t3 : roundD (3 * (2 ^ (-600 : ℤ) * 2 ^ (-600 : ℤ))) = Dbl.fin 0 := by
    have := roundD_mul_pow600_sq 3 (by norm_num)
    exact_mod_cast this
  have t9 : roundD (9 * (2 ^ (-600 : ℤ) * 2 ^ (-600 : ℤ))) = Dbl.fin 0 := by
    have := roundD_mul_pow600_sq 9 (by norm_num)
    exact_mod_cast this
  refine ⟨h1, h4, by positivity, le_of_lt hs, by linarith, ?_⟩
  show (Region.ofRange [⟨0, 0⟩, ⟨4 * 2 ^ (-600 : ℤ), 0⟩,
      ⟨4 * 2 ^ (-600 : ℤ), 4 * 2 ^ (-600 : ℤ)⟩, ⟨0, 4 * 2 ^ (-600 : ℤ)⟩]).ContainsD
        ⟨2 ^ (-600 : ℤ), 2 ^ (-600 : ℤ)⟩ = false
  rw [Region.ContainsD, scanD_underflow_square _ hs h1 h3 h4 t1 t3 t9,
    rect_underflow_square _ hs]
  rfl

/-- A positive number rounds to zero or to at least the smallest positive `double`. -/
theorem roundD_value_pos (q r : ℚ) (hq : 0 < q) (h : roundD q = Dbl.fin r) :
    r = 0 ∨ (2 : ℚ) ^ (-1074 : ℤ) ≤ r := by
  rw [roundD_of_pos q hq] at h
  split_ifs at h with hov
  injection h with h
  by_cases hbig : (2 : ℚ) ^ (-1074 : ℤ) ≤ q
  · right
    obtain ⟨a, -⟩ := round_bounds q hbig
    rw [← h]
    refine le_trans ?_ a
    have hlog : -1074 ≤ Int.log 2 q := by
      rw [← Int.zpow_le_iff_le_log (by norm_num) hq]
      exact_mod_cast hbig
    exact zpow_le_zpow_right₀ (by norm_num) hlog
  · rw [not_le] at hbig
    have hlog : Int.log 2 q < -1074 := by
      rw [← Int.lt_zpow_iff_log_lt (by norm_num) hq]
      exact_mod_cast hbig
    have he : max (Int.log 2 q) (-1022) = -1022 := max_eq_right (by omega)
    rw [he] at h
    have hulp : ((-1022 : ℤ) - 52) = -1074 := by norm_num
    rw [hulp] at h
    have hp : (0 : ℚ) < 2 ^ (-1074 : ℤ) := by positivity
    have ht1 : q / 2 ^ (-1074 : ℤ) < 1 := by
      rw [div_lt_one hp]; exact hbig
    have ht0 : 0 ≤ q / 2 ^ (-1074 : ℤ) := by positivity
    have hfl : ⌊q / 2 ^ (-1074 : ℤ)⌋ = 0 := by
      rw [Int.floor_eq_iff]
      constructor
      · rw [Int.cast_zero]; exact ht0
      · rw [Int.cast_zero, zero_add]; exact ht1
    have h01 : roundNE (q / 2 ^ (-1074 : ℤ)) = 0 ∨ roundNE (q / 2 ^ (-1074 : ℤ)) = 1 := by
      have a := floor_le_roundNE (q / 2 ^ (-1074 : ℤ))
      have b := roundNE_le_floor_succ (q / 2 ^ (-1074 : ℤ))
      rw [hfl] at a b
      omega
    rcases h01 with h0 | h1
    · left
      rw [← h, h0, Int.cast_zero, zero_mul]
    · right
      rw [← h, h1, Int.cast_one, one_mul]

/-- Every finite `double` is zero or at least the smallest positive `double` in
magnitude. -/
theorem roundD_value (q r : ℚ) (h : roundD q = Dbl.fin r) :
    r = 0 ∨ (2 : ℚ) ^ (-1074 : ℤ) ≤ |r| := by
  rcases lt_trichotomy q 0 with hq | hq | hq
  · have h' := roundD_neg_fin _ _ h
    rcases roundD_value_pos (-q) (-r) (by linarith) h' with a | a
    · left; linarith
    · right
      exact le_trans a (neg_le_abs r)
  · rw [hq, roundD_zero] at h
    injection h with h
    exact Or.inl h.symm
  · rcases roundD_value_pos q r hq h with a | a
    · exact Or.inl a
    · exact Or.inr (le_trans a (le_abs_self r))

/-- A difference of two `double`s is zero or at least the smallest positive `double` in
magnitude, if it is finite. -/
theorem subD_value (a b : Dbl) (r : ℚ) (h : Dbl.sub a b = Dbl.fin r) :
    r = 0 ∨ (2 : ℚ) ^ (-1074 : ℤ) ≤ |r| := by
  rcases a with x | _ | _ | _ <;> rcases b with y | _ | _ | _ <;>
    first
    | exact roundD_value _ _ h
    | exact Dbl.noConfusion h

/-- The rounded difference of two numbers that are at least the smallest positive `double`
apart is not zero. -/
theorem roundD_sub_ne_zero (x y : ℚ) (h : (2 : ℚ) ^ (-1074 : ℤ) ≤ |x - y|) :
    roundD (x - y) ≠ Dbl.fin 0 := by
  intro h0
  obtain ⟨g, l⟩ := roundD_sign (x - y) (Or.inr h)
  rw [h0] at g l
  have hp : (0 : ℚ) < 2 ^ (-1074 : ℤ) := by positivity
  have hne : x - y ≠ 0 := by
    intro hz
    rw [hz, abs_zero] at h
    linarith
  rcases lt_or_gt_of_ne hne with hlt | hgt
  · have : decide (x - y < 0) = true := decide_eq_true hlt
    rw [this] at l
    simp [Dbl.lt] at l
  · have : decide (0 < x - y) = true := decide_eq_true hgt
    rw [this] at g
    simp [Dbl.gt] at g

/-- In the loop of `Contains` in `double` the divisor `prev.y - curr.y` is not zero whenever
one of the two branches is entered, for every vertex pair and every query point: the two
ordinates are `double`s on different sides of zero, and the difference of two different
`double`s does not round to zero. -/
theorem divisorD_ne_zero (v w pt : Point)
    (h : ((relD v pt).y.gt 0 != (relD w pt).y.gt 0) = true ∨
      ((relD v pt).y.lt 0 != (relD w pt).y.lt 0) = true) :
    Dbl.sub (relD w pt).y (relD v pt).y ≠ Dbl.fin 0 := by
  have hc := subD_value (roundD v.y) (roundD pt.y)
  have hp := subD_value (roundD w.y) (roundD pt.y)
  have e1 : (relD v pt).y = Dbl.sub (roundD v.y) (roundD pt.y) := rfl
  have e2 : (relD w pt).y = Dbl.sub (roundD w.y) (roundD pt.y) := rfl
  rw [e1, e2] at h ⊢
  generalize Dbl.sub (roundD v.y) (roundD pt.y) = c at h hc ⊢
  generalize Dbl.sub (roundD w.y) (roundD pt.y) = p at h hp ⊢
  have hpos : (0 : ℚ) < 2 ^ (-1074 : ℤ) := by positivity
  rcases c with x | _ | _ | _ <;> rcases p with y | _ | _ | _ <;>
    try (intro hh; exact Dbl.noConfusion hh)
  have hx := hc x rfl
  have hy := hp y rfl
  apply roundD_sub_ne_zero
  simp only [Dbl.gt, Dbl.lt, bne_iff_ne, ne_eq, decide_eq_decide] at h
  by_contra hsmall
  rw [not_le] at hsmall
  have hxy := abs_lt.mp hsmall
  rcases hx with hx | hx <;> rcases hy with hy | hy
  · subst hx; subst hy
    simp at h
  · subst hx
    rw [sub_zero] at hsmall
    linarith
  · subst hy
    rw [zero_sub, abs_neg] at hsmall
    linarith
  · rcases le_or_lt 0 x with sx | sx <;> rcases le_or_lt 0 y with sy | sy
    · rw [abs_of_nonneg sx] at hx
      rw [abs_of_nonneg sy] at hy
      have a1 : 0 < x := by linarith
      have a2 : 0 < y := by linarith
      have b1 : ¬ x < 0 := by linarith
      have b2 : ¬ y < 0 := by linarith
      simp [a1, a2, b1, b2] at h
    · rw [abs_of_nonneg sx] at hx
      rw [abs_of_neg sy] at hy
      linarith [hxy.1, hxy.2]
    · rw [abs_of_neg sx] at hx
      rw [abs_of_nonneg sy] at hy
      linarith [hxy.1, hxy.2]
    · rw [abs_of_neg sx] at hx
      rw [abs_of_neg sy] at hy
      have a1 : ¬ 0 < x := by linarith
      have a2 : ¬ 0 < y := by linarith
      simp [a1, a2, sx, sy] at h

/-! ### `AreaSign` -/

/-- For unsigned 32-bit points the differences wrap before the conversion to `double`:
start = (1,0), end = (0,0), pt = (0,1) has the exact area -1, a right turn, and `AreaSign`
computes `4294967295 * 1 - 4294967295 * 0` and returns `+1`. -/
theorem AreaSignU_wraps :
    exactArea ⟨1, 0⟩ ⟨0, 0⟩ ⟨0, 1⟩ = -1 ∧ AreaSignU ⟨1, 0⟩ ⟨0, 0⟩ ⟨0, 1⟩ = 1 := by
  refine ⟨by norm_num [exactArea], ?_⟩
  have h1 : subU32 0 1 = 4294967295 := by decide
  have h2 : subU32 1 0 = 1 := by decide
  have h3 : subU32 0 0 = 0 := by decide
  have r1 : roundD ((4294967295 : ℕ) : ℚ) = Dbl.fin 4294967295 := by
    have := roundD_int 4294967295 (by norm_num)
    exact_mod_cast this
  have r2 : roundD ((1 : ℕ) : ℚ) = Dbl.fin 1 := by
    have := roundD_int 1 (by norm_num)
    exact_mod_cast this
  have r3 : roundD ((0 : ℕ) : ℚ) = Dbl.fin 0 := by
    rw [Nat.cast_zero, roundD_zero]
  have m1 : Dbl.mul (Dbl.fin 4294967295) (Dbl.fin 1) = Dbl.fin 4294967295 := by
    show roundD (4294967295 * 1) = _
    rw [mul_one]
    have := roundD_int 4294967295 (by norm_num)
    exact_mod_cast this
  have m2 : Dbl.mul (Dbl.fin 4294967295) (Dbl.fin 0) = Dbl.fin 0 := by
    show roundD (4294967295 * 0) = _
    rw [mul_zero, roundD_zero]
  have m3 : Dbl.sub (Dbl.fin 4294967295) (Dbl.fin 0) = Dbl.fin 4294967295 := by
    show roundD (4294967295 - 0) = _
    rw [sub_zero]
    have := roundD_int 4294967295 (by norm_num)
    exact_mod_cast this
  simp only [AreaSignU, h1, h2, h3, r1, r2, r3, areaSignOfDiffs, m1, m2, m3]
  norm_num [Dbl.gt, Dbl.lt]

/-! ### Signs through the `double` operations -/

theorem SameSign.refl (a : ℚ) : SameSign a a := ⟨Iff.rfl, Iff.rfl⟩

theorem SameSign.symm {a b : ℚ} (h : SameSign a b) : SameSign b a := ⟨h.1.symm, h.2.symm⟩

theorem SameSign.trans {a b c : ℚ} (h1 : SameSign a b) (h2 : SameSign b c) : SameSign a c :=
  ⟨h1.1.trans h2.1, h1.2.trans h2.2⟩

theorem SameSign.eq_zero_iff {a b : ℚ} (h : SameSign a b) : a = 0 ↔ b = 0 := by
  constructor
  · intro ha
    rcases lt_trichotomy b 0 with hb | hb | hb
    · have := h.2.mpr hb; linarith
    · exact hb
    · have := h.1.mpr hb; linarith
  · intro hb
    rcases lt_trichotomy a 0 with ha | ha | ha
    · have := h.2.mp ha; linarith
    · exact ha
    · have := h.1.mp ha; linarith

theorem SameSign.mul {a a' b b' : ℚ} (h1 : SameSign a a') (h2 : SameSign b b') :
    SameSign (a * b) (a' * b') := by
  constructor
  · rw [mul_pos_iff, mul_pos_iff, h1.1, h1.2, h2.1, h2.2]
  · rw [mul_neg_iff, mul_neg_iff, h1.1, h1.2, h2.1, h2.2]

theorem SameSign.div {a a' b b' : ℚ} (h1 : SameSign a a') (h2 : SameSign b b') :
    SameSign (a / b) (a' / b') := by
  constructor
  · rw [div_pos_iff, div_pos_iff, h1.1, h1.2, h2.1, h2.2]
  · rw [div_neg_iff, div_neg_iff, h1.1, h1.2, h2.1, h2.2]

/-- A difference of two numbers of weakly opposite signs has its sign fixed by theirs. -/
theorem SameSign.sub_of_opposite {a a' b b' : ℚ} (h1 : SameSign a a') (h2 : SameSign b b')
    (hop : a * b ≤ 0) : SameSign (a - b) (a' - b') := by
  have z1 := h1.eq_zero_iff
  have z2 := h2.eq_zero_iff
  rcases lt_trichotomy a 0 with ha | ha | ha
  · have ha' := h1.2.mp ha
    have hb : 0 ≤ b := by
      by_contra hc
      rw [not_le] at hc
      have := mul_pos_of_neg_of_neg ha hc
      linarith
    have hb' : 0 ≤ b' := by
      by_contra hc
      rw [not_le] at hc
      have := h2.2.mpr hc
      linarith
    constructor
    · constructor <;> intro h <;> linarith
    · constructor <;> intro _ <;> linarith
  · have ha' := z1.mp ha
    rw [ha, ha', zero_sub, zero_sub]
    constructor
    · rw [neg_pos, neg_pos]; exact h2.2
    · rw [neg_lt_zero, neg_lt_zero]; exact h2.1
  · have ha' := h1.1.mp ha
    have hb : b ≤ 0 := by
      by_contra hc
      rw [not_le] at hc
      have := mul_pos ha hc
      linarith
    have hb' : b' ≤ 0 := by
      by_contra hc
      rw [not_le] at hc
      have := h2.1.mpr hc
      linarith
    constructor
    · constructor <;> intro _ <;> linarith
    · constructor <;> intro h <;> linarith

theorem SameSign.decide_pos {a b : ℚ} (h : SameSign a b) : decide (0 < a) = decide (0 < b) :=
  decide_eq_decide.mpr h.1

theorem SameSign.decide_neg {a b : ℚ} (h : SameSign a b) : decide (a < 0) = decide (b < 0) :=
  decide_eq_decide.mpr h.2

/-- Rounding a number of magnitude between `2 ^ j` and `2 ^ 1000`, `j ≥ -1074`: the result
is finite, has the sign of the number, is at least `2 ^ j` in magnitude and at most twice
the number. -/
theorem roundD_mag (q : ℚ) (j : ℤ) (hj : -1074 ≤ j) (h1 : (2 : ℚ) ^ j ≤ |q|)
    (h2 : |q| ≤ 2 ^ (1000 : ℤ)) :
    ∃ r, roundD q = Dbl.fin r ∧ SameSign q r ∧ (2 : ℚ) ^ j ≤ |r| ∧ |r| ≤ 2 * |q| := by
  have hjpos : (0 : ℚ) < 2 ^ j := by positivity
  have key : ∀ p : ℚ, (2 : ℚ) ^ j ≤ p → p ≤ 2 ^ (1000 : ℤ) →
      ∃ r, roundD p = Dbl.fin r ∧ 0 < r ∧ (2 : ℚ) ^ j ≤ r ∧ r ≤ 2 * p := by
    intro p hp1 hp2
    have hp : 0 < p := lt_of_lt_of_le hjpos hp1
    have hmin : (2 : ℚ) ^ (-1074 : ℤ) ≤ p :=
      le_trans (zpow_le_zpow_right₀ (by norm_num) hj) hp1
    obtain ⟨r, hr, a, b⟩ := roundD_pos p hmin hp2
    have hlog : j ≤ Int.log 2 p := by
      rw [← Int.zpow_le_iff_le_log (by norm_num) hp]
      exact_mod_cast hp1
    have hr' : (2 : ℚ) ^ j ≤ r := le_trans (zpow_le_zpow_right₀ (by norm_num) hlog) a
    exact ⟨r, hr, lt_of_lt_of_le hjpos hr', hr', b⟩
  rcases le_or_lt 0 q with hq | hq
  · rw [abs_of_nonneg hq] at h1 h2 ⊢
    obtain ⟨r, hr, rpos, a, b⟩ := key q h1 h2
    have hq' : 0 < q := lt_of_lt_of_le hjpos h1
    refine ⟨r, hr, ⟨⟨fun _ => rpos, fun _ => hq'⟩, ⟨fun h => ?_, fun h => ?_⟩⟩, ?_, ?_⟩
    · linarith
    · linarith
    · rw [abs_of_pos rpos]; exact a
    · rw [abs_of_pos rpos]; exact b
  · rw [abs_of_neg hq] at h1 h2 ⊢
    obtain ⟨r, hr, rpos, a, b⟩ := key (-q) h1 h2
    have hr' := roundD_neg_fin _ _ hr
    rw [neg_neg] at hr'
    refine ⟨-r, hr', ⟨⟨fun h => ?_, fun h => ?_⟩, ⟨fun _ => ?_, fun _ => hq⟩⟩, ?_, ?_⟩
    · linarith
    · linarith
    · linarith
    · rw [abs_neg, abs_of_pos rpos]; exact a
    · rw [abs_neg, abs_of_pos rpos]; exact b

/-- Rounding a number that is zero or of magnitude between `2 ^ j` and `b`. -/
theorem roundD_zero_or_mag (q : ℚ) (j : ℤ) (b : ℚ) (hj : -1074 ≤ j) (hb : b ≤ 2 ^ (1000 : ℤ))
    (h : q = 0 ∨ ((2 : ℚ) ^ j ≤ |q| ∧ |q| ≤ b)) :
    ∃ r, roundD q = Dbl.fin r ∧ SameSign q r ∧ (r = 0 ∨ ((2 : ℚ) ^ j ≤ |r| ∧ |r| ≤ 2 * b)) := by
  rcases h with h | ⟨h1, h2⟩
  · subst h
    exact ⟨0, roundD_zero, SameSign.refl 0, Or.inl rfl⟩
  · obtain ⟨r, hr, s, a, c⟩ := roundD_mag q j hj h1 (le_trans h2 hb)
    exact ⟨r, hr, s, Or.inr ⟨a, by linarith⟩⟩

theorem MagIn.mul_mag {l1 h1 l2 h2 a b : ℚ} (ha : MagIn l1 h1 a) (hb : MagIn l2 h2 b)
    (hl2 : 0 ≤ l2) : MagIn (l1 * l2) (h1 * h2) (a * b) := by
  rcases ha with ha | ⟨a1, a2⟩
  · left; rw [ha, zero_mul]
  · rcases hb with hb | ⟨b1, b2⟩
    · left; rw [hb, mul_zero]
    · right
      rw [abs_mul]
      exact ⟨mul_le_mul a1 b1 hl2 (abs_nonneg a),
        mul_le_mul a2 b2 (abs_nonneg b) (le_trans (abs_nonneg a) a2)⟩

theorem abs_sub_of_opposite (a b : ℚ) (hop : a * b ≤ 0) : |a - b| = |a| + |b| := by
  rcases le_total 0 a with sa | sa <;> rcases le_total 0 b with sb | sb
  · have h0 : a * b = 0 := le_antisymm hop (mul_nonneg sa sb)
    rcases mul_eq_zero.mp h0 with h | h
    · rw [h, zero_sub, abs_neg, abs_zero, zero_add]
    · rw [h, sub_zero, abs_zero, add_zero]
  · rw [abs_of_nonneg sa, abs_of_nonpos sb, abs_of_nonneg (by linarith)]
    ring
  · rw [abs_of_nonpos sa, abs_of_nonneg sb, abs_of_nonpos (by linarith)]
    ring
  · have h0 : a * b = 0 := le_antisymm hop (mul_nonneg_of_nonpos_of_nonpos sa sb)
    rcases mul_eq_zero.mp h0 with h | h
    · rw [h, zero_sub, abs_neg, abs_zero, zero_add]
    · rw [h, sub_zero, abs_zero, add_zero]

/-- The magnitude of a difference of two numbers of weakly opposite signs. -/
theorem MagIn.sub_mag {l h a b : ℚ} (ha : MagIn l h a) (hb : MagIn l h b)
    (hop : a * b ≤ 0) : MagIn l (2 * h) (a - b) := by
  rcases ha with ha | ⟨a1, a2⟩
  · rcases hb with hb | ⟨b1, b2⟩
    · left; rw [ha, hb, sub_zero]
    · right
      rw [ha, zero_sub, abs_neg]
      exact ⟨b1, by linarith [abs_nonneg b]⟩
  · rcases hb with hb | ⟨b1, b2⟩
    · right
      rw [hb, sub_zero]
      exact ⟨a1, by linarith [abs_nonneg a]⟩
    · right
      rw [abs_sub_of_opposite a b hop]
      exact ⟨by linarith [abs_nonneg b], by linarith⟩

/-- A `double` of magnitude at least `2 ^ -250` is an integer multiple of `2 ^ -302`. -/
theorem grid_of_double_pos (q : ℚ) (hq : 0 < q) (hd : roundD q = Dbl.fin q)
    (hlo : (2 : ℚ) ^ (-250 : ℤ) ≤ q) : ∃ n : ℤ, q = n * 2 ^ (-302 : ℤ) := by
  rw [roundD_of_pos q hq] at hd
  split_ifs at hd with hov
  injection hd with hd
  have hlog : -250 ≤ Int.log 2 q := by
    rw [← Int.zpow_le_iff_le_log (by norm_num) hq]
    exact_mod_cast hlo
  set e : ℤ := max (Int.log 2 q) (-1022) with he
  have hege : -250 ≤ e := le_trans hlog (le_max_left _ _)
  obtain ⟨j, hj⟩ := Int.eq_ofNat_of_zero_le (show 0 ≤ e - 52 + 302 by omega)
  refine ⟨roundNE (q / 2 ^ (e - 52)) * 2 ^ j, ?_⟩
  have hpow : (2 : ℚ) ^ (e - 52) = 2 ^ j * 2 ^ (-302 : ℤ) := by
    rw [← zpow_natCast (2 : ℚ) j, ← hj, ← zpow_add₀ (by norm_num)]
    congr 1
    ring
  push_cast
  rw [mul_assoc, ← hpow]
  exact hd.symm

theorem grid_of_double (q : ℚ) (h : IsDoubleWithin 250 q) : ∃ n : ℤ, q = n * 2 ^ (-302 : ℤ) := by
  obtain ⟨hd, hz | ⟨hlo, -⟩⟩ := h
  · exact ⟨0, by rw [hz]; simp⟩
  · have hlo' : (2 : ℚ) ^ (-250 : ℤ) ≤ |q| := by simpa using hlo
    rcases le_or_lt 0 q with hq | hq
    · rw [abs_of_nonneg hq] at hlo'
      exact grid_of_double_pos q (lt_of_lt_of_le (by positivity) hlo') hd hlo'
    · rw [abs_of_neg hq] at hlo'
      obtain ⟨n, hn⟩ := grid_of_double_pos (-q) (by linarith) (by
        have := roundD_neg_fin _ _ hd
        exact this) hlo'
      exact ⟨-n, by push_cast; linarith⟩

/-- The difference of two `double`s of magnitudes between `2 ^ -250` and `2 ^ 250`, as the
code computes it: finite, of the sign of the exact difference, and zero or of magnitude
between `2 ^ -302` and `2 ^ 252`. -/
theorem subD_within (a b : ℚ) (ha : IsDoubleWithin 250 a) (hb : IsDoubleWithin 250 b) :
    ∃ c, Dbl.sub (roundD a) (roundD b) = Dbl.fin c ∧ SameSign (a - b) c ∧
      MagIn (2 ^ (-302 : ℤ)) (2 ^ (252 : ℤ)) c := by
  obtain ⟨n, hn⟩ := grid_of_double a ha
  obtain ⟨m, hm⟩ := grid_of_double b hb
  rw [ha.1, hb.1]
  show ∃ c, roundD (a - b) = Dbl.fin c ∧ _
  have hA : |a| ≤ 2 ^ (250 : ℤ) := by
    rcases ha.2 with h | ⟨-, h⟩
    · rw [h, abs_zero]; positivity
    · simpa using h
  have hB : |b| ≤ 2 ^ (250 : ℤ) := by
    rcases hb.2 with h | ⟨-, h⟩
    · rw [h, abs_zero]; positivity
    · simpa using h
  have hmag : a - b = 0 ∨ ((2 : ℚ) ^ (-302 : ℤ) ≤ |a - b| ∧ |a - b| ≤ 2 ^ (251 : ℤ)) := by
    by_cases hnm : n = m
    · left; rw [hn, hm, hnm, sub_self]
    · right
      constructor
      · have h1 : a - b = ((n - m : ℤ) : ℚ) * 2 ^ (-302 : ℤ) := by
          rw [hn, hm]; push_cast; ring
        have h2 : (1 : ℚ) ≤ |((n - m : ℤ) : ℚ)| := by
          have : 1 ≤ |n - m| := Int.one_le_abs (sub_ne_zero.mpr hnm)
          exact_mod_cast this
        rw [h1, abs_mul, abs_of_pos (show (0 : ℚ) < 2 ^ (-302 : ℤ) by positivity)]
        calc (2 : ℚ) ^ (-302 : ℤ) = 1 * 2 ^ (-302 : ℤ) := (one_mul _).symm
          _ ≤ |((n - m : ℤ) : ℚ)| * 2 ^ (-302 : ℤ) :=
            mul_le_mul_of_nonneg_right h2 (by positivity)
      · calc |a - b| ≤ |a| + |b| := abs_sub a b
          _ ≤ 2 ^ (250 : ℤ) + 2 ^ (250 : ℤ) := add_le_add hA hB
          _ = 2 ^ (251 : ℤ) := by norm_num
  obtain ⟨c, hc, s, mg⟩ := roundD_zero_or_mag (a - b) (-302) (2 ^ (251 : ℤ)) (by norm_num)
    (by norm_num) hmag
  refine ⟨c, hc, s, ?_⟩
  rcases mg with h | ⟨h1, h2⟩
  · exact Or.inl h
  · exact Or.inr ⟨h1, le_trans h2 (by norm_num)⟩

theorem SameSign.mul_nonpos {a a' b b' : ℚ} (h1 : SameSign a a') (h2 : SameSign b b')
    (h : a * b ≤ 0) : a' * b' ≤ 0 := by
  by_contra hc
  rw [not_le] at hc
  have := (h1.mul h2).1.mpr hc
  linarith

/-- The sign of `x` computed in `double` is the sign of the exact `x` when `curr` and `prev`
lie on different sides of the x-axis and on one side of the y-axis, their `double`
coordinates having the signs of the exact ones and magnitudes between `2 ^ -302` and
`2 ^ 252`: the two products of the numerator have weakly opposite signs, so nothing
cancels, and nothing underflows or overflows. -/
theorem crossXD_sign_within (cx cy px py ex ey fx fy : ℚ)
    (scx : SameSign ex cx) (scy : SameSign ey cy) (spx : SameSign fx px) (spy : SameSign fy py)
    (mcx : MagIn (2 ^ (-302 : ℤ)) (2 ^ (252 : ℤ)) cx)
    (mcy : MagIn (2 ^ (-302 : ℤ)) (2 ^ (252 : ℤ)) cy)
    (mpx : MagIn (2 ^ (-302 : ℤ)) (2 ^ (252 : ℤ)) px)
    (mpy : MagIn (2 ^ (-302 : ℤ)) (2 ^ (252 : ℤ)) py)
    (hyy : ey * fy ≤ 0) (hne : ¬ (ey = 0 ∧ fy = 0)) (hxx : 0 ≤ ex * fx) :
    (crossXD ⟨Dbl.fin cx, Dbl.fin cy⟩ ⟨Dbl.fin px, Dbl.fin py⟩).gt 0
        = decide (crossX ⟨ex, ey⟩ ⟨fx, fy⟩ > 0) ∧
    (crossXD ⟨Dbl.fin cx, Dbl.fin cy⟩ ⟨Dbl.fin px, Dbl.fin py⟩).lt 0
        = decide (crossX ⟨ex, ey⟩ ⟨fx, fy⟩ < 0) := by
  have hlo : (0 : ℚ) ≤ 2 ^ (-302 : ℤ) := by positivity
  -- the two products
  have m1 : MagIn (2 ^ (-604 : ℤ)) (2 ^ (504 : ℤ)) (cx * py) := by
    have := mcx.mul_mag mpy hlo
    rw [← zpow_add₀ (by norm_num), ← zpow_add₀ (by norm_num)] at this
    exact this
  have m2 : MagIn (2 ^ (-604 : ℤ)) (2 ^ (504 : ℤ)) (px * cy) := by
    have := mpx.mul_mag mcy hlo
    rw [← zpow_add₀ (by norm_num), ← zpow_add₀ (by norm_num)] at this
    exact this
  obtain ⟨r1, e1, s1, g1⟩ := roundD_zero_or_mag (cx * py) (-604) (2 ^ (504 : ℤ)) (by norm_num)
    (by norm_num) m1
  obtain ⟨r2, e2, s2, g2⟩ := roundD_zero_or_mag (px * cy) (-604) (2 ^ (504 : ℤ)) (by norm_num)
    (by norm_num) m2
  have t1 : SameSign (ex * fy) r1 := (scx.mul spy).trans s1
  have t2 : SameSign (fx * ey) r2 := (spx.mul scy).trans s2
  have hopE : ex * fy * (fx * ey) ≤ 0 := by
    have : ex * fy * (fx * ey) = (ex * fx) * (ey * fy) := by ring
    rw [this]
    exact mul_nonpos_of_nonneg_of_nonpos hxx hyy
  have hopR : r1 * r2 ≤ 0 := SameSign.mul_nonpos t1 t2 hopE
  -- the numerator
  have g1' : MagIn (2 ^ (-604 : ℤ)) (2 ^ (505 : ℤ)) r1 := by
    rcases g1 with h | ⟨a, b⟩
    · exact Or.inl h
    · exact Or.inr ⟨a, le_trans b (by norm_num)⟩
  have g2' : MagIn (2 ^ (-604 : ℤ)) (2 ^ (505 : ℤ)) r2 := by
    rcases g2 with h | ⟨a, b⟩
    · exact Or.inl h
    · exact Or.inr ⟨a, le_trans b (by norm_num)⟩
  have m3 := g1'.sub_mag g2' hopR
  obtain ⟨r3, e3, s3, g3⟩ := roundD_zero_or_mag (r1 - r2) (-604) (2 * 2 ^ (505 : ℤ))
    (by norm_num) (by norm_num) m3
  have t3 : SameSign (ex * fy - fx * ey) r3 := (t1.sub_of_opposite t2 hopE).trans s3
  -- the divisor
  have hopY : fy * ey ≤ 0 := by rw [mul_comm]; exact hyy
  have hopC : py * cy ≤ 0 := SameSign.mul_nonpos spy scy hopY
  have m4 := mpy.sub_mag mcy hopC
  have hd0 : py - cy ≠ 0 := by
    intro h
    have hz : fy - ey = 0 := ((spy.sub_of_opposite scy hopY).eq_zero_iff).mpr h
    have hfe : fy = ey := by linarith
    rw [hfe] at hyy
    have : ey = 0 := by nlinarith
    exact hne ⟨this, by rw [hfe, this]⟩
  have m4' : (2 : ℚ) ^ (-302 : ℤ) ≤ |py - cy| ∧ |py - cy| ≤ 2 * 2 ^ (252 : ℤ) := by
    rcases m4 with h | h
    · exact absurd h hd0
    · exact h
  obtain ⟨d, ed, sd, dlo, dhi⟩ := roundD_mag (py - cy) (-302) (by norm_num) m4'.1
    (le_trans m4'.2 (by norm_num))
  have t4 : SameSign (fy - ey) d := (spy.sub_of_opposite scy hopY).trans sd
  have hdne : d ≠ 0 := by
    intro h
    rw [h, abs_zero] at dlo
    have : (0 : ℚ) < 2 ^ (-302 : ℤ) := by positivity
    linarith
  -- the quotient
  have hq : r3 / d = 0 ∨ (2 : ℚ) ^ (-1074 : ℤ) ≤ |r3 / d| := by
    rcases g3 with h | ⟨a, -⟩
    · left; rw [h, zero_div]
    · right
      rw [abs_div, le_div_iff₀ (abs_pos.mpr hdne)]
      have hdhi : |d| ≤ 2 ^ (254 : ℤ) := by
        calc |d| ≤ 2 * |py - cy| := dhi
          _ ≤ 2 * (2 * 2 ^ (252 : ℤ)) := by linarith [m4'.2]
          _ = 2 ^ (254 : ℤ) := by norm_num
      calc (2 : ℚ) ^ (-1074 : ℤ) * |d| ≤ 2 ^ (-1074 : ℤ) * 2 ^ (254 : ℤ) :=
            mul_le_mul_of_nonneg_left hdhi (by positivity)
        _ ≤ 2 ^ (-604 : ℤ) := by
            rw [← zpow_add₀ (by norm_num)]
            exact zpow_le_zpow_right₀ (by norm_num) (by norm_num)
        _ ≤ |r3| := a
  obtain ⟨g, l⟩ := roundD_sign (r3 / d) hq
  have hX : crossXD ⟨Dbl.fin cx, Dbl.fin cy⟩ ⟨Dbl.fin px, Dbl.fin py⟩ = roundD (r3 / d) := by
    show Dbl.div (Dbl.sub (roundD (cx * py)) (roundD (px * cy))) (roundD (py - cy)) = _
    rw [e1, e2]
    show Dbl.div (roundD (r1 - r2)) (roundD (py - cy)) = _
    rw [e3, ed]
    show (if d = 0 then Dbl.nan else roundD (r3 / d)) = _
    rw [if_neg hdne]
  have hE : crossX ⟨ex, ey⟩ ⟨fx, fy⟩ = (ex * fy - fx * ey) / (fy - ey) := rfl
  have t5 : SameSign ((ex * fy - fx * ey) / (fy - ey)) (r3 / d) := t3.div t4
  rw [hX, g, l, hE]
  exact ⟨t5.decide_pos.symm, t5.decide_neg.symm⟩

/-- The two crossing tests of the edge from the vertex `w` to the vertex `v`, seen from `pt`,
give the same answers in `double` as in exact arithmetic when all coordinates are `double`s
that are zero or of magnitude between `2 ^ -250` and `2 ^ 250` and the edge is horizontal,
or lies strictly on one side of the horizontal through `pt`, or lies on one side of the
vertical through `pt`. -/
theorem edge_agree_within (v w pt : Point) (hv : v.DoubleWithin 250) (hw : w.DoubleWithin 250)
    (hp : pt.DoubleWithin 250)
    (hcase : v.y = w.y ∨ 0 < (v.y - pt.y) * (w.y - pt.y) ∨ 0 ≤ (v.x - pt.x) * (w.x - pt.x)) :
    rHitD (relD v pt) (relD w pt)
        = rHit ⟨v.x - pt.x, v.y - pt.y⟩ ⟨w.x - pt.x, w.y - pt.y⟩ ∧
    lHitD (relD v pt) (relD w pt)
        = lHit ⟨v.x - pt.x, v.y - pt.y⟩ ⟨w.x - pt.x, w.y - pt.y⟩ := by
  obtain ⟨cx, dcx, scx, mcx⟩ := subD_within v.x pt.x hv.1 hp.1
  obtain ⟨cy, dcy, scy, mcy⟩ := subD_within v.y pt.y hv.2 hp.2
  obtain ⟨px, dpx, spx, mpx⟩ := subD_within w.x pt.x hw.1 hp.1
  obtain ⟨py, dpy, spy, mpy⟩ := subD_within w.y pt.y hw.2 hp.2
  have e1 : relD v pt = ⟨Dbl.fin cx, Dbl.fin cy⟩ := by simp only [relD, dcx, dcy]
  have e2 : relD w pt = ⟨Dbl.fin px, Dbl.fin py⟩ := by simp only [relD, dpx, dpy]
  rw [e1, e2]
  have hg : ∀ q : ℚ, (Dbl.fin q).gt 0 = decide (q > 0) := fun _ => rfl
  have hl : ∀ q : ℚ, (Dbl.fin q).lt 0 = decide (q < 0) := fun _ => rfl
  have gy : decide (cy > 0) = decide (v.y - pt.y > 0) := scy.decide_pos.symm
  have gpy : decide (py > 0) = decide (w.y - pt.y > 0) := spy.decide_pos.symm
  have ly : decide (cy < 0) = decide (v.y - pt.y < 0) := scy.decide_neg.symm
  have lpy : decide (py < 0) = decide (w.y - pt.y < 0) := spy.decide_neg.symm
  by_cases hs : v.y = w.y ∨ 0 < (v.y - pt.y) * (w.y - pt.y)
  · have q1 : decide (v.y - pt.y > 0) = decide (w.y - pt.y > 0) := by
      rw [decide_eq_decide]
      rcases hs with h | h
      · rw [h]
      · exact pos_iff_pos_of_mul_pos h
    have q2 : decide (v.y - pt.y < 0) = decide (w.y - pt.y < 0) := by
      rw [decide_eq_decide]
      rcases hs with h | h
      · rw [h]
      · exact neg_iff_neg_of_mul_pos h
    simp only [rHitD, lHitD, rHit, lHit, hg, hl, gy, gpy, ly, lpy, q1, q2, bne_self_eq_false,
      Bool.false_and, and_self]
  · rw [not_or, not_lt] at hs
    obtain ⟨hne, hyy⟩ := hs
    have hxx : 0 ≤ (v.x - pt.x) * (w.x - pt.x) := by
      rcases hcase with h | h | h
      · exact absurd h hne
      · exact absurd h (not_lt.mpr hyy)
      · exact h
    have hnz : ¬ (v.y - pt.y = 0 ∧ w.y - pt.y = 0) := by
      rintro ⟨a, b⟩
      exact hne (by linarith)
    obtain ⟨g, l⟩ := crossXD_sign_within cx cy px py (v.x - pt.x) (v.y - pt.y) (w.x - pt.x)
      (w.y - pt.y) scx scy spx spy mcx mcy mpx mpy hyy hnz hxx
    simp only [rHitD, lHitD, rHit, lHit, g, l, hg, hl, gy, gpy, ly, lpy, and_self]

/-- An integer of at most 32 bits is a `double` of magnitude zero or between 1 and
`2 ^ 32`. -/
theorem IsIntUpTo.isDoubleWithin {q : ℚ} (h : IsIntUpTo (2 ^ 32) q) : IsDoubleWithin 250 q := by
  obtain ⟨n, rfl, hn⟩ := h.exists
  refine ⟨roundD_int n (by omega), ?_⟩
  rcases eq_or_ne n 0 with h0 | h0
  · left; exact_mod_cast h0
  · right
    have h1 : (1 : ℚ) ≤ |(n : ℚ)| := by
      have : 1 ≤ |n| := Int.one_le_abs h0
      exact_mod_cast this
    have h2 : |(n : ℚ)| ≤ 2 ^ 32 := by
      have : |n| ≤ 2 ^ 32 := by rw [abs_le]; constructor <;> omega
      exact_mod_cast this
    constructor
    · refine le_trans ?_ h1
      exact zpow_le_one_of_nonpos₀ (by norm_num) (by norm_num)
    · refine le_trans h2 ?_
      norm_num

theorem Point.IntUpTo.doubleWithin {v : Point} (h : v.IntUpTo (2 ^ 32)) : v.DoubleWithin 250 :=
  ⟨h.1.isDoubleWithin, h.2.isDoubleWithin⟩

/-! ### Axis-aligned rectangles, in `double` -/

/-- C8: for the axis-aligned rectangle region with vertices
(x0,y0),(x1,y0),(x1,y1),(x0,y1), `x0 < x1` and `y0 < y1`, however it was reached by the
mutators, whose coordinates are `double`s that are zero or of magnitude between `2 ^ -250`
and `2 ^ 250` (every `float` and every 32-bit integer is one), and every point `p` with such
coordinates, `Contains p`, computed in `double` as in the code, is true exactly when
`x0 ≤ p.x ≤ x1` and `y0 ≤ p.y ≤ y1`: the four edges and the corners count as inside. -/
theorem ContainsD_rectangle (ops : List Mutator) (x0 y0 x1 y1 : ℚ) (p : Point)
    (hpts : (Region.run ops).m_points = [⟨x0, y0⟩, ⟨x1, y0⟩, ⟨x1, y1⟩, ⟨x0, y1⟩])
    (hx0 : IsDoubleWithin 250 x0) (hy0 : IsDoubleWithin 250 y0)
    (hx1 : IsDoubleWithin 250 x1) (hy1 : IsDoubleWithin 250 y1)
    (hp : p.DoubleWithin 250)
    (hx : x0 < x1) (hy : y0 < y1) :
    (Region.run ops).ContainsD p = true ↔ (x0 ≤ p.x ∧ p.x ≤ x1 ∧ y0 ≤ p.y ∧ p.y ≤ y1) := by
  have hs : (Region.run ops).scanD p = (Region.run ops).scan p := by
    apply scanD_eq_scan
    rw [hpts]
    intro i hi
    simp only [List.length_cons, List.length_nil] at hi ⊢
    have h00 : (⟨x0, y0⟩ : Point).DoubleWithin 250 := ⟨hx0, hy0⟩
    have h10 : (⟨x1, y0⟩ : Point).DoubleWithin 250 := ⟨hx1, hy0⟩
    have h11 : (⟨x1, y1⟩ : Point).DoubleWithin 250 := ⟨hx1, hy1⟩
    have h01 : (⟨x0, y1⟩ : Point).DoubleWithin 250 := ⟨hx0, hy1⟩
    interval_cases i
    · exact edge_agree_within ⟨x0, y0⟩ ⟨x0, y1⟩ p h00 h01 hp
        (Or.inr (Or.inr (mul_self_nonneg _)))
    · exact edge_agree_within ⟨x1, y0⟩ ⟨x0, y0⟩ p h10 h00 hp (Or.inl rfl)
    · exact edge_agree_within ⟨x1, y1⟩ ⟨x1, y0⟩ p h11 h10 hp
        (Or.inr (Or.inr (mul_self_nonneg _)))
    · exact edge_agree_within ⟨x0, y1⟩ ⟨x1, y1⟩ p h01 h11 hp (Or.inl rfl)
  rw [ContainsD_eq_of_scan _ p hs]
  exact Contains_rectangle_exact ops x0 y0 x1 y1 p hpts hx hy

/-- Witness for C8: the square (0,0),(10,0),(10,10),(0,10) contains (5,5) and the edge point
(10,5), and does not contain (-1,5). -/
theorem ContainsD_rectangle_witness :
    (Region.run [Mutator.construct [⟨0, 0⟩, ⟨10, 0⟩, ⟨10, 10⟩, ⟨0, 10⟩]]).ContainsD ⟨5, 5⟩ = true ∧
    (Region.run [Mutator.construct [⟨0, 0⟩, ⟨10, 0⟩, ⟨10, 10⟩, ⟨0, 10⟩]]).ContainsD ⟨10, 5⟩
      = true ∧
    (Region.run [Mutator.construct [⟨0, 0⟩, ⟨10, 0⟩, ⟨10, 10⟩, ⟨0, 10⟩]]).ContainsD ⟨-1, 5⟩
      = false :=
  ⟨(ContainsD_rectangle [Mutator.construct [⟨0, 0⟩, ⟨10, 0⟩, ⟨10, 10⟩, ⟨0, 10⟩]] 0 0 10 10
      ⟨5, 5⟩ rfl (IsIntUpTo.isDoubleWithin (by decide)) (IsIntUpTo.isDoubleWithin (by decide))
      (IsIntUpTo.isDoubleWithin (by decide)) (IsIntUpTo.isDoubleWithin (by decide))
      (Point.IntUpTo.doubleWithin (by decide)) (by norm_num) (by norm_num)).mpr (by norm_num),
   (ContainsD_rectangle [Mutator.construct [⟨0, 0⟩, ⟨10, 0⟩, ⟨10, 10⟩, ⟨0, 10⟩]] 0 0 10 10
      ⟨10, 5⟩ rfl (IsIntUpTo.isDoubleWithin (by decide)) (IsIntUpTo.isDoubleWithin (by decide))
      (IsIntUpTo.isDoubleWithin (by decide)) (IsIntUpTo.isDoubleWithin (by decide))
      (Point.IntUpTo.doubleWithin (by decide)) (by norm_num) (by norm_num)).mpr (by norm_num),
   Bool.eq_false_iff.mpr (fun h => by
     have h' := (ContainsD_rectangle [Mutator.construct [⟨0, 0⟩, ⟨10, 0⟩, ⟨10, 10⟩, ⟨0, 10⟩]]
       0 0 10 10 ⟨-1, 5⟩ rfl (IsIntUpTo.isDoubleWithin (by decide))
       (IsIntUpTo.isDoubleWithin (by decide)) (IsIntUpTo.isDoubleWithin (by decide))
       (IsIntUpTo.isDoubleWithin (by decide))
       (Point.IntUpTo.doubleWithin (by decide)) (by norm_num) (by norm_num)).mp h
     norm_num at h')⟩

/-! ### The rectangle test as an optimisation, in `double` -/

end m2
